import Mathlib

/-! # rtatblas: option space, shape keys and the planning engine

A shallow embedding of `src/methods/base_options.h`, `src/methods/gemm.h`,
`src/methods/gemm.cpp` and `src/planning_system.h`.

Conventions of the embedding:

* a `std::string` is a `List Char` (one `Char` per C++ `char`), compared the way
  `std::string::operator<` compares: lexicographically by character code, a proper
  prefix being smaller;
* an input stream is its unread characters together with its `failbit`;
* a C++ exception leaving a function is recorded in the result, next to the value the
  reference arguments hold at that point;
* `size_t` values are natural numbers, `int` values are integers, and the conversion
  between them wraps modulo `2^32`.
-/

namespace rtat

/-! ## Strings and streams -/

/-- A `std::string`. -/
abbrev Str := List Char

/-- The comparison `std::string::operator<`: lexicographic on character codes. -/
def Str.lt : Str → Str → Bool
  | [], [] => false
  | [], _ :: _ => true
  | _ :: _, [] => false
  | a :: as, b :: bs =>
    if a.toNat < b.toNat then true
    else if b.toNat < a.toNat then false
    else Str.lt as bs

/-- The classification `std::isspace` in the "C" locale: space, `\t`, `\n`, `\v`, `\f`, `\r`. -/
def isspace (c : Char) : Bool :=
  c.toNat = 32 || (9 ≤ c.toNat && c.toNat ≤ 13)

/-- An input stream: the characters not yet read and the `failbit`. -/
structure IStream where
  buf : Str
  failbit : Bool
deriving DecidableEq, Repr

/-- A stream freshly opened on a string, as `std::stringstream ss(str)`. -/
def IStream.ofStr (s : Str) : IStream := ⟨s, false⟩

/-- The token that `is >> s` extracts from the unread characters: leading white space is
skipped, then characters are taken up to the next white space or the end. -/
def token (buf : Str) : Str :=
  (buf.dropWhile isspace).takeWhile (fun c => !isspace c)

/-- What `is >> s` leaves unread. -/
def afterToken (buf : Str) : Str :=
  (buf.dropWhile isspace).dropWhile (fun c => !isspace c)

/-- The extraction `is >> s` for a `std::string s` that starts out empty: on a failed stream
nothing is read and `s` stays empty; otherwise the next token is read, and `failbit` is set
when that token is empty. -/
def IStream.readStr (is : IStream) : Str × IStream :=
  if is.failbit then ([], is)
  else (token is.buf, ⟨afterToken is.buf, (token is.buf).isEmpty⟩)

/-- An exception that leaves a function. `terminate` is the bare `throw;` with no exception
in flight, which calls `std::terminate`; `message` is a thrown string literal. -/
inductive Raised where
  | runtime_error (msg : Str)
  | terminate
  | message (text : Str)
deriving DecidableEq, Repr

/-! ## `base_options.h` -/

/-- The enum `BLAS_Op::_BLAS_Op`. -/
inductive BLAS_Op where
  | NOTRANS
  | TRANS
deriving DecidableEq, Repr

/-- The enum `Pad_Op::_Pad_Op`. -/
inductive Pad_Op where
  | NOPAD
  | PAD
deriving DecidableEq, Repr

/-- The conversion `BLAS_Op::operator std::string`. -/
def BLAS_Op.toStr : BLAS_Op → Str
  | .TRANS => ['T']
  | .NOTRANS => ['N']

/-- The conversion `Pad_Op::operator std::string`. -/
def Pad_Op.toStr : Pad_Op → Str
  | .PAD => ['P']
  | .NOPAD => ['N']

/-- The constructor `BLAS_Op::BLAS_Op(std::string c)`. -/
def BLAS_Op.ofStr (c : Str) : Except Raised BLAS_Op :=
  if c.length > 1 then .error .terminate
  else if c = ['N'] then .ok .NOTRANS
  else if c = ['T'] then .ok .TRANS
  else .error (.runtime_error ("Invalid BLAS_Op string ".toList ++ c))

/-- The constructor `Pad_Op::Pad_Op(std::string c)`. -/
def Pad_Op.ofStr (c : Str) : Except Raised Pad_Op :=
  if c = ['N'] then .ok .NOPAD
  else if c = ['P'] then .ok .PAD
  else .error (.runtime_error ("Invalid Pad_Op string ".toList ++ c))

/-! ## `gemm.h` and `gemm.cpp`: the option types -/

/-- The struct `GEMM_Options` of `gemm.h`: one transpose flag per operand. -/
structure GEMM_Options where
  transa : BLAS_Op
  transb : BLAS_Op
  transc : BLAS_Op
deriving DecidableEq, Repr

/-- The struct `GEMM_Options_Pad` of `gemm.h`: a transpose flag and a pad flag per operand.
The member functions of `gemm.cpp` (there still under the name `GEMM_Options`) are written
for this six-field layout and this constructor order. -/
structure GEMM_Options_Pad where
  transa : BLAS_Op
  pada : Pad_Op
  transb : BLAS_Op
  padb : Pad_Op
  transc : BLAS_Op
  padc : Pad_Op
deriving DecidableEq, Repr

/-- The default constructor: every member is default-constructed (`NOTRANS`, `NOPAD`). -/
def GEMM_Options_Pad.default_opts : GEMM_Options_Pad :=
  ⟨.NOTRANS, .NOPAD, .NOTRANS, .NOPAD, .NOTRANS, .NOPAD⟩

/-- Modelled from the spec: `GEMM_Options::enumerate` for the three-field base type. `gemm.h`
only declares it, and the one definition in `gemm.cpp` builds six-field options; the spec
gives the base space as the cross product of the three transpose flags, enumerated here with
the loop nest of `gemm.cpp` restricted to those flags. -/
def GEMM_Options.enumerate : List GEMM_Options :=
  [BLAS_Op.NOTRANS, BLAS_Op.TRANS].flatMap fun opA =>
  [BLAS_Op.NOTRANS, BLAS_Op.TRANS].flatMap fun opB =>
  [BLAS_Op.NOTRANS, BLAS_Op.TRANS].map fun opC =>
    GEMM_Options.mk opA opB opC

/-- The function `enumerate` of `gemm.cpp`: six nested loops, the innermost pushing
`GEMM_Options(opA,padA,opB,padB,opC,padC)`. -/
def GEMM_Options_Pad.enumerate : List GEMM_Options_Pad :=
  [BLAS_Op.NOTRANS, BLAS_Op.TRANS].flatMap fun opA =>
  [BLAS_Op.NOTRANS, BLAS_Op.TRANS].flatMap fun opB =>
  [BLAS_Op.NOTRANS, BLAS_Op.TRANS].flatMap fun opC =>
  [Pad_Op.NOPAD, Pad_Op.PAD].flatMap fun padA =>
  [Pad_Op.NOPAD, Pad_Op.PAD].flatMap fun padB =>
  [Pad_Op.NOPAD, Pad_Op.PAD].map fun padC =>
    GEMM_Options_Pad.mk opA padA opB padB opC padC

/-- The conversion `operator std::string` of `gemm.cpp`: the six one-character strings are
written to a string stream in the order transa, transb, transc, pada, padb, padc, and the
result is what `ss >> ret` reads back from it. -/
def GEMM_Options_Pad.toStr (o : GEMM_Options_Pad) : Str :=
  (IStream.ofStr (o.transa.toStr ++ o.transb.toStr ++ o.transc.toStr
    ++ o.pada.toStr ++ o.padb.toStr ++ o.padc.toStr)).readStr.1

/-- The comparison `operator<` of `gemm.cpp`: the string encodings are compared. -/
def GEMM_Options_Pad.lt (a b : GEMM_Options_Pad) : Bool :=
  Str.lt a.toStr b.toStr

/-- The state in which `operator>>` leaves its caller: the option object behind the
reference, the stream, and the exception that left the function, if one did. -/
structure ReadResult where
  opts : GEMM_Options_Pad
  is : IStream
  raised : Option Raised
deriving DecidableEq, Repr

/-- A decode succeeded: no exception, and the stream is not failed. -/
def ReadResult.ok (r : ReadResult) : Bool :=
  r.raised.isNone && !r.is.failbit

/-- The character `s[i]` as a one-character string, `{s[i]}`. -/
def charAt (s : Str) (i : Nat) : Str := [s.getD i (Char.ofNat 0)]

/-- The extraction `operator>>(std::istream&, GEMM_Options&)` of `gemm.cpp`. A token is
read; when its size is not 6 the stream is failed and the option is left alone. Otherwise
the fields are assigned one at a time in the order transa, pada, transb, padb, transc, padc,
and the first constructor that throws ends the function with the earlier assignments made. -/
def GEMM_Options_Pad.read (is : IStream) (opts : GEMM_Options_Pad) : ReadResult :=
  let (s, is1) := is.readStr
  if s.length ≠ 6 then ⟨opts, { is1 with failbit := true }, none⟩
  else
    match BLAS_Op.ofStr (charAt s 0) with
    | .error e => ⟨opts, is1, some e⟩
    | .ok ta =>
      let o1 := { opts with transa := ta }
      match Pad_Op.ofStr (charAt s 3) with
      | .error e => ⟨o1, is1, some e⟩
      | .ok pa =>
        let o2 := { o1 with pada := pa }
        match BLAS_Op.ofStr (charAt s 1) with
        | .error e => ⟨o2, is1, some e⟩
        | .ok tb =>
          let o3 := { o2 with transb := tb }
          match Pad_Op.ofStr (charAt s 4) with
          | .error e => ⟨o3, is1, some e⟩
          | .ok pb =>
            let o4 := { o3 with padb := pb }
            match BLAS_Op.ofStr (charAt s 2) with
            | .error e => ⟨o4, is1, some e⟩
            | .ok tc =>
              let o5 := { o4 with transc := tc }
              match Pad_Op.ofStr (charAt s 5) with
              | .error e => ⟨o5, is1, some e⟩
              | .ok pc => ⟨{ o5 with padc := pc }, is1, none⟩

/-! ## Shapes: `GEMM_Inputs` and `GEMM_Key` -/

/-- The vendor enum `cublasOperation_t`. The sources name `CUBLAS_OP_N` and `CUBLAS_OP_T` and
reach every other value through an `else` or `default:` branch; `CUBLAS_OP_C` stands for
those. The values are ordered as the vendor numbers them. -/
inductive cublasOperation_t where
  | CUBLAS_OP_N
  | CUBLAS_OP_T
  | CUBLAS_OP_C
deriving DecidableEq, Repr

/-- The position of an operation in the vendor numbering, for `<` on the enum. -/
def cublasOperation_t.toNat : cublasOperation_t → Nat
  | .CUBLAS_OP_N => 0
  | .CUBLAS_OP_T => 1
  | .CUBLAS_OP_C => 2

/-- What `dims()` of a `Matrix` returns: rows, columns and leading dimension, read by the
sources as `dims().m`, `dims().n` and `dims().ld` and passed on as `size_t`. -/
structure MatrixDims where
  m : Nat
  n : Nat
  ld : Nat
deriving DecidableEq, Repr

/-- A `Matrix` operand: a device address and its dimensions. -/
structure Matrix where
  ptr : Nat
  dims : MatrixDims
deriving DecidableEq, Repr

/-- The struct `GEMM_Inputs` of `planning_system.h` (that of `gemm.h` lacks `space`). The
scalars are exact rationals; `space` is the byte size of the caller's workspace. -/
structure GEMM_Inputs where
  handle : Nat
  transa : cublasOperation_t
  transb : cublasOperation_t
  A : Matrix
  B : Matrix
  C : Matrix
  alpha : ℚ
  beta : ℚ
  space : Nat
deriving DecidableEq, Repr

/-- The member `size_t m() {return C.dims().m;}`. -/
def GEMM_Inputs.m (i : GEMM_Inputs) : Nat := i.C.dims.m

/-- The member `size_t n() {return C.dims().n;}`. -/
def GEMM_Inputs.n (i : GEMM_Inputs) : Nat := i.C.dims.n

/-- The member `size_t k() {return (transa == CUBLAS_OP_N) ? A.dims().n : A.dims().m;}`. -/
def GEMM_Inputs.k (i : GEMM_Inputs) : Nat :=
  if i.transa = .CUBLAS_OP_N then i.A.dims.n else i.A.dims.m

/-- The conversion of a `size_t` to a 32-bit `int`: the value modulo `2^32`, read as a
two's-complement number. -/
def toInt32 (x : Nat) : Int :=
  if x % 2 ^ 32 < 2 ^ 31 then ((x % 2 ^ 32 : Nat) : Int) else ((x % 2 ^ 32 : Nat) : Int) - 2 ^ 32

/-- The struct `GEMM_Key`: two operations and three `int` sizes. -/
structure GEMM_Key where
  transa : cublasOperation_t
  transb : cublasOperation_t
  m : Int
  k : Int
  n : Int
deriving DecidableEq, Repr

/-- The constructor `GEMM_Key(GEMM_Inputs i)`, the same in `gemm.h` and `planning_system.h`:
`transa(i.transa), transb(i.transb), m(i.m()), n(i.n()), k(i.k())`, each size converted
from `size_t` to `int`. -/
def GEMM_Key.ofInputs (i : GEMM_Inputs) : GEMM_Key :=
  { transa := i.transa, transb := i.transb,
    m := toInt32 i.m, n := toInt32 i.n, k := toInt32 i.k }

/-- The text that `ss << x` writes for an `int`: decimal digits, with a minus sign first for
a negative value. -/
def intToStr (x : Int) : Str :=
  if x < 0 then '-' :: Nat.toDigits 10 x.natAbs else Nat.toDigits 10 x.natAbs

/-- The conversion `GEMM_Key::operator std::string` of `gemm.cpp`: the two flags, then a
blank and `m`, a blank and `k`, a blank and `n` are written to a string stream, and the
result is what `ss >> ret` reads back from it. -/
def GEMM_Key.toStr (key : GEMM_Key) : Str :=
  (IStream.ofStr
    ((if key.transa = .CUBLAS_OP_N then ['N'] else ['T'])
      ++ (if key.transb = .CUBLAS_OP_N then ['N'] else ['T'])
      ++ [' '] ++ intToStr key.m ++ [' '] ++ intToStr key.k ++ [' '] ++ intToStr key.n)).readStr.1

/-- The comparison `GEMM_Key::operator<` of `gemm.cpp`: the strings are compared. -/
def GEMM_Key.lt (l r : GEMM_Key) : Bool :=
  Str.lt l.toStr r.toStr

/-- The comparison `operator<(const GEMM_Key&, const GEMM_Key&)` of `planning_system.h`:
field by field, in the order transa, transb, m, k, n. -/
def GEMM_Key.lt_fields (l r : GEMM_Key) : Bool :=
  if l.transa.toNat < r.transa.toNat then true
  else if l.transa.toNat > r.transa.toNat then false
  else if l.transb.toNat < r.transb.toNat then true
  else if l.transb.toNat > r.transb.toNat then false
  else if l.m < r.m then true
  else if l.m > r.m then false
  else if l.k < r.k then true
  else if l.k > r.k then false
  else if l.n < r.n then true
  else if l.n > r.n then false
  else false

end rtat

namespace rtat

/-! ## `std::map` -/

/-- A `std::map<K, V>`: its entries in iteration order, which for a well-formed map is the
strictly increasing order of the keys. The functions below use the key comparison only, as
`std::map` does, and assume the entries are in that order. -/
abbrev StdMap (K V : Type) := List (K × V)

/-- Two keys are equivalent for a `std::map` when neither is less than the other. -/
def StdMap.equiv {K : Type} (lt : K → K → Bool) (a b : K) : Bool :=
  !lt a b && !lt b a

/-- The lookup `map.find(k)`: the value of the entry whose key is equivalent to `k`. -/
def StdMap.find {K V : Type} (lt : K → K → Bool) (k : K) : StdMap K V → Option V
  | [] => none
  | (k', v) :: m => if StdMap.equiv lt k k' then some v else StdMap.find lt k m

/-- The insertion `map.emplace(k, v)`: the entry is added at its place in the order unless
an entry with an equivalent key is there already, in which case the map is left alone. -/
def StdMap.emplace {K V : Type} (lt : K → K → Bool) (k : K) (v : V) : StdMap K V → StdMap K V
  | [] => [(k, v)]
  | (k', v') :: m =>
    if lt k k' then (k, v) :: (k', v') :: m
    else if lt k' k then (k', v') :: StdMap.emplace lt k v m
    else (k', v') :: m

/-- An update through a reference into the map: `f` is applied to the value of the entry
whose key is equivalent to `k`. -/
def StdMap.modify {K V : Type} (lt : K → K → Bool) (k : K) (f : V → V) : StdMap K V → StdMap K V
  | [] => []
  | (k', v) :: m =>
    if StdMap.equiv lt k k' then (k', f v) :: m else (k', v) :: StdMap.modify lt k f m

/-- The keys of a map, in iteration order. -/
def StdMap.keys {K V : Type} (m : StdMap K V) : List K := m.map Prod.fst

/-- A well-formed map: the keys are strictly increasing. -/
def StdMap.WF {K V : Type} (lt : K → K → Bool) (m : StdMap K V) : Prop :=
  List.Pairwise (fun a b => lt a b = true) (StdMap.keys m)

/-- A comparison that `std::map` can be used with and that tells all values apart: a strict
total order. -/
structure IsStrictTotal {K : Type} (lt : K → K → Bool) : Prop where
  irrefl : ∀ a, lt a a = false
  trans : ∀ a b c, lt a b = true → lt b c = true → lt a c = true
  total : ∀ a b, lt a b = false → lt b a = false → a = b

/-- A comparison that the sorting functions of the standard library can be used with: a
strict weak order. -/
structure IsStrictWeak {K : Type} (comp : K → K → Bool) : Prop where
  irrefl : ∀ a, comp a a = false
  trans : ∀ a b c, comp a b = true → comp b c = true → comp a c = true
  incomp : ∀ a b c, comp a b = false → comp b c = false → comp a c = false

/-- What the standard promises of a sorting function on a strict weak order: the result is a
rearrangement of the source, and no element of it is less than an earlier one. -/
def SortsBy {K : Type} (sort : (K → K → Bool) → List K → List K) : Prop :=
  ∀ (comp : K → K → Bool) (l : List K), IsStrictWeak comp →
    (sort comp l).Perm l ∧ (sort comp l).Pairwise (fun a b => comp b a = false)

/-- A sorting function that keeps elements the comparison does not tell apart in their
source order. -/
def stableSort {K : Type} (comp : K → K → Bool) (l : List K) : List K :=
  l.insertionSort (fun a b => comp b a = false)

/-- A sorting function that puts elements the comparison does not tell apart in the reverse
of their source order. -/
def reversingSort {K : Type} (comp : K → K → Bool) (l : List K) : List K :=
  l.reverse.insertionSort (fun a b => comp b a = false)

/-! ## The performance record -/

/-- A time reading in device milliseconds, a `float` in the sources: an exact rational, or
`⊤` for `+infinity`. -/
abbrev Time := WithTop ℚ

/-- Modelled from the spec: the class `Performance_Record` of `performance_record.h`, which
is outside the sources at hand: a per-(shape, option) accumulator of timing samples with a
`synchronous` flag. `Performance_Record(flag)` starts with no sample, `count()` is the
number of samples, `measure` appends one sample. -/
structure Performance_Record where
  samples : List Time
  synchronous : Bool
deriving DecidableEq

/-- The constructor `Performance_Record(synchronous)`. -/
def Performance_Record.new (synchronous : Bool) : Performance_Record := ⟨[], synchronous⟩

/-- The member `count()`. -/
def Performance_Record.count (r : Performance_Record) : Nat := r.samples.length

/-- The effect on the record of `measure(operation, stream)` once the operation has run and
its elapsed time `t` has been captured. -/
def Performance_Record.measure (r : Performance_Record) (t : Time) : Performance_Record :=
  { r with samples := r.samples ++ [t] }

/-! ## `planning_system.h`: the engine -/

/-- What the class template `Planning_System<Input_Params, Input_Key, Opts>` and its
subclass `GEMM_Planner` use of their type arguments and of classes outside the sources at
hand. -/
structure Sig (Params Key Opts : Type) where
  /-- The conversion `Input_Key(params)`. -/
  key : Params → Key
  /-- The comparison `operator<` of `Input_Key`. -/
  keyLt : Key → Key → Bool
  /-- The comparison `operator<` of `Opts`. -/
  optLt : Opts → Opts → Bool
  /-- The list `Opts::enumerate()`. -/
  enumerate : List Opts
  /-- The default-constructed `Opts()`. -/
  default_opts : Opts
  /-- The value `form_operation(opts, params)->workspace_req()`. -/
  workspace_req : Opts → Params → Nat
  /-- The value `params.space.size()`. -/
  space : Params → Nat
  /-- The member `Performance_Record::get_time()`, the mean time of a record. -/
  get_time : Performance_Record → Time
  /-- The `synchronous` flag of a default-constructed `Performance_Record()`. -/
  default_synchronous : Bool
  /-- The order in which `std::partial_sort_copy(first, last, d_first, d_last, comp)` leaves
  the source when the destination has room for all of it. The standard fixes the result up
  to the order of elements that `comp` does not tell apart. -/
  partial_sort_copy : (Opts → Opts → Bool) → List Opts → List Opts
  /-- The order in which `std::sort(first, last, comp)` leaves the vector of (option, time)
  pairs of `degrade_plan`. The standard fixes the result up to the order of elements that
  `comp` does not tell apart. -/
  sort : (Opts × Time → Opts × Time → Bool) → List (Opts × Time) → List (Opts × Time)
  /-- What the standard promises of `std::sort`: a rearrangement of the range in which no
  element is less than an earlier one. -/
  sort_sorts : SortsBy sort
  /-- The member `params.m()`. -/
  m : Params → Nat
  /-- The member `params.k()`. -/
  k : Params → Nat
  /-- The member `params.n()`. -/
  n : Params → Nat

/-- The nested class `Planning_System::Analytics`: the table of one shape. -/
structure Analytics (Opts : Type) where
  performance_data : StdMap Opts Performance_Record

/-- A planner object: the members `predicates`, `analytics` and `warm` of `Planning_System`
and the member `tests_until_converge` of `GEMM_Planner`. -/
structure GEMM_Planner (Key Opts : Type) where
  predicates : List (Opts × Key → Bool)
  analytics : StdMap Key (Analytics Opts)
  warm : Bool
  tests_until_converge : Int

section engine

variable {Params Key Opts : Type} (S : Sig Params Key Opts)

/-- The constructor `Analytics(predicates)`: every enumerated option on which all predicates
hold is emplaced with a fresh `Performance_Record(true)`. -/
def Analytics.new (predicates : List (Opts → Bool)) : Analytics Opts :=
  ⟨S.enumerate.foldl (fun data opts =>
      if predicates.all (fun pred => pred opts) then
        StdMap.emplace S.optLt opts (Performance_Record.new true) data
      else data) []⟩

/-- The member `get_analytics(Input_Key key)`, as the state it leaves: a table is built and
emplaced when `analytics.count(key)` is zero. -/
def Planning_System.get_analytics (gp : GEMM_Planner Key Opts) (key : Key) :
    GEMM_Planner Key Opts :=
  if (StdMap.find S.keyLt key gp.analytics).isSome then gp
  else
    let an := Analytics.new S (gp.predicates.map fun pred => fun opts => pred (opts, key))
    { gp with analytics := StdMap.emplace S.keyLt key an gp.analytics }

/-- The table behind the reference `analytics.find(key)->second.performance_data`. -/
def Planning_System.table (gp : GEMM_Planner Key Opts) (key : Key) :
    StdMap Opts Performance_Record :=
  match StdMap.find S.keyLt key gp.analytics with
  | some an => an.performance_data
  | none => []

/-- A write through the reference returned by `get_analytics(key)`. -/
def Planning_System.modifyTable (gp : GEMM_Planner Key Opts) (key : Key)
    (f : StdMap Opts Performance_Record → StdMap Opts Performance_Record) :
    GEMM_Planner Key Opts :=
  { gp with
    analytics := StdMap.modify S.keyLt key (fun an => ⟨f an.performance_data⟩) gp.analytics }

/-- The access `performance_data[opts]` of `std::map`: a default-constructed record is
inserted when the key is absent. -/
def Planning_System.index (data : StdMap Opts Performance_Record) (opts : Opts) :
    StdMap Opts Performance_Record :=
  StdMap.emplace S.optLt opts (Performance_Record.new S.default_synchronous) data

/-- The member `calculate_workspace(x, params) <= params.space.size()`. -/
def GEMM_Planner.acceptable_plan (opts : Opts) (params : Params) : Bool :=
  decide (S.workspace_req opts params ≤ S.space params)

/-- The member `degrade_plan`: the options of the shape with their mean times are sorted by
`std::sort` under `a.second < b.second`, and the first one whose workspace fits is returned;
`none` is the bare `throw;` after `No valid plan found`. -/
def GEMM_Planner.degrade_plan (gp : GEMM_Planner Key Opts) (params : Params) :
    Option (Opts × GEMM_Planner Key Opts) :=
  let gp1 := Planning_System.get_analytics S gp (S.key params)
  let data : List (Opts × Time) :=
    (Planning_System.table S gp1 (S.key params)).map fun x => (x.1, S.get_time x.2)
  let sorted := S.sort (fun a b => decide (a.2 < b.2)) data
  match sorted.find? (fun x => GEMM_Planner.acceptable_plan S x.1 params) with
  | some x => some (x.1, gp1)
  | none => none

/-- The member `internal_execute`: the option whose operation tree is executed, and the
state. When the tree of `opts` needs more workspace than there is, the option is replaced by
the one `degrade_plan` returns. -/
def GEMM_Planner.internal_execute (gp : GEMM_Planner Key Opts) (opts : Opts) (params : Params) :
    Option (Opts × GEMM_Planner Key Opts) :=
  if S.workspace_req opts params > S.space params then GEMM_Planner.degrade_plan S gp params
  else some (opts, gp)

/-- The member `warmup(opts, params, s)`: the table of the shape is resolved and the
operation is run once, outside any record. -/
def Planning_System.warmup (gp : GEMM_Planner Key Opts) (opts : Opts) (params : Params) :
    Option (GEMM_Planner Key Opts) :=
  let gp1 := Planning_System.get_analytics S gp (S.key params)
  (GEMM_Planner.internal_execute S gp1 opts params).map Prod.snd

/-- The member `execute(opts, params, s)`, with the elapsed time `t` that the measurement
captures. The first call runs `warmup` and sets `warm`; then the table of the shape is
resolved, `performance_data[opts]` is accessed, and `measure` runs `internal_execute` and
appends `t` to that record. `none` is a call that does not return. -/
def Planning_System.execute (gp : GEMM_Planner Key Opts) (opts : Opts) (params : Params)
    (t : Time) : Option (GEMM_Planner Key Opts) :=
  let warmed : Option (GEMM_Planner Key Opts) :=
    if gp.warm then some gp
    else (Planning_System.warmup S gp opts params).map fun g => { g with warm := true }
  warmed.bind fun gp1 =>
    let gp2 := Planning_System.get_analytics S gp1 (S.key params)
    let gp3 := Planning_System.modifyTable S gp2 (S.key params)
      (fun data => Planning_System.index S data opts)
    (GEMM_Planner.internal_execute S gp3 opts params).map fun r =>
      Planning_System.modifyTable S r.2 (S.key params)
        (StdMap.modify S.optLt opts (fun rec => rec.measure t))

/-- The time `data[l].get_time()` read by the comparator of `get_n`. -/
def Planning_System.timeOf (data : StdMap Opts Performance_Record) (l : Opts) : Time :=
  match StdMap.find S.optLt l data with
  | some rec => S.get_time rec
  | none => S.get_time (Performance_Record.new S.default_synchronous)

/-- The member `get_n(key, n, cmp)`. `n` is raised to the table size when it is smaller
(`if (n < data.size()) n = data.size();`, the comparison made in `size_t`); a negative `n`
makes `std::vector<Opts> top(n)` throw. `std::partial_sort_copy` then puts the keys, ordered
by `cmp` on their mean times, into the first places of `top`, whose other places keep the
default option. -/
def Planning_System.get_n (gp : GEMM_Planner Key Opts) (key : Key) (n : Int)
    (cmp : Time → Time → Bool) : Option (List Opts × GEMM_Planner Key Opts) :=
  let gp1 := Planning_System.get_analytics S gp key
  let data := Planning_System.table S gp1 key
  let n1 : Int := if 0 ≤ n ∧ n < (data.length : Int) then (data.length : Int) else n
  if n1 < 0 then none
  else
    let sorted := S.partial_sort_copy
      (fun l r => cmp (Planning_System.timeOf S data l) (Planning_System.timeOf S data r))
      (StdMap.keys data)
    some ((sorted ++ List.replicate (n1.toNat - sorted.length) S.default_opts).take n1.toNat, gp1)

/-- The member `top_n(key, n)`. -/
def Planning_System.top_n (gp : GEMM_Planner Key Opts) (key : Key) (n : Int) :
    Option (List Opts × GEMM_Planner Key Opts) :=
  Planning_System.get_n S gp key n (fun a b => decide (a < b))

/-- The member `bottom_n(key, n)`. -/
def Planning_System.bottom_n (gp : GEMM_Planner Key Opts) (key : Key) (n : Int) :
    Option (List Opts × GEMM_Planner Key Opts) :=
  Planning_System.get_n S gp key n (fun a b => decide (a > b))

/-- The first loop of `create_plan`: the least sample count of the table, starting from
10000. -/
def GEMM_Planner.min_count (data : StdMap Opts Performance_Record) : Int :=
  data.foldl (fun mc x => if (x.2.count : Int) < mc then (x.2.count : Int) else mc) 10000

/-- The last loop of `create_plan`: the plan and the best time after the whole table has
been inspected, starting from `plan` and `+infinity`. -/
def GEMM_Planner.best (S : Sig Params Key Opts) (plan : Opts)
    (data : StdMap Opts Performance_Record) : Opts × Time :=
  data.foldl (fun acc x => if S.get_time x.2 < acc.2 then (x.1, S.get_time x.2) else acc)
    (plan, ⊤)

/-- The member `create_plan(params)`. `none` is the read of `begin()->first` on an empty
table. In the explore phase the first option with the least count is returned; otherwise
every record is marked `synchronous = false` and the first option of least time is
returned. -/
def GEMM_Planner.create_plan (gp : GEMM_Planner Key Opts) (params : Params) :
    Option (Opts × GEMM_Planner Key Opts) :=
  let gp1 := Planning_System.get_analytics S gp (S.key params)
  let data := Planning_System.table S gp1 (S.key params)
  match data with
  | [] => none
  | first :: _ =>
    let min_count := GEMM_Planner.min_count data
    let explore : Option (Opts × Performance_Record) :=
      if min_count < gp.tests_until_converge then
        data.find? (fun x => decide ((x.2.count : Int) = min_count))
      else none
    match explore with
    | some x => some (x.1, gp1)
    | none =>
      some ((GEMM_Planner.best S first.1 data).1,
        Planning_System.modifyTable S gp1 (S.key params)
          (fun d => d.map fun x => (x.1, { x.2 with synchronous := false })))

/-- The quotient `tflops/secs` of `get_floprate` in exact arithmetic, for a mean time `t`:
`tflops = 2*m*k*n/1e12` with the product taken in `size_t`, `secs = t/1000`. An infinite
time gives rate 0; a zero time gives no finite rate. -/
def floprate (m k n : Nat) (t : Time) : Option ℚ :=
  match t with
  | none => some 0
  | some q =>
    if q = 0 then none
    else some ((((2 * m * k * n) % 2 ^ 64 : Nat) : ℚ) / 1000000000000 / (q / 1000))

/-- The member `get_floprate(opts, params)`: the table of the shape is resolved,
`performance_data[opts]` is accessed and its mean time is turned into a rate. -/
def GEMM_Planner.get_floprate (gp : GEMM_Planner Key Opts) (opts : Opts) (params : Params) :
    Option ℚ × GEMM_Planner Key Opts :=
  let gp1 := Planning_System.get_analytics S gp (S.key params)
  let gp2 := Planning_System.modifyTable S gp1 (S.key params)
    (fun data => Planning_System.index S data opts)
  (floprate (S.m params) (S.k params) (S.n params)
      (Planning_System.timeOf S (Planning_System.table S gp2 (S.key params)) opts),
    gp2)

/-- A well-formed planner: the shapes are in strictly increasing order and so are the
options of every table. The planner a constructor makes, with no table, is well-formed. -/
def GEMM_Planner.WF (gp : GEMM_Planner Key Opts) : Prop :=
  StdMap.WF S.keyLt gp.analytics ∧
  ∀ x ∈ gp.analytics, StdMap.WF S.optLt x.2.performance_data

/-- The record of an option in the table of a shape, if there is one. -/
def Planning_System.record (gp : GEMM_Planner Key Opts) (key : Key) (opts : Opts) :
    Option Performance_Record :=
  StdMap.find S.optLt opts (Planning_System.table S gp key)

/-- The samples held for an option of a shape: those of its record, none without one. -/
def Planning_System.samplesOf (gp : GEMM_Planner Key Opts) (key : Key) (opts : Opts) :
    List Time :=
  match Planning_System.record S gp key opts with
  | some rec => rec.samples
  | none => []

/-- The sample count of an option of a shape: `count()` of its record, 0 without one. -/
def Planning_System.sampleCount (gp : GEMM_Planner Key Opts) (key : Key) (opts : Opts) : Nat :=
  match Planning_System.record S gp key opts with
  | some rec => rec.count
  | none => 0

end engine

/-- The constructor `GEMM_Planner(predicates, tests_until_converge)`. -/
def GEMM_Planner.new {Key Opts : Type} (predicates : List (Opts × Key → Bool))
    (tests_until_converge : Int) : GEMM_Planner Key Opts :=
  { predicates := predicates, analytics := [], warm := false,
    tests_until_converge := tests_until_converge }

end rtat

namespace rtat

/-! ## An instantiation of the engine -/

/-- The sum of the samples of a record, when all of them are finite. -/
def sumTime : List Time → Option ℚ
  | [] => some 0
  | none :: _ => none
  | some q :: ts => (sumTime ts).map (q + ·)

/-- The mean of the samples of a record: `+infinity` when a sample is, 0 for no sample. -/
def meanTime (r : Performance_Record) : Time :=
  match sumTime r.samples with
  | some s => if r.samples.length = 0 then ((0 : ℚ) : Time) else ((s / r.samples.length : ℚ) : Time)
  | none => ⊤

/-- A workspace estimate for examples: 8 bytes for every element of an operand that the
option moves, transposes or pads. -/
def exampleWorkspace (o : GEMM_Options_Pad) (p : GEMM_Inputs) : Nat :=
  (if o.transa = .TRANS ∨ o.pada = .PAD then 8 * p.A.dims.m * p.A.dims.n else 0) +
  (if o.transb = .TRANS ∨ o.padb = .PAD then 8 * p.B.dims.m * p.B.dims.n else 0) +
  (if o.transc = .TRANS ∨ o.padc = .PAD then 8 * p.C.dims.m * p.C.dims.n else 0)

/-- The engine on `GEMM_Inputs`, with `GEMM_Key` under the field-wise comparison of
`planning_system.h` and the padded options under the comparison of `gemm.cpp`, and with a
standard library whose sorting functions keep elements of equal time in source order. -/
def gemmSig : Sig GEMM_Inputs GEMM_Key GEMM_Options_Pad :=
  { key := GEMM_Key.ofInputs
    keyLt := GEMM_Key.lt_fields
    optLt := GEMM_Options_Pad.lt
    enumerate := GEMM_Options_Pad.enumerate
    default_opts := GEMM_Options_Pad.default_opts
    workspace_req := exampleWorkspace
    space := fun p => p.space
    get_time := meanTime
    default_synchronous := false
    partial_sort_copy := stableSort
    sort := stableSort
    sort_sorts := fun comp l h => by
      haveI : IsTotal (GEMM_Options_Pad × Time) (fun a b => comp b a = false) := ⟨by
        intro a b
        cases hba : comp b a with
        | false => exact Or.inl rfl
        | true =>
          right
          cases hab : comp a b with
          | false => rfl
          | true =>
            have := h.trans _ _ _ hab hba
            rw [h.irrefl] at this
            exact absurd this (by decide)⟩
      haveI : IsTrans (GEMM_Options_Pad × Time) (fun a b => comp b a = false) :=
        ⟨fun a b c h1 h2 => h.incomp c b a h2 h1⟩
      exact ⟨List.perm_insertionSort _ l,
        List.sorted_insertionSort (fun a b => comp b a = false) l⟩
    m := GEMM_Inputs.m
    k := GEMM_Inputs.k
    n := GEMM_Inputs.n }

/-- The same engine with a standard library whose `std::partial_sort_copy` leaves options of
equal time in the reverse of their order in the table. -/
def gemmSigReversing : Sig GEMM_Inputs GEMM_Key GEMM_Options_Pad :=
  { gemmSig with partial_sort_copy := reversingSort }

/-- A predicate in the style of `exclude_option`: it admits the options that leave the
result operand alone. -/
def keepsResult (p : GEMM_Options_Pad × GEMM_Key) : Bool :=
  decide (p.1.transc = .NOTRANS ∧ p.1.padc = .NOPAD)

/-- A 4 by 4 by 4 product without transposes and with a workspace of `space` bytes. -/
def smallInputs (space : Nat) : GEMM_Inputs :=
  { handle := 0, transa := .CUBLAS_OP_N, transb := .CUBLAS_OP_N,
    A := ⟨0, ⟨4, 4, 4⟩⟩, B := ⟨128, ⟨4, 4, 4⟩⟩, C := ⟨256, ⟨4, 4, 4⟩⟩,
    alpha := 1, beta := 0, space := space }

end rtat

namespace rtat

/-! ## Planner states for the examples -/

/-- The option that moves nothing: no transpose and no padding. -/
def plainOpt : GEMM_Options_Pad := ⟨.NOTRANS, .NOPAD, .NOTRANS, .NOPAD, .NOTRANS, .NOPAD⟩

/-- The option that transposes the left operand and nothing else. -/
def leftMoved : GEMM_Options_Pad := ⟨.TRANS, .NOPAD, .NOTRANS, .NOPAD, .NOTRANS, .NOPAD⟩

/-- A predicate that admits two options only, `plainOpt` and `leftMoved`. -/
def twoOpts (p : GEMM_Options_Pad × GEMM_Key) : Bool :=
  decide (p.1 = plainOpt ∨ p.1 = leftMoved)

/-- A predicate that admits the one option `leftMoved`. -/
def leftOnly (p : GEMM_Options_Pad × GEMM_Key) : Bool :=
  decide (p.1 = leftMoved)

/-- A predicate that admits no option. -/
def rejectAll (_ : GEMM_Options_Pad × GEMM_Key) : Bool := false

/-- A warm planner with the predicate `twoOpts` whose table for the 4 by 4 by 4 shape holds
`a` samples of `ta` milliseconds for `plainOpt` and `b` samples of `tb` milliseconds for
`leftMoved`: the state after `a` and `b` executions of the two options. -/
def twoOptPlanner (a b : Nat) (ta tb : ℚ) (tests_until_converge : Int) :
    GEMM_Planner GEMM_Key GEMM_Options_Pad :=
  { predicates := [twoOpts],
    analytics := [(GEMM_Key.ofInputs (smallInputs 1000),
      ⟨[(plainOpt, ⟨List.replicate a (ta : Time), true⟩),
        (leftMoved, ⟨List.replicate b (tb : Time), true⟩)]⟩)],
    warm := true,
    tests_until_converge := tests_until_converge }

end rtat

namespace rtat

/-! ## Operation trees and `form_operation` -/

/-- The operation tree that `form_operation` assembles. The classes are those of
`matrixop.h`, outside the sources at hand; each constructor takes the arguments the sources
pass to the class constructor, in their order. -/
inductive MatrixOp where
  | NoOp (M : Matrix)
  | MatrixMove (A : MatrixOp) (alpha : ℚ) (transpose : Bool) (pad : Nat)
  | MatrixMultAlloc (A B : MatrixOp) (transa transb : Bool) (alpha : ℚ) (pad : Nat)
  | MatrixMult (A B C : MatrixOp) (transa transb : Bool) (alpha beta : ℚ)
  | MatrixAccumulate (A C : MatrixOp) (alpha beta : ℚ) (transpose : Bool)
deriving DecidableEq

/-- The function `switch_op` of `gemm.cpp`. -/
def switch_op : cublasOperation_t → Except Raised cublasOperation_t
  | .CUBLAS_OP_N => .ok .CUBLAS_OP_T
  | .CUBLAS_OP_T => .ok .CUBLAS_OP_N
  | _ => .error (.message "Bad BLAS OP".toList)

/-- The member `form_operation(GEMM_Inputs params)` of `gemm.cpp`, written for the six-field
options. An exception of `switch_op` leaves the function. -/
def GEMM_Options_Pad.form_operation (o : GEMM_Options_Pad) (params : GEMM_Inputs) :
    Except Raised MatrixOp :=
  let A := MatrixOp.NoOp params.A
  let B := MatrixOp.NoOp params.B
  let C := MatrixOp.NoOp params.C
  let ta := decide (o.transa = .TRANS)
  let tb := decide (o.transb = .TRANS)
  let tc := decide (o.transc = .TRANS)
  let pa := decide (o.pada = .PAD)
  let pb := decide (o.padb = .PAD)
  let pc := decide (o.padc = .PAD)
  match (if ta then switch_op params.transa else .ok params.transa) with
  | .error e => .error e
  | .ok transa =>
    let A1 := if ta || pa then MatrixOp.MatrixMove A 1 ta (if pa then 32 else 1) else A
    match (if tb then switch_op params.transb else .ok params.transb) with
    | .error e => .error e
    | .ok transb =>
      let B1 := if tb || pb then MatrixOp.MatrixMove B 1 tb (if pb then 32 else 1) else B
      if tc then
        .ok (MatrixOp.MatrixAccumulate
          (MatrixOp.MatrixMultAlloc B1 A1
            (decide (transb ≠ .CUBLAS_OP_T)) (decide (transa ≠ .CUBLAS_OP_T))
            params.alpha (if pc then 32 else 1))
          C 1 params.beta true)
      else if pc then
        .ok (MatrixOp.MatrixAccumulate
          (MatrixOp.MatrixMultAlloc A1 B1
            (decide (transa = .CUBLAS_OP_T)) (decide (transb = .CUBLAS_OP_T))
            params.alpha 32)
          C 1 params.beta false)
      else
        .ok (MatrixOp.MatrixMult A1 B1 C
          (decide (transa = .CUBLAS_OP_T)) (decide (transb = .CUBLAS_OP_T))
          params.alpha params.beta)

/-- The values of `opts.transa()`, `opts.transb()` and `opts.transc()` in
`planning_system.h`, whose option type comes from `options.h`, outside the sources at hand;
the `switch` of `form_operation` names the three values. -/
inductive Trans_Opt where
  | NOTRANS
  | TRANS
  | PAD
deriving DecidableEq, Repr

/-- The option type of `planning_system.h`, there called `GEMM_Options`: one `Trans_Opt`
for each operand. -/
structure Planner_Options where
  transa : Trans_Opt
  transb : Trans_Opt
  transc : Trans_Opt
deriving DecidableEq, Repr

/-- The member `form_operation(GEMM_Options opts, GEMM_Inputs params)` of `GEMM_Planner` in
`planning_system.h`. In each `switch` the case `TRANS` falls through into the case `PAD`. -/
def GEMM_Planner.form_operation (opts : Planner_Options) (params : GEMM_Inputs) : MatrixOp :=
  let A := MatrixOp.NoOp params.A
  let B := MatrixOp.NoOp params.B
  let C := MatrixOp.NoOp params.C
  let transa := decide (opts.transa = .TRANS)
  let ptransa :=
    if opts.transa = .TRANS then
      (if params.transa = .CUBLAS_OP_N then cublasOperation_t.CUBLAS_OP_T else .CUBLAS_OP_N)
    else params.transa
  let A1 := if opts.transa = .NOTRANS then A else MatrixOp.MatrixMove A 1 transa 32
  let transb := decide (opts.transb = .TRANS)
  let ptransb :=
    if opts.transb = .TRANS then
      (if params.transb = .CUBLAS_OP_N then cublasOperation_t.CUBLAS_OP_T else .CUBLAS_OP_N)
    else params.transb
  let B1 := if opts.transb = .NOTRANS then B else MatrixOp.MatrixMove B 1 transb 32
  if opts.transc ≠ .NOTRANS then
    if opts.transc = .PAD then
      MatrixOp.MatrixAccumulate
        (MatrixOp.MatrixMultAlloc A1 B1
          (decide (ptransa = .CUBLAS_OP_T)) (decide (ptransb = .CUBLAS_OP_T)) params.alpha 32)
        C 1 params.beta false
    else
      MatrixOp.MatrixAccumulate
        (MatrixOp.MatrixMultAlloc B1 A1
          (decide (ptransb ≠ .CUBLAS_OP_T)) (decide (ptransa ≠ .CUBLAS_OP_T)) params.alpha 32)
        C 1 params.beta true
  else
    MatrixOp.MatrixMult A1 B1 C
      (decide (ptransa = .CUBLAS_OP_T)) (decide (ptransb = .CUBLAS_OP_T))
      params.alpha params.beta

/-- The sum of `f 0`, ..., `f (k - 1)`. -/
def dot (k : Nat) (f : Nat → ℚ) : ℚ := ((List.range k).map f).sum

/-- The entries of a matrix read transposed when the flag is set. -/
def opOf (t : Bool) (X : Nat → Nat → ℚ) : Nat → Nat → ℚ :=
  fun i j => if t then X j i else X i j

/-- Modelled from the spec: the rows and columns of the value of a step. `MatrixMove` gives
its operand, transposed when flagged; the multiply steps give rows of the first operand by
columns of the second, each taken as flagged; `MatrixMult` and `MatrixAccumulate` write into
their result operand. Padding adds nothing to these dimensions. -/
def MatrixOp.dims : MatrixOp → Nat × Nat
  | .NoOp M => (M.dims.m, M.dims.n)
  | .MatrixMove A _ t _ => if t then ((MatrixOp.dims A).2, (MatrixOp.dims A).1) else MatrixOp.dims A
  | .MatrixMultAlloc A B ta tb _ _ =>
    ((if ta then (MatrixOp.dims A).2 else (MatrixOp.dims A).1),
     (if tb then (MatrixOp.dims B).1 else (MatrixOp.dims B).2))
  | .MatrixMult _ _ C _ _ _ _ => MatrixOp.dims C
  | .MatrixAccumulate _ C _ _ _ => MatrixOp.dims C

/-- Modelled from the spec: the standard meaning of the steps, in exact arithmetic, as the
entries of the value, given the entries `mem M` of every operand matrix. `MatrixMove` copies
its operand, scaled and transposed when flagged (the zero padding lies outside the dimensions
and is not read); `MatrixMultAlloc` multiplies its operands, each taken as flagged, over the
inner dimension of the first; `MatrixMult` adds that product, scaled, to `beta` times the
result operand; `MatrixAccumulate` adds its first operand, transposed when flagged and
scaled, to `beta` times the result operand. -/
def MatrixOp.eval (mem : Matrix → Nat → Nat → ℚ) : MatrixOp → Nat → Nat → ℚ
  | .NoOp M => mem M
  | .MatrixMove A alpha t _ => fun i j => alpha * opOf t (MatrixOp.eval mem A) i j
  | .MatrixMultAlloc A B ta tb alpha _ => fun i j =>
    alpha * dot (if ta then (MatrixOp.dims A).1 else (MatrixOp.dims A).2)
      (fun l => opOf ta (MatrixOp.eval mem A) i l * opOf tb (MatrixOp.eval mem B) l j)
  | .MatrixMult A B C ta tb alpha beta => fun i j =>
    alpha * dot (if ta then (MatrixOp.dims A).1 else (MatrixOp.dims A).2)
      (fun l => opOf ta (MatrixOp.eval mem A) i l * opOf tb (MatrixOp.eval mem B) l j)
    + beta * MatrixOp.eval mem C i j
  | .MatrixAccumulate A C alpha beta t => fun i j =>
    alpha * opOf t (MatrixOp.eval mem A) i j + beta * MatrixOp.eval mem C i j

/-- The matrix product `alpha * op(A) * op(B) + beta * C` of the inputs, entry by entry:
`op` transposes unless the flag is `CUBLAS_OP_N`, and the inner dimension is `k()`. -/
def gemmValue (mem : Matrix → Nat → Nat → ℚ) (p : GEMM_Inputs) : Nat → Nat → ℚ :=
  fun i j =>
    p.alpha * dot p.k
      (fun l => opOf (decide (p.transa ≠ .CUBLAS_OP_N)) (mem p.A) i l
        * opOf (decide (p.transb ≠ .CUBLAS_OP_N)) (mem p.B) l j)
    + p.beta * mem p.C i j

/-- The inputs are a well-dimensioned product: `op(B)` has as many rows as `op(A)` has
columns. -/
def GEMM_Inputs.conformable (p : GEMM_Inputs) : Prop :=
  (if p.transb = .CUBLAS_OP_N then p.B.dims.m else p.B.dims.n) = p.k

/-- Modelled from the spec: the scratch memory a tree asks for, in bytes: every
`MatrixMove` and every `MatrixMultAlloc` materialises its value in a temporary of 8-byte
elements whose leading dimension is rounded up to the block size; the other steps need only
what their operands need. -/
def MatrixOp.workspace_req : MatrixOp → Nat
  | .NoOp _ => 0
  | .MatrixMove A alpha t pad =>
    MatrixOp.workspace_req A
      + 8 * ((((MatrixOp.dims (.MatrixMove A alpha t pad)).1 + pad - 1) / pad) * pad)
          * (MatrixOp.dims (.MatrixMove A alpha t pad)).2
  | .MatrixMultAlloc A B ta tb alpha pad =>
    MatrixOp.workspace_req A + MatrixOp.workspace_req B
      + 8 * ((((MatrixOp.dims (.MatrixMultAlloc A B ta tb alpha pad)).1 + pad - 1) / pad) * pad)
          * (MatrixOp.dims (.MatrixMultAlloc A B ta tb alpha pad)).2
  | .MatrixMult A B C _ _ _ _ =>
    MatrixOp.workspace_req A + MatrixOp.workspace_req B + MatrixOp.workspace_req C
  | .MatrixAccumulate A C _ _ _ =>
    MatrixOp.workspace_req A + MatrixOp.workspace_req C

/-- The steps of a tree that materialise a temporary: `MatrixMove` and `MatrixMultAlloc`. -/
def MatrixOp.temporaries : MatrixOp → Nat
  | .NoOp _ => 0
  | .MatrixMove A _ _ _ => MatrixOp.temporaries A + 1
  | .MatrixMultAlloc A B _ _ _ _ => MatrixOp.temporaries A + MatrixOp.temporaries B + 1
  | .MatrixMult A B C _ _ _ _ =>
    MatrixOp.temporaries A + MatrixOp.temporaries B + MatrixOp.temporaries C
  | .MatrixAccumulate A C _ _ _ => MatrixOp.temporaries A + MatrixOp.temporaries C

/-- A 2 by 2 by 2 product whose left flag is `CUBLAS_OP_C`. -/
def conjInputs : GEMM_Inputs :=
  { handle := 0, transa := .CUBLAS_OP_C, transb := .CUBLAS_OP_N,
    A := ⟨0, ⟨2, 2, 2⟩⟩, B := ⟨32, ⟨2, 2, 2⟩⟩, C := ⟨64, ⟨2, 2, 2⟩⟩,
    alpha := 1, beta := 0, space := 1000 }

/-- Contents for the operands of `conjInputs`: at address 0 the matrix whose only non-zero
entry is a 1 in row 0, column 1; at address 32 the identity; zero elsewhere. -/
def exampleMem (M : Matrix) (i j : Nat) : ℚ :=
  if M.ptr = 0 then (if i = 0 ∧ j = 1 then 1 else 0)
  else if M.ptr = 32 then (if i = j then 1 else 0)
  else 0

end rtat

namespace rtat

/-! ## The tuning loop -/

section tuning

variable {Params Key Opts : Type} (S : Sig Params Key Opts)

/-- One round of the loop a caller tunes with: `opts = create_plan(params)` and then
`execute(opts, params, s)`, whose measurement captures the time `t`. -/
def Planning_System.tune (gp : GEMM_Planner Key Opts) (params : Params) (t : Time) :
    Option (GEMM_Planner Key Opts) :=
  match GEMM_Planner.create_plan S gp params with
  | none => none
  | some r => Planning_System.execute S r.2 r.1 params t

/-- A run of the loop: one round for every captured time of the list, in order. -/
def Planning_System.tuneN (gp : GEMM_Planner Key Opts) (params : Params) :
    List Time → Option (GEMM_Planner Key Opts)
  | [] => some gp
  | t :: ts =>
    match Planning_System.tune S gp params t with
    | none => none
    | some gp1 => Planning_System.tuneN gp1 params ts

/-- Fair exploration at a state, for a shape: if some record of the shape's table has fewer
samples than the threshold, then no record of it has more samples than the threshold. -/
def Planning_System.fair (gp : GEMM_Planner Key Opts) (key : Key) : Prop :=
  (∃ x ∈ Planning_System.table S (Planning_System.get_analytics S gp key) key,
      (x.2.count : Int) < gp.tests_until_converge) →
  ∀ x ∈ Planning_System.table S (Planning_System.get_analytics S gp key) key,
    (x.2.count : Int) ≤ gp.tests_until_converge

end tuning

/-- A planner with threshold 10002 whose table for the 4 by 4 by 4 shape, as the next call
resolves it, holds `a` samples of one millisecond for `plainOpt` and `b` for `leftMoved`. -/
def tuningState (gp : GEMM_Planner GEMM_Key GEMM_Options_Pad) (a b : Nat) : Prop :=
  gp.tests_until_converge = 10002 ∧
  ∃ s1 s2 : Bool,
    Planning_System.table gemmSig
        (Planning_System.get_analytics gemmSig gp (gemmSig.key (smallInputs 1000)))
        (gemmSig.key (smallInputs 1000))
      = [(plainOpt, ⟨List.replicate a ((1 : ℚ) : Time), s1⟩),
         (leftMoved, ⟨List.replicate b ((1 : ℚ) : Time), s2⟩)]

end rtat

namespace rtat

/-! ## The heap procedure behind `std::partial_sort_copy` in GNU libstdc++

`get_n` gives `std::partial_sort_copy` a result range at least as long as the source, so the
library copies the source, makes a heap of the copy and sorts the heap. The functions below
follow `bits/stl_heap.h`; a vector is a list, `d` fills reads past its end, and every loop
runs on a count of steps that bounds it. -/

section gnu_heap

variable {K : Type}

/-- The loop of `std::__push_heap`: the hole moves up while its parent is less than
`value`, then takes `value`. -/
def gnu_push_heap (comp : K → K → Bool) (d : K) :
    Nat → List K → Nat → Nat → K → List K
  | 0, a, holeIndex, _, value => a.set holeIndex value
  | steps + 1, a, holeIndex, topIndex, value =>
    let parent := (holeIndex - 1) / 2
    if topIndex < holeIndex ∧ comp (a.getD parent d) value = true then
      gnu_push_heap comp d steps (a.set holeIndex (a.getD parent d)) parent topIndex value
    else a.set holeIndex value

/-- The first loop of `std::__adjust_heap`: the hole moves down to the larger child; the
result is the vector, the hole and `secondChild`. -/
def gnu_adjust_loop (comp : K → K → Bool) (d : K) (len : Nat) :
    Nat → List K → Nat → Nat → List K × Nat × Nat
  | 0, a, holeIndex, secondChild => (a, holeIndex, secondChild)
  | steps + 1, a, holeIndex, secondChild =>
    if secondChild < (len - 1) / 2 then
      let second := 2 * (secondChild + 1)
      let child := if comp (a.getD second d) (a.getD (second - 1) d) then second - 1 else second
      gnu_adjust_loop comp d len steps (a.set holeIndex (a.getD child d)) child child
    else (a, holeIndex, secondChild)

/-- The function `std::__adjust_heap(first, holeIndex, len, value, comp)`. -/
def gnu_adjust_heap (comp : K → K → Bool) (d : K) (a : List K) (holeIndex len : Nat)
    (value : K) : List K :=
  let r := gnu_adjust_loop comp d len len a holeIndex holeIndex
  if len % 2 = 0 ∧ r.2.2 = (len - 2) / 2 then
    let second := 2 * (r.2.2 + 1)
    gnu_push_heap comp d len (r.1.set r.2.1 (r.1.getD (second - 1) d)) (second - 1)
      holeIndex value
  else gnu_push_heap comp d len r.1 r.2.1 holeIndex value

/-- The loop of `std::__make_heap`, from `parent` down to 0. -/
def gnu_make_heap_loop (comp : K → K → Bool) (d : K) (len : Nat) : Nat → List K → List K
  | 0, a => gnu_adjust_heap comp d a 0 len (a.getD 0 d)
  | parent + 1, a =>
    gnu_make_heap_loop comp d len parent
      (gnu_adjust_heap comp d a (parent + 1) len (a.getD (parent + 1) d))

/-- The function `std::__make_heap` on the whole vector. -/
def gnu_make_heap (comp : K → K → Bool) (d : K) (a : List K) : List K :=
  if a.length < 2 then a else gnu_make_heap_loop comp d a.length ((a.length - 2) / 2) a

/-- The loop of `std::__sort_heap`, each round a `std::__pop_heap` of the first `last`
entries. -/
def gnu_sort_heap_loop (comp : K → K → Bool) (d : K) : Nat → List K → List K
  | 0, a => a
  | 1, a => a
  | last + 2, a =>
    gnu_sort_heap_loop comp d (last + 1)
      (gnu_adjust_heap comp d (a.set (last + 1) (a.getD 0 d)) 0 (last + 1)
        (a.getD (last + 1) d))

/-- The call `std::partial_sort_copy` of `get_n` as GNU libstdc++ runs it: the result holds
the whole source, so the copy is made a heap and the heap is sorted. -/
def gnu_partial_sort_copy (d : K) (comp : K → K → Bool) (l : List K) : List K :=
  gnu_sort_heap_loop comp d l.length (gnu_make_heap comp d l)

end gnu_heap

/-- The engine of `gemmSig` with the `std::partial_sort_copy` of GNU libstdc++. -/
def gemmSigGnu : Sig GEMM_Inputs GEMM_Key GEMM_Options_Pad :=
  { gemmSig with partial_sort_copy := gnu_partial_sort_copy gemmSig.default_opts }

/-- A predicate that admits the four options without padding that leave the result operand
alone. -/
def fourOpts (p : GEMM_Options_Pad × GEMM_Key) : Bool :=
  decide (p.1.pada = .NOPAD ∧ p.1.padb = .NOPAD ∧ p.1.transc = .NOTRANS ∧ p.1.padc = .NOPAD)

end rtat

namespace rtat

/-! ## Predicate calls, the phases of `create_plan`, and the stages of `form_operation` -/

/-- The calls that a loop `for (auto &pred : predicates) if (!pred(x)) { good = false; break; }`
makes: the argument `x`, once for every predicate up to and including the first that
returns false. -/
def predicate_loop_calls {α : Type} : List (α → Bool) → α → List α
  | [], _ => []
  | pred :: rest, x => x :: (if pred x then predicate_loop_calls rest x else [])

section engine_phases

variable {Params Key Opts : Type} (S : Sig Params Key Opts)

/-- The arguments on which `get_analytics(key)` calls the registered predicates, in call
order: none when `analytics.count(key)` is not zero; otherwise those of the constructor
`Analytics(preds)`, which runs the predicate loop on `(opts, key)` for every option of
`Opts::enumerate()`. -/
def Planning_System.predicate_calls (gp : GEMM_Planner Key Opts) (key : Key) :
    List (Opts × Key) :=
  if (StdMap.find S.keyLt key gp.analytics).isSome then []
  else S.enumerate.flatMap fun opts => predicate_loop_calls gp.predicates (opts, key)

/-- The condition under which `create_plan` returns from its explore loop: the least count
found is below `tests_until_converge` and some record of the table has that count. -/
def GEMM_Planner.explores (gp : GEMM_Planner Key Opts) (params : Params) : Bool :=
  let data := Planning_System.table S
    (Planning_System.get_analytics S gp (S.key params)) (S.key params)
  decide (GEMM_Planner.min_count data < gp.tests_until_converge) &&
    data.any fun x => decide ((x.2.count : Int) = GEMM_Planner.min_count data)

end engine_phases

/-- The first part of `form_operation` in `gemm.cpp`, up to the treatment of the result: the
steps for the operands `A` and `B`, and `params` with the flags of the transposed operands
switched. An exception of `switch_op` leaves the function. -/
def GEMM_Options_Pad.form_operands (o : GEMM_Options_Pad) (params : GEMM_Inputs) :
    Except Raised (MatrixOp × MatrixOp × GEMM_Inputs) :=
  let A := MatrixOp.NoOp params.A
  let B := MatrixOp.NoOp params.B
  let ta := decide (o.transa = .TRANS)
  let tb := decide (o.transb = .TRANS)
  let pa := decide (o.pada = .PAD)
  let pb := decide (o.padb = .PAD)
  match (if ta then switch_op params.transa else .ok params.transa) with
  | .error e => .error e
  | .ok transa =>
    let params1 := { params with transa := transa }
    let A1 := if ta || pa then MatrixOp.MatrixMove A 1 ta (if pa then 32 else 1) else A
    match (if tb then switch_op params1.transb else .ok params1.transb) with
    | .error e => .error e
    | .ok transb =>
      let params2 := { params1 with transb := transb }
      let B1 := if tb || pb then MatrixOp.MatrixMove B 1 tb (if pb then 32 else 1) else B
      .ok (A1, B1, params2)

/-- The last part of `form_operation` in `gemm.cpp`: the treatment of the result, given the
steps `A` and `B` for the operands and `params` as the first part leaves it. -/
def GEMM_Options_Pad.form_result (o : GEMM_Options_Pad) (A B : MatrixOp)
    (params : GEMM_Inputs) : MatrixOp :=
  let C := MatrixOp.NoOp params.C
  let tc := decide (o.transc = .TRANS)
  let pc := decide (o.padc = .PAD)
  if tc then
    MatrixOp.MatrixAccumulate
      (MatrixOp.MatrixMultAlloc B A
        (decide (params.transb ≠ .CUBLAS_OP_T)) (decide (params.transa ≠ .CUBLAS_OP_T))
        params.alpha (if pc then 32 else 1))
      C 1 params.beta true
  else if pc then
    MatrixOp.MatrixAccumulate
      (MatrixOp.MatrixMultAlloc A B
        (decide (params.transa = .CUBLAS_OP_T)) (decide (params.transb = .CUBLAS_OP_T))
        params.alpha 32)
      C 1 params.beta false
  else
    MatrixOp.MatrixMult A B C
      (decide (params.transa = .CUBLAS_OP_T)) (decide (params.transb = .CUBLAS_OP_T))
      params.alpha params.beta

/-- The two `switch` statements of `form_operation` in `planning_system.h`: the steps for
the operands `A` and `B`, and `params` with the flags of the transposed operands replaced.
The case `TRANS` falls through into the case `PAD`. -/
def GEMM_Planner.form_operands (opts : Planner_Options) (params : GEMM_Inputs) :
    MatrixOp × MatrixOp × GEMM_Inputs :=
  let A := MatrixOp.NoOp params.A
  let B := MatrixOp.NoOp params.B
  let transa := decide (opts.transa = .TRANS)
  let params1 : GEMM_Inputs :=
    if opts.transa = .TRANS then
      { params with
        transa := if params.transa = .CUBLAS_OP_N then .CUBLAS_OP_T else .CUBLAS_OP_N }
    else params
  let A1 := if opts.transa = .NOTRANS then A else MatrixOp.MatrixMove A 1 transa 32
  let transb := decide (opts.transb = .TRANS)
  let params2 : GEMM_Inputs :=
    if opts.transb = .TRANS then
      { params1 with
        transb := if params1.transb = .CUBLAS_OP_N then .CUBLAS_OP_T else .CUBLAS_OP_N }
    else params1
  let B1 := if opts.transb = .NOTRANS then B else MatrixOp.MatrixMove B 1 transb 32
  (A1, B1, params2)

/-- The rest of `form_operation` in `planning_system.h`: the treatment of the result, given
the steps `A` and `B` for the operands and `params` as the switches leave it. -/
def GEMM_Planner.form_result (opts : Planner_Options) (A B : MatrixOp)
    (params : GEMM_Inputs) : MatrixOp :=
  let C := MatrixOp.NoOp params.C
  if opts.transc ≠ .NOTRANS then
    if opts.transc = .PAD then
      MatrixOp.MatrixAccumulate
        (MatrixOp.MatrixMultAlloc A B
          (decide (params.transa = .CUBLAS_OP_T)) (decide (params.transb = .CUBLAS_OP_T))
          params.alpha 32)
        C 1 params.beta false
    else
      MatrixOp.MatrixAccumulate
        (MatrixOp.MatrixMultAlloc B A
          (decide (params.transb ≠ .CUBLAS_OP_T)) (decide (params.transa ≠ .CUBLAS_OP_T))
          params.alpha 32)
        C 1 params.beta true
  else
    MatrixOp.MatrixMult A B C
      (decide (params.transa = .CUBLAS_OP_T)) (decide (params.transb = .CUBLAS_OP_T))
      params.alpha params.beta

end rtat

namespace rtat

/-! ## The order of assignment in the decoder -/

/-- The positions of the token in the order in which `operator>>` assigns the fields they
encode: `transa` from `s[0]`, `pada` from `s[3]`, `transb` from `s[1]`, `padb` from `s[4]`,
`transc` from `s[2]`, `padc` from `s[5]`. -/
def assignmentOrder : List Nat := [0, 3, 1, 4, 2, 5]

/-- The symbol at position `pos` of the token is one that the constructor of its field takes:
`BLAS_Op(std::string)` for the positions 0 to 2, `Pad_Op(std::string)` for the others. -/
def symbolOk (s : Str) (pos : Nat) : Bool :=
  if pos < 3 then
    match BLAS_Op.ofStr (charAt s pos) with
    | .ok _ => true
    | .error _ => false
  else
    match Pad_Op.ofStr (charAt s pos) with
    | .ok _ => true
    | .error _ => false

/-- The one-character encoding of the field of an option that position `pos` of the
encoding holds: `transa`, `transb`, `transc`, `pada`, `padb`, `padc` for 0 to 5. -/
def GEMM_Options_Pad.symbol (o : GEMM_Options_Pad) (pos : Nat) : Str :=
  match pos with
  | 0 => o.transa.toStr
  | 1 => o.transb.toStr
  | 2 => o.transc.toStr
  | 3 => o.pada.toStr
  | 4 => o.padb.toStr
  | _ => o.padc.toStr

end rtat

namespace rtat

/-! ## Admissible options, and states whose table holds a rejected option -/

section admissible_options

variable {Params Key Opts : Type} (S : Sig Params Key Opts)

/-- An admissible option of a shape: an option of `Opts::enumerate()` on which every
registered predicate returns true at (option, shape). -/
def Planning_System.admissible (gp : GEMM_Planner Key Opts) (key : Key) (o : Opts) : Prop :=
  o ∈ S.enumerate ∧ ∀ pred ∈ gp.predicates, pred (o, key) = true

end admissible_options

/-- The planner with the predicate `leftOnly` after `execute(plainOpt, params, s)` has
measured 1 ms and `execute(leftMoved, params, s)` has measured 5 ms on the 4 by 4 by 4
shape: the first call put a record for `plainOpt`, which the predicate rejects, into the
table. -/
def rejectedInTable : GEMM_Planner GEMM_Key GEMM_Options_Pad :=
  { predicates := [leftOnly],
    analytics := [(GEMM_Key.ofInputs (smallInputs 1000),
      ⟨[(plainOpt, ⟨[((1 : ℚ) : Time)], false⟩),
        (leftMoved, ⟨[((5 : ℚ) : Time)], true⟩)]⟩)],
    warm := true,
    tests_until_converge := 3 }

/-- The planner with the predicate `rejectAll` after `execute(plainOpt, params, s)` has
measured 1 ms on the 4 by 4 by 4 shape: the table of the shape, built empty, holds the
record that the call put there. -/
def onlyRejected : GEMM_Planner GEMM_Key GEMM_Options_Pad :=
  { predicates := [rejectAll],
    analytics := [(GEMM_Key.ofInputs (smallInputs 1000),
      ⟨[(plainOpt, ⟨[((1 : ℚ) : Time)], false⟩)]⟩)],
    warm := true,
    tests_until_converge := 3 }

/-- The table of the two-option planner whose records hold one sample each: 5 ms for
`plainOpt` and 1 ms for `leftMoved`. -/
def twoSamples : StdMap GEMM_Options_Pad Performance_Record :=
  [(plainOpt, ⟨List.replicate 1 ((5 : ℚ) : Time), true⟩),
   (leftMoved, ⟨List.replicate 1 ((1 : ℚ) : Time), true⟩)]

/-- The test on options that takes every option. -/
def allOptions : GEMM_Options_Pad → Bool := fun _ => true

end rtat

namespace rtat

/-! ## Facts about strings -/

theorem Char_eq_of_toNat_not_lt {a b : Char} (h1 : ¬ a.toNat < b.toNat) (h2 : ¬ b.toNat < a.toNat) :
    a = b := by
  have h : a.toNat = b.toNat := by omega
  exact Char.ext (UInt32.ext h)

theorem Str_lt_irrefl (s : Str) : Str.lt s s = false := by
  induction s with
  | nil => rfl
  | cons a as ih => simp [Str.lt, ih]

theorem Str_lt_trans : ∀ (s t u : Str), Str.lt s t = true → Str.lt t u = true → Str.lt s u = true
  | [], [], _, h, _ => by simp [Str.lt] at h
  | [], _ :: _, [], _, h => by simp [Str.lt] at h
  | [], _ :: _, _ :: _, _, _ => by simp [Str.lt]
  | _ :: _, [], _, h, _ => by simp [Str.lt] at h
  | _ :: _, _ :: _, [], _, h => by simp [Str.lt] at h
  | a :: as, b :: bs, c :: cs, h1, h2 => by
    simp only [Str.lt] at h1 h2 ⊢
    by_cases hab : a.toNat < b.toNat
    · by_cases hbc : b.toNat < c.toNat
      · have : a.toNat < c.toNat := by omega
        simp [this]
      · by_cases hcb : c.toNat < b.toNat
        · simp [hbc, hcb] at h2
        · have : a.toNat < c.toNat := by omega
          simp [this]
    · by_cases hba : b.toNat < a.toNat
      · simp [hab, hba] at h1
      · simp only [hab, hba, if_false] at h1
        by_cases hbc : b.toNat < c.toNat
        · have : a.toNat < c.toNat := by omega
          simp [this]
        · by_cases hcb : c.toNat < b.toNat
          · simp [hbc, hcb] at h2
          · simp only [hbc, hcb, if_false] at h2
            have e1 : ¬ a.toNat < c.toNat := by omega
            have e2 : ¬ c.toNat < a.toNat := by omega
            simp only [e1, e2, if_false]
            exact Str_lt_trans as bs cs h1 h2

theorem Str_eq_of_not_lt : ∀ (s t : Str), Str.lt s t = false → Str.lt t s = false → s = t
  | [], [], _, _ => rfl
  | [], _ :: _, h, _ => by simp [Str.lt] at h
  | _ :: _, [], _, h => by simp [Str.lt] at h
  | a :: as, b :: bs, h1, h2 => by
    simp only [Str.lt] at h1 h2
    by_cases hab : a.toNat < b.toNat
    · simp [hab] at h1
    · by_cases hba : b.toNat < a.toNat
      · simp [hba] at h2
      · simp only [hab, hba, if_false] at h1 h2
        rw [Char_eq_of_toNat_not_lt hab hba, Str_eq_of_not_lt as bs h1 h2]

theorem Str_lt_asymm (s t : Str) (h : Str.lt s t = true) : Str.lt t s = false := by
  cases hts : Str.lt t s with
  | false => rfl
  | true =>
    have := Str_lt_trans s t s h hts
    rw [Str_lt_irrefl] at this
    exact absurd this (by decide)

/-! ## Facts about the option encoding -/

theorem GEMM_Options_Pad_toStr_eq (o : GEMM_Options_Pad) :
    o.toStr = o.transa.toStr ++ o.transb.toStr ++ o.transc.toStr
      ++ o.pada.toStr ++ o.padb.toStr ++ o.padc.toStr := by
  rcases o with ⟨ta, pa, tb, pb, tc, pc⟩
  cases ta <;> cases pa <;> cases tb <;> cases pb <;> cases tc <;> cases pc <;> rfl

theorem GEMM_Options_Pad_toStr_injective (a b : GEMM_Options_Pad) (h : a.toStr = b.toStr) :
    a = b := by
  rw [GEMM_Options_Pad_toStr_eq, GEMM_Options_Pad_toStr_eq] at h
  rcases a with ⟨ta, pa, tb, pb, tc, pc⟩
  rcases b with ⟨ta', pa', tb', pb', tc', pc'⟩
  have hT : ∀ x y : BLAS_Op, x.toStr = y.toStr → x = y := by
    intro x y; cases x <;> cases y <;> simp [BLAS_Op.toStr]
  have hP : ∀ x y : Pad_Op, x.toStr = y.toStr → x = y := by
    intro x y; cases x <;> cases y <;> simp [Pad_Op.toStr]
  have h1 : ∀ x : BLAS_Op, ∃ c, x.toStr = [c] := by intro x; cases x <;> exact ⟨_, rfl⟩
  have h2 : ∀ x : Pad_Op, ∃ c, x.toStr = [c] := by intro x; cases x <;> exact ⟨_, rfl⟩
  obtain ⟨c1, e1⟩ := h1 ta
  obtain ⟨c2, e2⟩ := h1 tb
  obtain ⟨c3, e3⟩ := h1 tc
  obtain ⟨c4, e4⟩ := h2 pa
  obtain ⟨c5, e5⟩ := h2 pb
  obtain ⟨c6, e6⟩ := h2 pc
  obtain ⟨d1, f1⟩ := h1 ta'
  obtain ⟨d2, f2⟩ := h1 tb'
  obtain ⟨d3, f3⟩ := h1 tc'
  obtain ⟨d4, f4⟩ := h2 pa'
  obtain ⟨d5, f5⟩ := h2 pb'
  obtain ⟨d6, f6⟩ := h2 pc'
  simp only [e1, e2, e3, e4, e5, e6, f1, f2, f3, f4, f5, f6, List.cons_append, List.nil_append,
    List.cons.injEq, and_true] at h
  obtain ⟨g1, g2, g3, g4, g5, g6⟩ := h
  have ha := hT ta ta' (by rw [e1, f1, g1])
  have hb := hT tb tb' (by rw [e2, f2, g2])
  have hc := hT tc tc' (by rw [e3, f3, g3])
  have hpa := hP pa pa' (by rw [e4, f4, g4])
  have hpb := hP pb pb' (by rw [e5, f5, g5])
  have hpc := hP pc pc' (by rw [e6, f6, g6])
  subst ha hb hc hpa hpb hpc
  rfl

theorem GEMM_Options_Pad_mem_enumerate (o : GEMM_Options_Pad) :
    o ∈ GEMM_Options_Pad.enumerate := by
  rcases o with ⟨ta, pa, tb, pb, tc, pc⟩
  cases ta <;> cases pa <;> cases tb <;> cases pb <;> cases tc <;> cases pc <;> decide

end rtat

namespace rtat

theorem BLAS_Op_ofStr_ok {c : Char} {x : BLAS_Op} (h : BLAS_Op.ofStr [c] = .ok x) :
    [c] = x.toStr := by
  unfold BLAS_Op.ofStr at h
  by_cases hN : c = 'N'
  · subst hN; simp at h; subst h; rfl
  · by_cases hT : c = 'T'
    · subst hT; simp at h; subst h; rfl
    · simp [hN, hT] at h

theorem Pad_Op_ofStr_ok {c : Char} {x : Pad_Op} (h : Pad_Op.ofStr [c] = .ok x) :
    [c] = x.toStr := by
  unfold Pad_Op.ofStr at h
  by_cases hN : c = 'N'
  · subst hN; simp at h; subst h; rfl
  · by_cases hP : c = 'P'
    · subst hP; simp at h; subst h; rfl
    · simp [hN, hP] at h

theorem BLAS_Op_ofStr_error {c : Char} {e : Raised} (h : BLAS_Op.ofStr [c] = .error e) :
    ∃ msg, e = .runtime_error msg := by
  unfold BLAS_Op.ofStr at h
  by_cases hN : c = 'N'
  · subst hN; simp at h
  · by_cases hT : c = 'T'
    · subst hT; simp at h
    · simp [hN, hT] at h; exact ⟨_, h.symm⟩

theorem Pad_Op_ofStr_error {c : Char} {e : Raised} (h : Pad_Op.ofStr [c] = .error e) :
    ∃ msg, e = .runtime_error msg := by
  unfold Pad_Op.ofStr at h
  by_cases hN : c = 'N'
  · subst hN; simp at h
  · by_cases hP : c = 'P'
    · subst hP; simp at h
    · simp [hN, hP] at h; exact ⟨_, h.symm⟩

/-- On a fresh stream the extraction reads the first token of the contents. -/
theorem IStream_readStr_ofStr (s : Str) :
    (IStream.ofStr s).readStr = (token s, ⟨afterToken s, (token s).isEmpty⟩) := by
  simp [IStream.readStr, IStream.ofStr]

/-- C1: for every option `o` returned by `enumerate()`, decoding the string encoding of `o`
with `operator>>` succeeds (no exception, stream not failed) and leaves in the option object
a value equal to `o`, in each of the six fields, whatever the object held before. -/
theorem read_toStr_roundtrip (o : GEMM_Options_Pad) (h : o ∈ GEMM_Options_Pad.enumerate)
    (opts : GEMM_Options_Pad) :
    (GEMM_Options_Pad.read (IStream.ofStr o.toStr) opts).ok = true ∧
    (GEMM_Options_Pad.read (IStream.ofStr o.toStr) opts).opts = o ∧
    (GEMM_Options_Pad.read (IStream.ofStr o.toStr) opts).opts.transa = o.transa ∧
    (GEMM_Options_Pad.read (IStream.ofStr o.toStr) opts).opts.transb = o.transb ∧
    (GEMM_Options_Pad.read (IStream.ofStr o.toStr) opts).opts.transc = o.transc ∧
    (GEMM_Options_Pad.read (IStream.ofStr o.toStr) opts).opts.pada = o.pada ∧
    (GEMM_Options_Pad.read (IStream.ofStr o.toStr) opts).opts.padb = o.padb ∧
    (GEMM_Options_Pad.read (IStream.ofStr o.toStr) opts).opts.padc = o.padc := by
  have _ := h
  rcases o with ⟨ta, pa, tb, pb, tc, pc⟩
  cases ta <;> cases pa <;> cases tb <;> cases pb <;> cases tc <;> cases pc <;>
    exact ⟨rfl, rfl, rfl, rfl, rfl, rfl, rfl, rfl⟩

/-- The round trip at the option `T T N / P N P`, decoded into the default option. -/
theorem read_toStr_roundtrip_witness :
    (⟨.TRANS, .PAD, .TRANS, .NOPAD, .NOTRANS, .PAD⟩ : GEMM_Options_Pad)
      ∈ GEMM_Options_Pad.enumerate ∧
    (GEMM_Options_Pad.read
      (IStream.ofStr (GEMM_Options_Pad.toStr ⟨.TRANS, .PAD, .TRANS, .NOPAD, .NOTRANS, .PAD⟩))
      GEMM_Options_Pad.default_opts).opts = ⟨.TRANS, .PAD, .TRANS, .NOPAD, .NOTRANS, .PAD⟩ :=
  ⟨by decide,
   (read_toStr_roundtrip ⟨.TRANS, .PAD, .TRANS, .NOPAD, .NOTRANS, .PAD⟩ (by decide)
      GEMM_Options_Pad.default_opts).2.1⟩

/-- C2, as stated, fails: the eleven characters `TTNPNN junk` are not the encoding of any
enumerated option (the length is wrong), yet decoding them succeeds and yields the option
`T T N / P N N`, because `is >> s` stops at the first white space. -/
theorem read_accepts_trailing_text :
    (∀ o ∈ GEMM_Options_Pad.enumerate, o.toStr ≠ "TTNPNN junk".toList) ∧
    (GEMM_Options_Pad.read (IStream.ofStr "TTNPNN junk".toList)
      GEMM_Options_Pad.default_opts).ok = true ∧
    (GEMM_Options_Pad.read (IStream.ofStr "TTNPNN junk".toList)
      GEMM_Options_Pad.default_opts).opts = ⟨.TRANS, .PAD, .TRANS, .NOPAD, .NOTRANS, .NOPAD⟩ := by
  refine ⟨by decide, by decide, by decide⟩

end rtat

namespace rtat

/-- C2, amended: decoding rejects every input whose first white-space-delimited token is not
the encoding of an enumerated option. The decode never reports success on such an input:
when the token does not have six characters the stream is failed, no exception is thrown
and the option object is untouched; when it has six characters, one of them unrecognised,
a `std::runtime_error` leaves the function. -/
theorem read_rejects_foreign_token (s : Str) (opts : GEMM_Options_Pad)
    (h : ∀ o ∈ GEMM_Options_Pad.enumerate, o.toStr ≠ token s) :
    (GEMM_Options_Pad.read (IStream.ofStr s) opts).ok = false ∧
    ((token s).length ≠ 6 →
      (GEMM_Options_Pad.read (IStream.ofStr s) opts).is.failbit = true ∧
      (GEMM_Options_Pad.read (IStream.ofStr s) opts).raised = none ∧
      (GEMM_Options_Pad.read (IStream.ofStr s) opts).opts = opts) ∧
    ((token s).length = 6 →
      ∃ msg, (GEMM_Options_Pad.read (IStream.ofStr s) opts).raised
        = some (Raised.runtime_error msg)) := by
  by_cases hlen : (token s).length = 6
  · have key : ∃ msg, (GEMM_Options_Pad.read (IStream.ofStr s) opts).raised
        = some (Raised.runtime_error msg) := by
      obtain ⟨c0, c1, c2, c3, c4, c5, hs⟩ : ∃ c0 c1 c2 c3 c4 c5, token s = [c0, c1, c2, c3, c4, c5] := by
        match htok : token s, hlen with
        | [c0, c1, c2, c3, c4, c5], _ => exact ⟨c0, c1, c2, c3, c4, c5, rfl⟩
      simp only [GEMM_Options_Pad.read, IStream_readStr_ofStr, hs, charAt, List.getD_cons_zero,
        List.getD_cons_succ, List.length_cons, List.length_nil, ne_eq, not_true_eq_false,
        if_false]
      cases h0 : BLAS_Op.ofStr [c0] with
      | error e => obtain ⟨m, rfl⟩ := BLAS_Op_ofStr_error h0; exact ⟨m, rfl⟩
      | ok ta =>
      cases h3 : Pad_Op.ofStr [c3] with
      | error e => obtain ⟨m, rfl⟩ := Pad_Op_ofStr_error h3; exact ⟨m, rfl⟩
      | ok pa =>
      cases h1 : BLAS_Op.ofStr [c1] with
      | error e => obtain ⟨m, rfl⟩ := BLAS_Op_ofStr_error h1; exact ⟨m, rfl⟩
      | ok tb =>
      cases h4 : Pad_Op.ofStr [c4] with
      | error e => obtain ⟨m, rfl⟩ := Pad_Op_ofStr_error h4; exact ⟨m, rfl⟩
      | ok pb =>
      cases h2 : BLAS_Op.ofStr [c2] with
      | error e => obtain ⟨m, rfl⟩ := BLAS_Op_ofStr_error h2; exact ⟨m, rfl⟩
      | ok tc =>
      cases h5 : Pad_Op.ofStr [c5] with
      | error e => obtain ⟨m, rfl⟩ := Pad_Op_ofStr_error h5; exact ⟨m, rfl⟩
      | ok pc =>
        exfalso
        apply h ⟨ta, pa, tb, pb, tc, pc⟩ (GEMM_Options_Pad_mem_enumerate _)
        rw [GEMM_Options_Pad_toStr_eq, hs]
        have e0 := BLAS_Op_ofStr_ok h0
        have e1 := BLAS_Op_ofStr_ok h1
        have e2 := BLAS_Op_ofStr_ok h2
        have e3 := Pad_Op_ofStr_ok h3
        have e4 := Pad_Op_ofStr_ok h4
        have e5 := Pad_Op_ofStr_ok h5
        simp only [← e0, ← e1, ← e2, ← e3, ← e4, ← e5, List.cons_append, List.nil_append]
    refine ⟨?_, fun hne => absurd hlen hne, fun _ => key⟩
    obtain ⟨m, hm⟩ := key
    simp [ReadResult.ok, hm]
  · have e : GEMM_Options_Pad.read (IStream.ofStr s) opts
        = ⟨opts, ⟨afterToken s, true⟩, none⟩ := by
      simp [GEMM_Options_Pad.read, IStream_readStr_ofStr, hlen]
    rw [e]
    exact ⟨rfl, fun _ => ⟨rfl, rfl, rfl⟩, fun h6 => absurd h6 hlen⟩

/-- The amended C2 at the inputs `NNXNNN` (a bad symbol) and, through the same theorem, the
token of a concrete stream: no enumerated option encodes to `NNXNNN`, and the decode fails. -/
theorem read_rejects_foreign_token_witness :
    (∀ o ∈ GEMM_Options_Pad.enumerate, o.toStr ≠ token " NNXNNN rest".toList) ∧
    (GEMM_Options_Pad.read (IStream.ofStr " NNXNNN rest".toList)
      GEMM_Options_Pad.default_opts).ok = false :=
  ⟨by decide,
   (read_rejects_foreign_token " NNXNNN rest".toList GEMM_Options_Pad.default_opts
      (by decide)).1⟩

/-- C3: `enumerate()` on the base option type returns exactly 8 options, no two of them
equal, and each combination of the three transpose flags occurs in it exactly once. -/
theorem enumerate_base_eight :
    GEMM_Options.enumerate.length = 8 ∧
    GEMM_Options.enumerate.Nodup ∧
    ∀ ta tb tc : BLAS_Op, GEMM_Options.enumerate.count ⟨ta, tb, tc⟩ = 1 := by
  refine ⟨by decide, by decide, ?_⟩
  intro ta tb tc
  cases ta <;> cases tb <;> cases tc <;> decide

/-- C4: `enumerate()` on the padded option space returns exactly 64 options, no two of them
equal, and it is the full cross product: each combination of three transpose flags and
three pad flags occurs in it exactly once. -/
theorem enumerate_pad_sixty_four :
    GEMM_Options_Pad.enumerate.length = 64 ∧
    GEMM_Options_Pad.enumerate.Nodup ∧
    ∀ (ta tb tc : BLAS_Op) (pa pb pc : Pad_Op),
      GEMM_Options_Pad.enumerate.count ⟨ta, pa, tb, pb, tc, pc⟩ = 1 := by
  refine ⟨by decide, by decide, ?_⟩
  intro ta tb tc pa pb pc
  cases ta <;> cases tb <;> cases tc <;> cases pa <;> cases pb <;> cases pc <;> decide

/-- C5: the string encoding is injective on the options (every option is enumerated), and
`operator<`, the comparison of encodings, is a strict total order: irreflexive, transitive,
and of `a < b`, `b < a`, `a = b` exactly one holds for any two options. -/
theorem lt_strict_total_order :
    (∀ a b : GEMM_Options_Pad, a ∈ GEMM_Options_Pad.enumerate ∧ b ∈ GEMM_Options_Pad.enumerate ∧
      (a.toStr = b.toStr → a = b)) ∧
    (∀ a : GEMM_Options_Pad, a.lt a = false) ∧
    (∀ a b c : GEMM_Options_Pad, a.lt b = true → b.lt c = true → a.lt c = true) ∧
    (∀ a b : GEMM_Options_Pad,
      (a.lt b = true ∧ b.lt a = false ∧ a ≠ b) ∨
      (a.lt b = false ∧ b.lt a = true ∧ a ≠ b) ∨
      (a.lt b = false ∧ b.lt a = false ∧ a = b)) := by
  refine ⟨fun a b => ⟨GEMM_Options_Pad_mem_enumerate a, GEMM_Options_Pad_mem_enumerate b,
    GEMM_Options_Pad_toStr_injective a b⟩, fun a => Str_lt_irrefl _,
    fun a b c => Str_lt_trans _ _ _, ?_⟩
  intro a b
  have hne : ∀ x y : GEMM_Options_Pad, x.lt y = true → x ≠ y := by
    intro x y hxy e
    subst e
    rw [GEMM_Options_Pad.lt, Str_lt_irrefl] at hxy
    exact absurd hxy (by decide)
  cases hab : a.lt b with
  | true => exact Or.inl ⟨rfl, Str_lt_asymm _ _ hab, hne a b hab⟩
  | false =>
    cases hba : b.lt a with
    | true => exact Or.inr (Or.inl ⟨rfl, rfl, fun e => hne b a hba e.symm⟩)
    | false =>
      exact Or.inr (Or.inr ⟨rfl, rfl,
        GEMM_Options_Pad_toStr_injective a b (Str_eq_of_not_lt _ _ hab hba)⟩)

end rtat

namespace rtat

/-- C7: the code of `gemm.cpp` at the keys `(N, N, m=1, k=1, n=1)` and `(N, N, m=2, k=1, n=1)`.
Both convert to the string `NN`, because `ss >> ret` stops at the blank written before `m`;
neither key is less than the other, so the two shapes are equivalent under `operator<`
although they differ in `m`. The field-wise comparison of `planning_system.h` tells them
apart. -/
theorem GEMM_Key_lt_ignores_sizes :
    GEMM_Key.toStr ⟨.CUBLAS_OP_N, .CUBLAS_OP_N, 1, 1, 1⟩ = ['N', 'N'] ∧
    GEMM_Key.toStr ⟨.CUBLAS_OP_N, .CUBLAS_OP_N, 2, 1, 1⟩ = ['N', 'N'] ∧
    GEMM_Key.lt ⟨.CUBLAS_OP_N, .CUBLAS_OP_N, 1, 1, 1⟩ ⟨.CUBLAS_OP_N, .CUBLAS_OP_N, 2, 1, 1⟩ = false ∧
    GEMM_Key.lt ⟨.CUBLAS_OP_N, .CUBLAS_OP_N, 2, 1, 1⟩ ⟨.CUBLAS_OP_N, .CUBLAS_OP_N, 1, 1, 1⟩ = false ∧
    (⟨.CUBLAS_OP_N, .CUBLAS_OP_N, 1, 1, 1⟩ : GEMM_Key).m
      ≠ (⟨.CUBLAS_OP_N, .CUBLAS_OP_N, 2, 1, 1⟩ : GEMM_Key).m ∧
    GEMM_Key.lt_fields ⟨.CUBLAS_OP_N, .CUBLAS_OP_N, 1, 1, 1⟩ ⟨.CUBLAS_OP_N, .CUBLAS_OP_N, 2, 1, 1⟩
      = true := by
  refine ⟨by decide, by decide, by decide, by decide, by decide, by decide⟩

end rtat

namespace rtat

/-! ## Facts about `std::map` -/

section stdmap

variable {K V : Type} {lt : K → K → Bool}

theorem StdMap_equiv_iff (h : IsStrictTotal lt) (a b : K) :
    StdMap.equiv lt a b = true ↔ a = b := by
  constructor
  · intro e
    simp only [StdMap.equiv, Bool.and_eq_true, Bool.not_eq_true'] at e
    exact h.total a b e.1 e.2
  · rintro rfl
    simp [StdMap.equiv, h.irrefl]

theorem StdMap_equiv_false (h : IsStrictTotal lt) {a b : K} (hne : a ≠ b) :
    StdMap.equiv lt a b = false := by
  cases e : StdMap.equiv lt a b with
  | false => rfl
  | true => exact absurd ((StdMap_equiv_iff h a b).1 e) hne

theorem StdMap_find_eq_none (h : IsStrictTotal lt) (k : K) (m : StdMap K V) :
    StdMap.find lt k m = none ↔ k ∉ StdMap.keys m := by
  induction m with
  | nil => simp [StdMap.find, StdMap.keys]
  | cons x m ih =>
    obtain ⟨k', v⟩ := x
    by_cases e : k = k'
    · subst e
      simp [StdMap.find, StdMap.keys, (StdMap_equiv_iff h k k).2 rfl]
    · simp only [StdMap.find, StdMap_equiv_false h e, Bool.false_eq_true, if_false, ih]
      simp [StdMap.keys, e]

theorem StdMap_find_isSome (h : IsStrictTotal lt) (k : K) (m : StdMap K V) :
    (StdMap.find lt k m).isSome = true ↔ k ∈ StdMap.keys m := by
  rw [← not_iff_not, ← StdMap_find_eq_none h k m]
  cases StdMap.find lt k m <;> simp

theorem StdMap_find_mem (h : IsStrictTotal lt) {k : K} {v : V} {m : StdMap K V}
    (e : StdMap.find lt k m = some v) : (k, v) ∈ m := by
  induction m with
  | nil => simp [StdMap.find] at e
  | cons x m ih =>
    obtain ⟨k', v'⟩ := x
    by_cases hk : k = k'
    · subst hk
      simp only [StdMap.find, (StdMap_equiv_iff h k k).2 rfl, if_true, Option.some.injEq] at e
      subst e
      exact List.mem_cons_self _ _
    · simp only [StdMap.find, StdMap_equiv_false h hk, Bool.false_eq_true, if_false] at e
      exact List.mem_cons_of_mem _ (ih e)

theorem StdMap_keys_modify (k : K) (f : V → V) (m : StdMap K V) :
    StdMap.keys (StdMap.modify lt k f m) = StdMap.keys m := by
  induction m with
  | nil => rfl
  | cons x m ih =>
    obtain ⟨k', v⟩ := x
    simp only [StdMap.modify]
    split
    · rfl
    · simp only [StdMap.keys, List.map_cons] at ih ⊢
      rw [ih]

theorem StdMap_find_modify_self (k : K) (f : V → V) (m : StdMap K V) :
    StdMap.find lt k (StdMap.modify lt k f m) = (StdMap.find lt k m).map f := by
  induction m with
  | nil => rfl
  | cons x m ih =>
    obtain ⟨k', v⟩ := x
    by_cases e : StdMap.equiv lt k k' = true
    · simp [StdMap.modify, StdMap.find, e]
    · simp [StdMap.modify, StdMap.find, e, ih]

theorem StdMap_find_modify_ne (h : IsStrictTotal lt) {k k' : K} (hne : k' ≠ k) (f : V → V)
    (m : StdMap K V) :
    StdMap.find lt k' (StdMap.modify lt k f m) = StdMap.find lt k' m := by
  induction m with
  | nil => rfl
  | cons x m ih =>
    obtain ⟨k'', v⟩ := x
    by_cases e : StdMap.equiv lt k k'' = true
    · have e' : k = k'' := (StdMap_equiv_iff h _ _).1 e
      subst e'
      simp [StdMap.modify, StdMap.find, e, StdMap_equiv_false h hne]
    · simp only [StdMap.modify, e, Bool.false_eq_true, if_false, StdMap.find, ih]

theorem StdMap_mem_emplace {k : K} {v : V} {m : StdMap K V} {x : K × V}
    (hx : x ∈ StdMap.emplace lt k v m) : x = (k, v) ∨ x ∈ m := by
  induction m with
  | nil => simp [StdMap.emplace] at hx; exact Or.inl hx
  | cons y m ih =>
    obtain ⟨k', v'⟩ := y
    simp only [StdMap.emplace] at hx
    split at hx
    · rcases List.mem_cons.1 hx with e | e
      · exact Or.inl e
      · exact Or.inr e
    · split at hx
      · rcases List.mem_cons.1 hx with e | e
        · exact Or.inr (e ▸ List.mem_cons_self _ _)
        · rcases ih e with e' | e'
          · exact Or.inl e'
          · exact Or.inr (List.mem_cons_of_mem _ e')
      · exact Or.inr hx

theorem StdMap_mem_keys_emplace (h : IsStrictTotal lt) (k k' : K) (v : V) (m : StdMap K V) :
    k' ∈ StdMap.keys (StdMap.emplace lt k v m) ↔ k' = k ∨ k' ∈ StdMap.keys m := by
  induction m with
  | nil => simp [StdMap.emplace, StdMap.keys]
  | cons y m ih =>
    obtain ⟨k'', v'⟩ := y
    simp only [StdMap.emplace]
    split
    · simp [StdMap.keys]
    · split
      · simp only [StdMap.keys, List.map_cons, List.mem_cons] at ih ⊢
        rw [ih]
        tauto
      · rename_i h1 h2
        have e : k = k'' := h.total _ _ (by simpa using h1) (by simpa using h2)
        subst e
        simp [StdMap.keys]

theorem StdMap_find_emplace_ne (h : IsStrictTotal lt) {k k' : K} (hne : k' ≠ k) (v : V)
    (m : StdMap K V) :
    StdMap.find lt k' (StdMap.emplace lt k v m) = StdMap.find lt k' m := by
  induction m with
  | nil => simp [StdMap.emplace, StdMap.find, StdMap_equiv_false h hne]
  | cons y m ih =>
    obtain ⟨k'', v'⟩ := y
    simp only [StdMap.emplace]
    split
    · simp [StdMap.find, StdMap_equiv_false h hne]
    · split
      · simp only [StdMap.find, ih]
      · rfl

theorem StdMap_find_emplace_self (h : IsStrictTotal lt) {k : K} (v : V) {m : StdMap K V}
    (hk : k ∉ StdMap.keys m) :
    StdMap.find lt k (StdMap.emplace lt k v m) = some v := by
  induction m with
  | nil => simp [StdMap.emplace, StdMap.find, (StdMap_equiv_iff h k k).2 rfl]
  | cons y m ih =>
    obtain ⟨k'', v'⟩ := y
    have hne : k ≠ k'' := by
      intro e; apply hk; simp [StdMap.keys, e]
    have hk' : k ∉ StdMap.keys m := by
      intro e; apply hk; simp only [StdMap.keys, List.map_cons, List.mem_cons]
      exact Or.inr e
    simp only [StdMap.emplace]
    split
    · simp [StdMap.find, (StdMap_equiv_iff h k k).2 rfl]
    · split
      · simp only [StdMap.find, StdMap_equiv_false h hne, Bool.false_eq_true, if_false]
        exact ih hk'
      · rename_i h1 h2
        exact absurd (h.total _ _ (by simpa using h1) (by simpa using h2)) hne

theorem StdMap_emplace_of_mem (h : IsStrictTotal lt) {k : K} (v : V) {m : StdMap K V}
    (hwf : StdMap.WF lt m) (hk : k ∈ StdMap.keys m) : StdMap.emplace lt k v m = m := by
  induction m with
  | nil => simp [StdMap.keys] at hk
  | cons y m ih =>
    obtain ⟨k'', v'⟩ := y
    simp only [StdMap.WF, StdMap.keys, List.map_cons, List.pairwise_cons] at hwf
    simp only [StdMap.keys, List.map_cons, List.mem_cons] at hk
    simp only [StdMap.emplace]
    rcases hk with e | e
    · subst e
      simp [h.irrefl]
    · have h1 : lt k'' k = true := hwf.1 k e
      have h2 : lt k k'' = false := by
        cases e2 : lt k k'' with
        | false => rfl
        | true =>
          have := h.trans _ _ _ e2 h1
          rw [h.irrefl] at this
          exact absurd this (by decide)
      simp only [h2, Bool.false_eq_true, if_false, h1, if_true]
      rw [ih hwf.2 e]

theorem StdMap_WF_emplace (h : IsStrictTotal lt) (k : K) (v : V) {m : StdMap K V}
    (hwf : StdMap.WF lt m) : StdMap.WF lt (StdMap.emplace lt k v m) := by
  induction m with
  | nil => simp [StdMap.emplace, StdMap.WF, StdMap.keys]
  | cons y m ih =>
    obtain ⟨k'', v'⟩ := y
    have hwf' := hwf
    simp only [StdMap.WF, StdMap.keys, List.map_cons, List.pairwise_cons] at hwf
    simp only [StdMap.emplace]
    split
    · rename_i h1
      simp only [StdMap.WF, StdMap.keys, List.map_cons, List.pairwise_cons, List.mem_cons]
      refine ⟨?_, hwf.1, hwf.2⟩
      rintro a (rfl | ha)
      · exact h1
      · exact h.trans _ _ _ h1 (hwf.1 a ha)
    · split
      · rename_i h1 h2
        have ih' := ih hwf.2
        simp only [StdMap.WF, StdMap.keys, List.map_cons, List.pairwise_cons]
        refine ⟨?_, ih'⟩
        intro a ha
        rcases (StdMap_mem_keys_emplace h k a v m).1 ha with rfl | ha'
        · exact h2
        · exact hwf.1 a ha'
      · exact hwf'

theorem StdMap_WF_modify (k : K) (f : V → V) {m : StdMap K V}
    (hwf : StdMap.WF lt m) : StdMap.WF lt (StdMap.modify lt k f m) := by
  unfold StdMap.WF
  rw [StdMap_keys_modify]
  exact hwf

end stdmap

end rtat

namespace rtat

/-! ## Facts about the engine -/

section engine_facts

variable {Params Key Opts : Type} {S : Sig Params Key Opts}

theorem get_analytics_of_present {gp : GEMM_Planner Key Opts} {key : Key}
    (h : (StdMap.find S.keyLt key gp.analytics).isSome = true) :
    Planning_System.get_analytics S gp key = gp := by
  simp [Planning_System.get_analytics, h]

theorem get_analytics_fields (gp : GEMM_Planner Key Opts) (key : Key) :
    (Planning_System.get_analytics S gp key).predicates = gp.predicates ∧
    (Planning_System.get_analytics S gp key).warm = gp.warm ∧
    (Planning_System.get_analytics S gp key).tests_until_converge = gp.tests_until_converge := by
  unfold Planning_System.get_analytics
  split <;> exact ⟨rfl, rfl, rfl⟩

theorem get_analytics_present (hK : IsStrictTotal S.keyLt) (gp : GEMM_Planner Key Opts)
    (key : Key) :
    (StdMap.find S.keyLt key (Planning_System.get_analytics S gp key).analytics).isSome
      = true := by
  unfold Planning_System.get_analytics
  split
  · assumption
  · rename_i h
    have hk : key ∉ StdMap.keys gp.analytics := by
      rw [← StdMap_find_isSome hK]; exact h
    simp [StdMap_find_emplace_self hK _ hk]

theorem get_analytics_keeps_present (hK : IsStrictTotal S.keyLt) (gp : GEMM_Planner Key Opts)
    (key key0 : Key) (h : (StdMap.find S.keyLt key0 gp.analytics).isSome = true) :
    (StdMap.find S.keyLt key0 (Planning_System.get_analytics S gp key).analytics).isSome
      = true := by
  unfold Planning_System.get_analytics
  split
  · exact h
  · rename_i hn
    have hne : key0 ≠ key := by
      rintro rfl; exact hn h
    simp only [StdMap_find_emplace_ne hK hne]
    exact h

theorem table_get_analytics_other (hK : IsStrictTotal S.keyLt) (gp : GEMM_Planner Key Opts)
    (key key0 : Key) (h : (StdMap.find S.keyLt key0 gp.analytics).isSome = true) :
    Planning_System.table S (Planning_System.get_analytics S gp key) key0
      = Planning_System.table S gp key0 := by
  unfold Planning_System.get_analytics
  split
  · rfl
  · rename_i hn
    have hne : key0 ≠ key := by
      rintro rfl; exact hn h
    simp only [Planning_System.table, StdMap_find_emplace_ne hK hne]

theorem table_get_analytics_ne (hK : IsStrictTotal S.keyLt) (gp : GEMM_Planner Key Opts)
    {key key0 : Key} (hne : key0 ≠ key) :
    Planning_System.table S (Planning_System.get_analytics S gp key) key0
      = Planning_System.table S gp key0 := by
  unfold Planning_System.get_analytics
  split
  · rfl
  · simp only [Planning_System.table, StdMap_find_emplace_ne hK hne]

theorem table_get_analytics_new (hK : IsStrictTotal S.keyLt) (gp : GEMM_Planner Key Opts)
    (key : Key) (h : StdMap.find S.keyLt key gp.analytics = none) :
    Planning_System.table S (Planning_System.get_analytics S gp key) key
      = (Analytics.new S (gp.predicates.map fun pred => fun opts => pred (opts, key))).performance_data := by
  have hk : key ∉ StdMap.keys gp.analytics := (StdMap_find_eq_none hK _ _).1 h
  simp [Planning_System.get_analytics, h, Planning_System.table, StdMap_find_emplace_self hK _ hk]

theorem table_of_absent (gp : GEMM_Planner Key Opts) (key : Key)
    (h : StdMap.find S.keyLt key gp.analytics = none) :
    Planning_System.table S gp key = [] := by
  simp [Planning_System.table, h]

theorem table_modifyTable_ne (hK : IsStrictTotal S.keyLt) (gp : GEMM_Planner Key Opts)
    {key key0 : Key} (hne : key0 ≠ key)
    (f : StdMap Opts Performance_Record → StdMap Opts Performance_Record) :
    Planning_System.table S (Planning_System.modifyTable S gp key f) key0
      = Planning_System.table S gp key0 := by
  simp only [Planning_System.table, Planning_System.modifyTable, StdMap_find_modify_ne hK hne]

theorem table_modifyTable_self (gp : GEMM_Planner Key Opts) (key : Key)
    (f : StdMap Opts Performance_Record → StdMap Opts Performance_Record)
    (h : (StdMap.find S.keyLt key gp.analytics).isSome = true) :
    Planning_System.table S (Planning_System.modifyTable S gp key f) key
      = f (Planning_System.table S gp key) := by
  simp only [Planning_System.table, Planning_System.modifyTable, StdMap_find_modify_self]
  cases e : StdMap.find S.keyLt key gp.analytics with
  | none => rw [e] at h; simp at h
  | some an => rfl

theorem modifyTable_present (hK : IsStrictTotal S.keyLt) (gp : GEMM_Planner Key Opts)
    (key key0 : Key) (f : StdMap Opts Performance_Record → StdMap Opts Performance_Record) :
    (StdMap.find S.keyLt key0 (Planning_System.modifyTable S gp key f).analytics).isSome
      = (StdMap.find S.keyLt key0 gp.analytics).isSome := by
  have h1 := StdMap_find_isSome hK key0 (Planning_System.modifyTable S gp key f).analytics
  have h2 := StdMap_find_isSome hK key0 gp.analytics
  have h3 : StdMap.keys (Planning_System.modifyTable S gp key f).analytics
      = StdMap.keys gp.analytics := StdMap_keys_modify _ _ _
  rw [h3] at h1
  rw [Bool.eq_iff_iff, h1, h2]

theorem modifyTable_fields (gp : GEMM_Planner Key Opts) (key : Key)
    (f : StdMap Opts Performance_Record → StdMap Opts Performance_Record) :
    (Planning_System.modifyTable S gp key f).predicates = gp.predicates ∧
    (Planning_System.modifyTable S gp key f).warm = gp.warm ∧
    (Planning_System.modifyTable S gp key f).tests_until_converge = gp.tests_until_converge :=
  ⟨rfl, rfl, rfl⟩

theorem pair_time_strictWeak :
    IsStrictWeak (fun a b : Opts × Time => decide (a.2 < b.2)) where
  irrefl a := by simp
  trans a b c h1 h2 := by
    simp only [decide_eq_true_eq] at h1 h2 ⊢
    exact lt_trans h1 h2
  incomp a b c h1 h2 := by
    simp only [decide_eq_false_iff_not, not_lt] at h1 h2 ⊢
    exact le_trans h2 h1

/-- The vector `degrade_plan` searches holds the (option, time) pairs of the table. -/
theorem mem_degrade_sorted (data : List (Opts × Time)) (y : Opts × Time) :
    y ∈ S.sort (fun a b => decide (a.2 < b.2)) data ↔ y ∈ data :=
  (S.sort_sorts _ data pair_time_strictWeak).1.mem_iff

/-- The search of `degrade_plan` succeeds exactly when some option of the table fits. -/
theorem degrade_plan_isSome (gp : GEMM_Planner Key Opts) (params : Params) :
    (GEMM_Planner.degrade_plan S gp params).isSome = true ↔
    ∃ o ∈ StdMap.keys (Planning_System.table S
        (Planning_System.get_analytics S gp (S.key params)) (S.key params)),
      S.workspace_req o params ≤ S.space params := by
  simp only [GEMM_Planner.degrade_plan]
  constructor
  · intro h
    split at h
    · rename_i x hx
      have hmem := List.mem_of_find?_eq_some hx
      have hfit := List.find?_some hx
      rw [mem_degrade_sorted] at hmem
      obtain ⟨y, hy, rfl⟩ := List.mem_map.1 hmem
      refine ⟨y.1, List.mem_map.2 ⟨y, hy, rfl⟩, ?_⟩
      simpa [GEMM_Planner.acceptable_plan] using hfit
    · simp at h
  · rintro ⟨o, ho, hfit⟩
    obtain ⟨y, hy, rfl⟩ := List.mem_map.1 ho
    split
    · rfl
    · rename_i hnone
      rw [List.find?_eq_none] at hnone
      have hmem : (y.1, S.get_time y.2) ∈ S.sort (fun a b => decide (a.2 < b.2))
          ((Planning_System.table S (Planning_System.get_analytics S gp (S.key params))
            (S.key params)).map fun x => (x.1, S.get_time x.2)) := by
        rw [mem_degrade_sorted]
        exact List.mem_map.2 ⟨y, hy, rfl⟩
      have := hnone _ hmem
      simp [GEMM_Planner.acceptable_plan, hfit] at this

theorem degrade_plan_state {gp gp' : GEMM_Planner Key Opts} {params : Params} {o : Opts}
    (h : GEMM_Planner.degrade_plan S gp params = some (o, gp')) :
    gp' = Planning_System.get_analytics S gp (S.key params) := by
  simp only [GEMM_Planner.degrade_plan] at h
  split at h
  · simp only [Option.some.injEq, Prod.mk.injEq] at h
    exact h.2.symm
  · simp at h

theorem internal_execute_state {gp gp' : GEMM_Planner Key Opts} {params : Params} {opts o : Opts}
    (hp : (StdMap.find S.keyLt (S.key params) gp.analytics).isSome = true)
    (h : GEMM_Planner.internal_execute S gp opts params = some (o, gp')) : gp' = gp := by
  unfold GEMM_Planner.internal_execute at h
  split at h
  · rw [degrade_plan_state h, get_analytics_of_present hp]
  · simp only [Option.some.injEq, Prod.mk.injEq] at h
    exact h.2.symm

theorem internal_execute_isSome (gp : GEMM_Planner Key Opts) (opts : Opts) (params : Params) :
    (GEMM_Planner.internal_execute S gp opts params).isSome = true ↔
    (S.workspace_req opts params ≤ S.space params ∨
      ∃ o ∈ StdMap.keys (Planning_System.table S
          (Planning_System.get_analytics S gp (S.key params)) (S.key params)),
        S.workspace_req o params ≤ S.space params) := by
  unfold GEMM_Planner.internal_execute
  split
  · rename_i hgt
    rw [degrade_plan_isSome]
    constructor
    · exact Or.inr
    · rintro (h | h)
      · omega
      · exact h
  · rename_i hle
    simp only [Option.isSome_some, true_iff]
    exact Or.inl (by omega)

end engine_facts

end rtat

namespace rtat

/-! ## The comparisons of the instantiation are strict total orders -/

theorem cublasOperation_t_toNat_inj {a b : cublasOperation_t} (h : a.toNat = b.toNat) : a = b := by
  cases a <;> cases b <;> first | rfl | (simp [cublasOperation_t.toNat] at h)

theorem lex_step_iff {α : Type} [LinearOrder α] (x y : α) (rest : Bool) (P : Prop)
    (h : rest = true ↔ P) :
    (if x < y then true else if x > y then false else rest) = true ↔ (x < y ∨ (x = y ∧ P)) := by
  by_cases h1 : x < y
  · simp [h1]
  · by_cases h2 : x > y
    · have h3 : x ≠ y := ne_of_gt h2
      simp [h1, h2, h3]
    · have h3 : x = y := le_antisymm (not_lt.1 h2) (not_lt.1 h1)
      simp [h1, h2, h3, h]

theorem GEMM_Key_lt_fields_iff (l r : GEMM_Key) :
    GEMM_Key.lt_fields l r = true ↔
      (l.transa.toNat < r.transa.toNat ∨ (l.transa.toNat = r.transa.toNat ∧
        (l.transb.toNat < r.transb.toNat ∨ (l.transb.toNat = r.transb.toNat ∧
          (l.m < r.m ∨ (l.m = r.m ∧ (l.k < r.k ∨ (l.k = r.k ∧
            (l.n < r.n ∨ (l.n = r.n ∧ False)))))))))) := by
  unfold GEMM_Key.lt_fields
  exact lex_step_iff _ _ _ _ (lex_step_iff _ _ _ _ (lex_step_iff _ _ _ _
    (lex_step_iff _ _ _ _ (lex_step_iff _ _ _ _ (by simp)))))

theorem GEMM_Key_lt_fields_strict : IsStrictTotal GEMM_Key.lt_fields where
  irrefl a := by simp [GEMM_Key.lt_fields]
  trans a b c h1 h2 := by
    rw [GEMM_Key_lt_fields_iff] at h1 h2 ⊢
    simp only [and_false, or_false] at h1 h2 ⊢
    generalize a.transa.toNat = a1 at h1 h2 ⊢
    generalize a.transb.toNat = a2 at h1 h2 ⊢
    generalize b.transa.toNat = b1 at h1 h2 ⊢
    generalize b.transb.toNat = b2 at h1 h2 ⊢
    generalize c.transa.toNat = c1 at h1 h2 ⊢
    generalize c.transb.toNat = c2 at h1 h2 ⊢
    omega
  total a b h1 h2 := by
    have n1 : ¬ GEMM_Key.lt_fields a b = true := by simp [h1]
    have n2 : ¬ GEMM_Key.lt_fields b a = true := by simp [h2]
    rw [GEMM_Key_lt_fields_iff] at n1 n2
    simp only [and_false, or_false] at n1 n2
    have key : a.transa.toNat = b.transa.toNat ∧ a.transb.toNat = b.transb.toNat ∧
        a.m = b.m ∧ a.k = b.k ∧ a.n = b.n := by
      generalize a.transa.toNat = a1 at n1 n2 ⊢
      generalize a.transb.toNat = a2 at n1 n2 ⊢
      generalize b.transa.toNat = b1 at n1 n2 ⊢
      generalize b.transb.toNat = b2 at n1 n2 ⊢
      omega
    obtain ⟨e1, e2, e3, e4, e5⟩ := key
    rcases a with ⟨a1, a2, a3, a4, a5⟩
    rcases b with ⟨b1, b2, b3, b4, b5⟩
    simp only at e1 e2 e3 e4 e5
    rw [cublasOperation_t_toNat_inj e1, cublasOperation_t_toNat_inj e2, e3, e4, e5]

theorem GEMM_Options_Pad_lt_strict : IsStrictTotal GEMM_Options_Pad.lt where
  irrefl _ := Str_lt_irrefl _
  trans _ _ _ := Str_lt_trans _ _ _
  total a b h1 h2 := GEMM_Options_Pad_toStr_injective a b (Str_eq_of_not_lt _ _ h1 h2)

/-! ## The table built at the first encounter of a shape -/

section analytics_facts

variable {Params Key Opts : Type} {S : Sig Params Key Opts}

theorem Analytics_new_fold_keys (hO : IsStrictTotal S.optLt) (preds : List (Opts → Bool))
    (o : Opts) : ∀ (l : List Opts) (data : StdMap Opts Performance_Record),
    o ∈ StdMap.keys (l.foldl (fun data opts =>
        if preds.all (fun pred => pred opts) then
          StdMap.emplace S.optLt opts (Performance_Record.new true) data
        else data) data) ↔
      o ∈ StdMap.keys data ∨ (o ∈ l ∧ preds.all (fun pred => pred o) = true)
  | [], data => by simp
  | a :: l, data => by
    rw [List.foldl_cons, Analytics_new_fold_keys hO preds o l]
    by_cases ha : preds.all (fun pred => pred a) = true
    · rw [if_pos ha, StdMap_mem_keys_emplace hO]
      constructor
      · rintro ((rfl | h) | ⟨h1, h2⟩)
        · exact Or.inr ⟨List.mem_cons_self _ _, ha⟩
        · exact Or.inl h
        · exact Or.inr ⟨List.mem_cons_of_mem _ h1, h2⟩
      · rintro (h | ⟨h1, h2⟩)
        · exact Or.inl (Or.inr h)
        · rcases List.mem_cons.1 h1 with rfl | h1
          · exact Or.inl (Or.inl rfl)
          · exact Or.inr ⟨h1, h2⟩
    · rw [if_neg ha]
      constructor
      · rintro (h | ⟨h1, h2⟩)
        · exact Or.inl h
        · exact Or.inr ⟨List.mem_cons_of_mem _ h1, h2⟩
      · rintro (h | ⟨h1, h2⟩)
        · exact Or.inl h
        · rcases List.mem_cons.1 h1 with rfl | h1
          · exact absurd h2 ha
          · exact Or.inr ⟨h1, h2⟩

theorem Analytics_new_fold_fresh (preds : List (Opts → Bool)) :
    ∀ (l : List Opts) (data : StdMap Opts Performance_Record),
    (∀ x ∈ data, x.2 = Performance_Record.new true) →
    ∀ x ∈ l.foldl (fun data opts =>
        if preds.all (fun pred => pred opts) then
          StdMap.emplace S.optLt opts (Performance_Record.new true) data
        else data) data, x.2 = Performance_Record.new true
  | [], data, h => by simpa using h
  | a :: l, data, h => by
    rw [List.foldl_cons]
    apply Analytics_new_fold_fresh preds l
    intro x hx
    split at hx
    · rcases StdMap_mem_emplace hx with rfl | hx'
      · rfl
      · exact h x hx'
    · exact h x hx

theorem Analytics_new_fold_WF (hO : IsStrictTotal S.optLt) (preds : List (Opts → Bool)) :
    ∀ (l : List Opts) (data : StdMap Opts Performance_Record),
    StdMap.WF S.optLt data →
    StdMap.WF S.optLt (l.foldl (fun data opts =>
        if preds.all (fun pred => pred opts) then
          StdMap.emplace S.optLt opts (Performance_Record.new true) data
        else data) data)
  | [], data, h => by simpa using h
  | a :: l, data, h => by
    rw [List.foldl_cons]
    apply Analytics_new_fold_WF hO preds l
    split
    · exact StdMap_WF_emplace hO _ _ h
    · exact h

theorem Analytics_new_keys (hO : IsStrictTotal S.optLt) (preds : List (Opts → Bool)) (o : Opts) :
    o ∈ StdMap.keys (Analytics.new S preds).performance_data ↔
      (o ∈ S.enumerate ∧ ∀ pred ∈ preds, pred o = true) := by
  unfold Analytics.new
  rw [Analytics_new_fold_keys hO preds o S.enumerate []]
  simp [StdMap.keys]

theorem Analytics_new_fresh (preds : List (Opts → Bool)) :
    ∀ x ∈ (Analytics.new S preds).performance_data, x.2 = Performance_Record.new true := by
  unfold Analytics.new
  exact Analytics_new_fold_fresh preds S.enumerate [] (by simp)

theorem Analytics_new_WF (hO : IsStrictTotal S.optLt) (preds : List (Opts → Bool)) :
    StdMap.WF S.optLt (Analytics.new S preds).performance_data := by
  unfold Analytics.new
  exact Analytics_new_fold_WF hO preds S.enumerate [] (by simp [StdMap.WF, StdMap.keys])

/-- C8: when the table of a shape is first built (the shape has no table yet and
`get_analytics` is called on it), the shape has a table afterwards; that table holds a
record for an option if and only if the option is in `enumerate()` and every registered
predicate returns true on (option, shape); and every record of the table has no sample and
`synchronous = true`. -/
theorem analytics_first_built (hK : IsStrictTotal S.keyLt) (hO : IsStrictTotal S.optLt)
    (gp : GEMM_Planner Key Opts) (key : Key)
    (hnew : StdMap.find S.keyLt key gp.analytics = none) :
    (StdMap.find S.keyLt key (Planning_System.get_analytics S gp key).analytics).isSome = true ∧
    (∀ o : Opts,
      (∃ r, Planning_System.record S (Planning_System.get_analytics S gp key) key o = some r) ↔
      (o ∈ S.enumerate ∧ ∀ pred ∈ gp.predicates, pred (o, key) = true)) ∧
    (∀ (o : Opts) (r : Performance_Record),
      Planning_System.record S (Planning_System.get_analytics S gp key) key o = some r →
      r.count = 0 ∧ r.synchronous = true) := by
  refine ⟨get_analytics_present hK gp key, ?_, ?_⟩
  · intro o
    unfold Planning_System.record
    rw [table_get_analytics_new hK gp key hnew, ← Option.isSome_iff_exists,
      StdMap_find_isSome hO, Analytics_new_keys hO]
    simp
  · intro o r hr
    unfold Planning_System.record at hr
    rw [table_get_analytics_new hK gp key hnew] at hr
    have := Analytics_new_fresh _ _ (StdMap_find_mem hO hr)
    simp only at this
    subst this
    exact ⟨rfl, rfl⟩

end analytics_facts

/-- C8 at the planner with the one predicate `keepsResult` and the 4 by 4 by 4 shape: the
shape has no table at first, and the table built for it has a record for an option exactly
when the option is enumerated and passes the predicate. -/
theorem analytics_first_built_witness :
    StdMap.find gemmSig.keyLt (GEMM_Key.ofInputs (smallInputs 1000))
      (GEMM_Planner.new [keepsResult] 3 : GEMM_Planner GEMM_Key GEMM_Options_Pad).analytics = none ∧
    (∀ o : GEMM_Options_Pad,
      (∃ r, Planning_System.record gemmSig
        (Planning_System.get_analytics gemmSig (GEMM_Planner.new [keepsResult] 3)
          (GEMM_Key.ofInputs (smallInputs 1000)))
        (GEMM_Key.ofInputs (smallInputs 1000)) o = some r) ↔
      (o ∈ gemmSig.enumerate ∧
        ∀ pred ∈ (GEMM_Planner.new [keepsResult] 3 : GEMM_Planner GEMM_Key GEMM_Options_Pad).predicates,
          pred (o, GEMM_Key.ofInputs (smallInputs 1000)) = true)) :=
  ⟨rfl,
   (analytics_first_built (S := gemmSig) GEMM_Key_lt_fields_strict GEMM_Options_Pad_lt_strict
      (GEMM_Planner.new [keepsResult] 3) (GEMM_Key.ofInputs (smallInputs 1000)) rfl).2.1⟩

end rtat

namespace rtat

/-! ## The key set of a table under the engine operations -/

section keyset_facts

variable {Params Key Opts : Type} {S : Sig Params Key Opts}

theorem table_congr {gp gp' : GEMM_Planner Key Opts} (h : gp'.analytics = gp.analytics)
    (key : Key) : Planning_System.table S gp' key = Planning_System.table S gp key := by
  unfold Planning_System.table
  rw [h]

theorem keys_table_modifyTable (hK : IsStrictTotal S.keyLt) (gp : GEMM_Planner Key Opts)
    (key key0 : Key) (f : StdMap Opts Performance_Record → StdMap Opts Performance_Record)
    (hf : ∀ d, StdMap.keys (f d) = StdMap.keys d) :
    StdMap.keys (Planning_System.table S (Planning_System.modifyTable S gp key f) key0)
      = StdMap.keys (Planning_System.table S gp key0) := by
  by_cases e : key0 = key
  · subst e
    cases hp : StdMap.find S.keyLt key0 gp.analytics with
    | some an =>
      rw [table_modifyTable_self gp key0 f (by simp [hp]), hf]
    | none =>
      have h2 : StdMap.find S.keyLt key0 (Planning_System.modifyTable S gp key0 f).analytics
          = none := by
        have := modifyTable_present hK gp key0 key0 f
        rw [hp] at this
        simpa using this
      rw [table_of_absent _ _ hp, table_of_absent _ _ h2]
  · rw [table_modifyTable_ne hK gp e]

theorem warmup_state (hK : IsStrictTotal S.keyLt) {gp gp' : GEMM_Planner Key Opts}
    {opts : Opts} {params : Params} (h : Planning_System.warmup S gp opts params = some gp') :
    gp' = Planning_System.get_analytics S gp (S.key params) := by
  simp only [Planning_System.warmup, Option.map_eq_some'] at h
  obtain ⟨⟨o, g⟩, hg, rfl⟩ := h
  exact internal_execute_state (get_analytics_present hK gp (S.key params)) hg

theorem warmup_isSome (hK : IsStrictTotal S.keyLt) (gp : GEMM_Planner Key Opts)
    (opts : Opts) (params : Params) :
    (Planning_System.warmup S gp opts params).isSome = true ↔
    (S.workspace_req opts params ≤ S.space params ∨
      ∃ o ∈ StdMap.keys (Planning_System.table S
          (Planning_System.get_analytics S gp (S.key params)) (S.key params)),
        S.workspace_req o params ≤ S.space params) := by
  simp only [Planning_System.warmup, Option.isSome_map']
  rw [internal_execute_isSome,
    get_analytics_of_present (get_analytics_present hK gp (S.key params))]

theorem get_n_state {gp gp' : GEMM_Planner Key Opts} {key : Key} {n : Int}
    {cmp : Time → Time → Bool} {l : List Opts}
    (h : Planning_System.get_n S gp key n cmp = some (l, gp')) :
    gp' = Planning_System.get_analytics S gp key := by
  simp only [Planning_System.get_n] at h
  split_ifs at h <;>
    (simp only [Option.some.injEq, Prod.mk.injEq] at h; exact h.2.symm)

theorem create_plan_state {gp gp' : GEMM_Planner Key Opts} {params : Params} {o : Opts}
    (h : GEMM_Planner.create_plan S gp params = some (o, gp')) :
    gp' = Planning_System.get_analytics S gp (S.key params) ∨
    gp' = Planning_System.modifyTable S (Planning_System.get_analytics S gp (S.key params))
      (S.key params) (fun d => d.map fun x => (x.1, { x.2 with synchronous := false })) := by
  simp only [GEMM_Planner.create_plan] at h
  split at h
  · simp at h
  · split at h
    · simp only [Option.some.injEq, Prod.mk.injEq] at h
      exact Or.inl h.2.symm
    · simp only [Option.some.injEq, Prod.mk.injEq] at h
      exact Or.inr h.2.symm

/-- The tables a returning `execute` leaves: the table of the shape is resolved, the record
of the option is accessed through `operator[]`, and the sample is appended to it. -/
theorem execute_analytics (hK : IsStrictTotal S.keyLt) {gp gp' : GEMM_Planner Key Opts}
    {opts : Opts} {params : Params} {t : Time}
    (h : Planning_System.execute S gp opts params t = some gp') :
    gp'.analytics =
      (Planning_System.modifyTable S
        (Planning_System.modifyTable S (Planning_System.get_analytics S gp (S.key params))
          (S.key params) (fun data => Planning_System.index S data opts))
        (S.key params) (StdMap.modify S.optLt opts (fun rec => rec.measure t))).analytics := by
  have hpres := get_analytics_present hK gp (S.key params)
  simp only [Planning_System.execute] at h
  cases hw : gp.warm with
  | true =>
    simp only [hw, if_true, Option.some_bind, Option.map_eq_some'] at h
    obtain ⟨⟨o, g⟩, hg, rfl⟩ := h
    have hp3 : (StdMap.find S.keyLt (S.key params)
        (Planning_System.modifyTable S (Planning_System.get_analytics S gp (S.key params))
          (S.key params) (fun data => Planning_System.index S data opts)).analytics).isSome
        = true := by
      rw [modifyTable_present hK]; exact hpres
    rw [internal_execute_state hp3 hg]
  | false =>
    simp only [hw, Bool.false_eq_true, if_false, Option.bind_eq_some, Option.map_eq_some'] at h
    obtain ⟨g1, ⟨g0, hg0, rfl⟩, ⟨o, g⟩, hg, rfl⟩ := h
    have e0 := warmup_state hK hg0
    subst e0
    have hp1 : (StdMap.find S.keyLt (S.key params)
        ({ Planning_System.get_analytics S gp (S.key params) with warm := true } :
          GEMM_Planner Key Opts).analytics).isSome = true := hpres
    rw [get_analytics_of_present hp1] at hg
    have hp3 : (StdMap.find S.keyLt (S.key params)
        (Planning_System.modifyTable S
          ({ Planning_System.get_analytics S gp (S.key params) with warm := true } :
            GEMM_Planner Key Opts)
          (S.key params) (fun data => Planning_System.index S data opts)).analytics).isSome
        = true := by
      rw [modifyTable_present hK]; exact hpres
    rw [internal_execute_state hp3 hg]
    rfl

theorem execute_isSome (hK : IsStrictTotal S.keyLt) (hO : IsStrictTotal S.optLt)
    (gp : GEMM_Planner Key Opts) (opts : Opts) (params : Params) (t : Time) :
    (Planning_System.execute S gp opts params t).isSome = true ↔
    (S.workspace_req opts params ≤ S.space params ∨
      ∃ o ∈ StdMap.keys (Planning_System.table S
          (Planning_System.get_analytics S gp (S.key params)) (S.key params)),
        S.workspace_req o params ≤ S.space params) := by
  have hpres := get_analytics_present hK gp (S.key params)
  -- the timed run sees the table with the record of `opts` added
  have timed : ∀ g : GEMM_Planner Key Opts,
      g.analytics = (Planning_System.get_analytics S gp (S.key params)).analytics →
      ((GEMM_Planner.internal_execute S
        (Planning_System.modifyTable S g (S.key params)
          (fun data => Planning_System.index S data opts)) opts params).isSome = true ↔
      (S.workspace_req opts params ≤ S.space params ∨
        ∃ o ∈ StdMap.keys (Planning_System.table S
            (Planning_System.get_analytics S gp (S.key params)) (S.key params)),
          S.workspace_req o params ≤ S.space params)) := by
    intro g hg
    have hpg : (StdMap.find S.keyLt (S.key params) g.analytics).isSome = true := by
      rw [hg]; exact hpres
    have hp3 : (StdMap.find S.keyLt (S.key params)
        (Planning_System.modifyTable S g (S.key params)
          (fun data => Planning_System.index S data opts)).analytics).isSome = true := by
      rw [modifyTable_present hK]; exact hpg
    rw [internal_execute_isSome, get_analytics_of_present hp3,
      table_modifyTable_self g _ _ hpg, table_congr hg]
    constructor
    · rintro (h | ⟨o, ho, hfit⟩)
      · exact Or.inl h
      · rcases (StdMap_mem_keys_emplace hO _ _ _ _).1 ho with rfl | ho'
        · exact Or.inl hfit
        · exact Or.inr ⟨o, ho', hfit⟩
    · rintro (h | ⟨o, ho, hfit⟩)
      · exact Or.inl h
      · exact Or.inr ⟨o, (StdMap_mem_keys_emplace hO _ _ _ _).2 (Or.inr ho), hfit⟩
  simp only [Planning_System.execute]
  cases hw : gp.warm with
  | true =>
    simp only [if_true, Option.some_bind, Option.isSome_map']
    have := timed (Planning_System.get_analytics S gp (S.key params)) rfl
    exact this
  | false =>
    simp only [Bool.false_eq_true, if_false]
    cases hwu : Planning_System.warmup S gp opts params with
    | none =>
      have h1 := warmup_isSome hK gp opts params
      rw [hwu] at h1
      simp only [Option.map_none', Option.none_bind, Option.isSome_none, Bool.false_eq_true,
        false_iff] at h1 ⊢
      exact h1
    | some g0 =>
      have e0 := warmup_state hK hwu
      subst e0
      simp only [Option.map_some', Option.some_bind, Option.isSome_map']
      have hp1 : (StdMap.find S.keyLt (S.key params)
          ({ Planning_System.get_analytics S gp (S.key params) with warm := true } :
            GEMM_Planner Key Opts).analytics).isSome = true := hpres
      rw [get_analytics_of_present hp1]
      exact timed _ rfl

end keyset_facts

end rtat

namespace rtat

section keyset_claims

variable {Params Key Opts : Type} {S : Sig Params Key Opts}

theorem mem_keys_index (hO : IsStrictTotal S.optLt) (data : StdMap Opts Performance_Record)
    (opts o : Opts) :
    o ∈ StdMap.keys (Planning_System.index S data opts) ↔ o = opts ∨ o ∈ StdMap.keys data :=
  StdMap_mem_keys_emplace hO _ _ _ _

theorem mem_keys_table_index (hK : IsStrictTotal S.keyLt) (hO : IsStrictTotal S.optLt)
    (gp : GEMM_Planner Key Opts) (key0 : Key)
    (hex : (StdMap.find S.keyLt key0 gp.analytics).isSome = true) (opts : Opts) (params : Params)
    (o : Opts) :
    o ∈ StdMap.keys (Planning_System.table S
        (Planning_System.modifyTable S (Planning_System.get_analytics S gp (S.key params))
          (S.key params) (fun data => Planning_System.index S data opts)) key0) ↔
      (o ∈ StdMap.keys (Planning_System.table S gp key0) ∨ (o = opts ∧ S.key params = key0)) := by
  by_cases e : key0 = S.key params
  · subst e
    rw [table_modifyTable_self _ _ _ (get_analytics_present hK gp _), mem_keys_index hO,
      get_analytics_of_present hex]
    constructor
    · rintro (h | h)
      · exact Or.inr ⟨h, rfl⟩
      · exact Or.inl h
    · rintro (h | ⟨h, _⟩)
      · exact Or.inr h
      · exact Or.inl h
  · rw [table_modifyTable_ne hK _ e, table_get_analytics_other hK gp _ _ hex]
    constructor
    · exact Or.inl
    · rintro (h | ⟨_, h⟩)
      · exact h
      · exact absurd h.symm e

/-- C9, amended: once a shape has a table, no engine operation removes an option from its
key set; `warmup`, `create_plan`, `degrade_plan`, `top_n` and `bottom_n` leave the key set
as it is; `execute(opts, params, s)` and `get_floprate(opts, params)` leave it as it is too
when `opts` is a key already or `params` has another shape, and otherwise add exactly
`opts`, through `performance_data[opts]`. -/
theorem key_set_of_existing_table (hK : IsStrictTotal S.keyLt) (hO : IsStrictTotal S.optLt)
    (gp : GEMM_Planner Key Opts) (key0 : Key)
    (hex : (StdMap.find S.keyLt key0 gp.analytics).isSome = true)
    (opts : Opts) (params : Params) :
    (∀ gp', Planning_System.warmup S gp opts params = some gp' →
      StdMap.keys (Planning_System.table S gp' key0)
        = StdMap.keys (Planning_System.table S gp key0)) ∧
    (∀ o gp', GEMM_Planner.create_plan S gp params = some (o, gp') →
      StdMap.keys (Planning_System.table S gp' key0)
        = StdMap.keys (Planning_System.table S gp key0)) ∧
    (∀ o gp', GEMM_Planner.degrade_plan S gp params = some (o, gp') →
      StdMap.keys (Planning_System.table S gp' key0)
        = StdMap.keys (Planning_System.table S gp key0)) ∧
    (∀ key n l gp', Planning_System.top_n S gp key n = some (l, gp') →
      StdMap.keys (Planning_System.table S gp' key0)
        = StdMap.keys (Planning_System.table S gp key0)) ∧
    (∀ key n l gp', Planning_System.bottom_n S gp key n = some (l, gp') →
      StdMap.keys (Planning_System.table S gp' key0)
        = StdMap.keys (Planning_System.table S gp key0)) ∧
    (∀ t gp', Planning_System.execute S gp opts params t = some gp' →
      ∀ o, o ∈ StdMap.keys (Planning_System.table S gp' key0) ↔
        (o ∈ StdMap.keys (Planning_System.table S gp key0) ∨
          (o = opts ∧ S.key params = key0))) ∧
    (∀ o, o ∈ StdMap.keys
        (Planning_System.table S (GEMM_Planner.get_floprate S gp opts params).2 key0) ↔
      (o ∈ StdMap.keys (Planning_System.table S gp key0) ∨
        (o = opts ∧ S.key params = key0))) := by
  have hga : ∀ key, Planning_System.table S (Planning_System.get_analytics S gp key) key0
      = Planning_System.table S gp key0 := fun key => table_get_analytics_other hK gp key key0 hex
  refine ⟨?_, ?_, ?_, ?_, ?_, ?_, ?_⟩
  · intro gp' h
    rw [warmup_state hK h, hga]
  · intro o gp' h
    rcases create_plan_state h with e | e
    · rw [e, hga]
    · rw [e, keys_table_modifyTable hK, hga]
      intro d
      simp [StdMap.keys, List.map_map, Function.comp_def]
  · intro o gp' h
    rw [degrade_plan_state h, hga]
  · intro key n l gp' h
    rw [get_n_state h, hga]
  · intro key n l gp' h
    rw [get_n_state h, hga]
  · intro t gp' h o
    rw [table_congr (execute_analytics hK h), keys_table_modifyTable hK _ _ _ _
      (fun d => StdMap_keys_modify _ _ _)]
    exact mem_keys_table_index hK hO gp key0 hex opts params o
  · intro o
    exact mem_keys_table_index hK hO gp key0 hex opts params o

end keyset_claims

/-- C9, as stated, fails. The planner has the predicate `keepsResult` and the table of the
4 by 4 by 4 shape has been built; the option `T N T / P N N` transposes the result, so the
predicate rejects it and it is not a key of the table. After `execute` with that option it
is one. -/
theorem execute_adds_rejected_option :
    (StdMap.find gemmSig.keyLt (GEMM_Key.ofInputs (smallInputs 1000))
      (Planning_System.get_analytics gemmSig (GEMM_Planner.new [keepsResult] 3)
        (GEMM_Key.ofInputs (smallInputs 1000))).analytics).isSome = true ∧
    (⟨.TRANS, .PAD, .NOTRANS, .NOPAD, .TRANS, .NOPAD⟩ : GEMM_Options_Pad) ∉
      StdMap.keys (Planning_System.table gemmSig
        (Planning_System.get_analytics gemmSig (GEMM_Planner.new [keepsResult] 3)
          (GEMM_Key.ofInputs (smallInputs 1000)))
        (GEMM_Key.ofInputs (smallInputs 1000))) ∧
    (Planning_System.execute gemmSig
        (Planning_System.get_analytics gemmSig (GEMM_Planner.new [keepsResult] 3)
          (GEMM_Key.ofInputs (smallInputs 1000)))
        ⟨.TRANS, .PAD, .NOTRANS, .NOPAD, .TRANS, .NOPAD⟩ (smallInputs 1000) 5).map
      (fun g => decide ((⟨.TRANS, .PAD, .NOTRANS, .NOPAD, .TRANS, .NOPAD⟩ : GEMM_Options_Pad) ∈
        StdMap.keys (Planning_System.table gemmSig g (GEMM_Key.ofInputs (smallInputs 1000)))))
      = some true := by
  refine ⟨by decide, by decide, by decide⟩

/-- The amended C9 at the same planner: `create_plan` on the shape whose table exists
returns and leaves the sixteen keys of the table as they were. -/
theorem key_set_of_existing_table_witness :
    (StdMap.find gemmSig.keyLt (GEMM_Key.ofInputs (smallInputs 1000))
      (Planning_System.get_analytics gemmSig (GEMM_Planner.new [keepsResult] 3)
        (GEMM_Key.ofInputs (smallInputs 1000))).analytics).isSome = true ∧
    (GEMM_Planner.create_plan gemmSig
      (Planning_System.get_analytics gemmSig (GEMM_Planner.new [keepsResult] 3)
        (GEMM_Key.ofInputs (smallInputs 1000))) (smallInputs 1000)).isSome = true ∧
    (∀ o gp', GEMM_Planner.create_plan gemmSig
      (Planning_System.get_analytics gemmSig (GEMM_Planner.new [keepsResult] 3)
        (GEMM_Key.ofInputs (smallInputs 1000))) (smallInputs 1000) = some (o, gp') →
      StdMap.keys (Planning_System.table gemmSig gp' (GEMM_Key.ofInputs (smallInputs 1000)))
        = StdMap.keys (Planning_System.table gemmSig
            (Planning_System.get_analytics gemmSig (GEMM_Planner.new [keepsResult] 3)
              (GEMM_Key.ofInputs (smallInputs 1000)))
            (GEMM_Key.ofInputs (smallInputs 1000)))) :=
  ⟨by decide, by decide,
   (key_set_of_existing_table (S := gemmSig) GEMM_Key_lt_fields_strict
      GEMM_Options_Pad_lt_strict
      (Planning_System.get_analytics gemmSig (GEMM_Planner.new [keepsResult] 3)
        (GEMM_Key.ofInputs (smallInputs 1000)))
      (GEMM_Key.ofInputs (smallInputs 1000)) (by decide)
      GEMM_Options_Pad.default_opts (smallInputs 1000)).2.1⟩

end rtat

namespace rtat

/-! ## The samples of the records under `execute` -/

section sample_facts

variable {Params Key Opts : Type} {S : Sig Params Key Opts}

theorem table_WF_of_present {gp : GEMM_Planner Key Opts} (hK : IsStrictTotal S.keyLt)
    (hwf : GEMM_Planner.WF S gp) (key : Key) :
    StdMap.WF S.optLt (Planning_System.table S gp key) := by
  unfold Planning_System.table
  cases e : StdMap.find S.keyLt key gp.analytics with
  | none => simp [StdMap.WF, StdMap.keys]
  | some an => exact hwf.2 _ (StdMap_find_mem hK e)

theorem table_get_analytics_WF (hK : IsStrictTotal S.keyLt) (hO : IsStrictTotal S.optLt)
    {gp : GEMM_Planner Key Opts} (hwf : GEMM_Planner.WF S gp) (key : Key) :
    StdMap.WF S.optLt
      (Planning_System.table S (Planning_System.get_analytics S gp key) key) := by
  cases e : StdMap.find S.keyLt key gp.analytics with
  | none =>
    rw [table_get_analytics_new hK gp key e]
    exact Analytics_new_WF hO _
  | some an =>
    rw [get_analytics_of_present (by simp [e])]
    exact table_WF_of_present hK hwf key

/-- Resolving a table, new or not, shows the same samples as before: a table that is new has
fresh records only. -/
theorem samplesOf_get_analytics (hK : IsStrictTotal S.keyLt) (hO : IsStrictTotal S.optLt)
    (gp : GEMM_Planner Key Opts) (key key0 : Key) (o : Opts) :
    Planning_System.samplesOf S (Planning_System.get_analytics S gp key) key0 o
      = Planning_System.samplesOf S gp key0 o := by
  by_cases e : key0 = key
  · subst e
    cases hp : StdMap.find S.keyLt key0 gp.analytics with
    | some an => rw [get_analytics_of_present (by simp [hp])]
    | none =>
      unfold Planning_System.samplesOf Planning_System.record
      rw [table_get_analytics_new hK gp key0 hp, table_of_absent gp key0 hp]
      cases hr : StdMap.find S.optLt o
          (Analytics.new S (gp.predicates.map fun pred => fun opts => pred (opts, key0))).performance_data with
      | none => rfl
      | some r =>
        have := Analytics_new_fresh _ _ (StdMap_find_mem hO hr)
        simp only at this
        subst this
        rfl
  · unfold Planning_System.samplesOf Planning_System.record
    rw [table_get_analytics_ne hK gp e]

theorem record_get_analytics_of_some (hK : IsStrictTotal S.keyLt)
    (gp : GEMM_Planner Key Opts) (key key0 : Key) (o : Opts) (r : Performance_Record)
    (h : Planning_System.record S gp key0 o = some r) :
    Planning_System.record S (Planning_System.get_analytics S gp key) key0 o = some r := by
  unfold Planning_System.record at h ⊢
  cases hp : StdMap.find S.keyLt key0 gp.analytics with
  | none =>
    rw [table_of_absent gp key0 hp] at h
    simp [StdMap.find] at h
  | some an =>
    rw [table_get_analytics_other hK gp key key0 (by simp [hp])]
    exact h

/-- The table of the executed shape after a returning `execute`. -/
theorem execute_table_self (hK : IsStrictTotal S.keyLt) {gp gp' : GEMM_Planner Key Opts}
    {opts : Opts} {params : Params} {t : Time}
    (h : Planning_System.execute S gp opts params t = some gp') :
    Planning_System.table S gp' (S.key params)
      = StdMap.modify S.optLt opts (fun rec => rec.measure t)
          (Planning_System.index S
            (Planning_System.table S (Planning_System.get_analytics S gp (S.key params))
              (S.key params)) opts) := by
  have hpres := get_analytics_present hK gp (S.key params)
  rw [table_congr (execute_analytics hK h),
    table_modifyTable_self _ _ _ (by rw [modifyTable_present hK]; exact hpres),
    table_modifyTable_self _ _ _ hpres]

/-- The record of any other option or shape after a returning `execute`. -/
theorem execute_record_other (hK : IsStrictTotal S.keyLt) (hO : IsStrictTotal S.optLt)
    {gp gp' : GEMM_Planner Key Opts} {opts : Opts} {params : Params} {t : Time}
    (h : Planning_System.execute S gp opts params t = some gp') (key : Key) (o : Opts)
    (hne : key ≠ S.key params ∨ o ≠ opts) :
    Planning_System.record S gp' key o
      = Planning_System.record S (Planning_System.get_analytics S gp (S.key params)) key o := by
  by_cases e : key = S.key params
  · subst e
    have ho : o ≠ opts := by
      rcases hne with h1 | h1
      · exact absurd rfl h1
      · exact h1
    unfold Planning_System.record
    rw [execute_table_self hK h, StdMap_find_modify_ne hO ho]
    exact StdMap_find_emplace_ne hO ho _ _
  · unfold Planning_System.record
    rw [table_congr (execute_analytics hK h), table_modifyTable_ne hK _ e,
      table_modifyTable_ne hK _ e]

/-- The record of the executed option after a returning `execute`. -/
theorem execute_record_self (hK : IsStrictTotal S.keyLt) (hO : IsStrictTotal S.optLt)
    {gp gp' : GEMM_Planner Key Opts} (hwf : GEMM_Planner.WF S gp)
    {opts : Opts} {params : Params} {t : Time}
    (h : Planning_System.execute S gp opts params t = some gp') :
    ∃ r', Planning_System.record S gp' (S.key params) opts = some r' ∧
      r'.samples = Planning_System.samplesOf S
        (Planning_System.get_analytics S gp (S.key params)) (S.key params) opts ++ [t] := by
  have hT := table_get_analytics_WF hK hO hwf (S.key params)
  unfold Planning_System.samplesOf Planning_System.record
  rw [execute_table_self hK h, StdMap_find_modify_self]
  generalize Planning_System.table S (Planning_System.get_analytics S gp (S.key params))
    (S.key params) = T at hT
  cases hr : StdMap.find S.optLt opts T with
  | some r =>
    have hmem : opts ∈ StdMap.keys T := (StdMap_find_isSome hO opts T).1 (by simp [hr])
    unfold Planning_System.index
    rw [StdMap_emplace_of_mem hO _ hT hmem, hr]
    exact ⟨_, rfl, rfl⟩
  | none =>
    have hmem : opts ∉ StdMap.keys T := (StdMap_find_eq_none hO opts T).1 hr
    unfold Planning_System.index
    rw [StdMap_find_emplace_self hO _ hmem]
    exact ⟨_, rfl, rfl⟩

theorem sampleCount_eq_length (gp : GEMM_Planner Key Opts) (key : Key) (o : Opts) :
    Planning_System.sampleCount S gp key o = (Planning_System.samplesOf S gp key o).length := by
  unfold Planning_System.sampleCount Planning_System.samplesOf
  cases Planning_System.record S gp key o <;> rfl

/-- C10: on a well-formed planner, `execute(option, params, stream)` returns exactly when
the option, or some option of the shape's table, fits the workspace; and a call that returns
appends exactly one sample, the captured time, to the record of (shape of params, option),
while every other record of every shape keeps the record it had, and no other option of any
shape changes its sample count. This covers the first call, which runs the untimed warmup,
and the call in which `internal_execute` degrades to another option. -/
theorem execute_appends_one_sample (hK : IsStrictTotal S.keyLt) (hO : IsStrictTotal S.optLt)
    (gp : GEMM_Planner Key Opts) (hwf : GEMM_Planner.WF S gp)
    (opts : Opts) (params : Params) (t : Time) :
    ((Planning_System.execute S gp opts params t).isSome = true ↔
      (S.workspace_req opts params ≤ S.space params ∨
        ∃ o ∈ StdMap.keys (Planning_System.table S
            (Planning_System.get_analytics S gp (S.key params)) (S.key params)),
          S.workspace_req o params ≤ S.space params)) ∧
    ∀ gp', Planning_System.execute S gp opts params t = some gp' →
      Planning_System.samplesOf S gp' (S.key params) opts
        = Planning_System.samplesOf S gp (S.key params) opts ++ [t] ∧
      Planning_System.sampleCount S gp' (S.key params) opts
        = Planning_System.sampleCount S gp (S.key params) opts + 1 ∧
      ∀ (key : Key) (o : Opts), (key ≠ S.key params ∨ o ≠ opts) →
        Planning_System.sampleCount S gp' key o = Planning_System.sampleCount S gp key o ∧
        Planning_System.samplesOf S gp' key o = Planning_System.samplesOf S gp key o ∧
        ∀ r, Planning_System.record S gp key o = some r →
          Planning_System.record S gp' key o = some r := by
  refine ⟨execute_isSome hK hO gp opts params t, ?_⟩
  intro gp' h
  have hself : Planning_System.samplesOf S gp' (S.key params) opts
      = Planning_System.samplesOf S gp (S.key params) opts ++ [t] := by
    obtain ⟨r', hr', hs⟩ := execute_record_self hK hO hwf h
    rw [samplesOf_get_analytics hK hO] at hs
    rw [← hs]
    unfold Planning_System.samplesOf
    rw [hr']
  have hother : ∀ (key : Key) (o : Opts), (key ≠ S.key params ∨ o ≠ opts) →
      Planning_System.samplesOf S gp' key o = Planning_System.samplesOf S gp key o := by
    intro key o hne
    rw [← samplesOf_get_analytics hK hO gp (S.key params) key o]
    unfold Planning_System.samplesOf
    rw [execute_record_other hK hO h key o hne]
  refine ⟨hself, ?_, ?_⟩
  · rw [sampleCount_eq_length, sampleCount_eq_length, hself]
    simp
  · intro key o hne
    refine ⟨?_, hother key o hne, ?_⟩
    · rw [sampleCount_eq_length, sampleCount_eq_length, hother key o hne]
    · intro r hr
      rw [execute_record_other hK hO h key o hne]
      exact record_get_analytics_of_some hK gp _ key o r hr

end sample_facts

/-- C10 at the first call on a new planner with no workspace at all: the requested option
`T N T / P N N` does not fit, the plain option does, so the call returns, having run the
warmup and degraded; the requested option then holds the one sample 5. -/
theorem execute_appends_one_sample_witness :
    GEMM_Planner.WF gemmSig (GEMM_Planner.new [keepsResult] 3) ∧
    (GEMM_Planner.new [keepsResult] 3 : GEMM_Planner GEMM_Key GEMM_Options_Pad).warm = false ∧
    ¬ gemmSig.workspace_req ⟨.TRANS, .PAD, .NOTRANS, .NOPAD, .TRANS, .NOPAD⟩ (smallInputs 0)
      ≤ gemmSig.space (smallInputs 0) ∧
    (Planning_System.execute gemmSig (GEMM_Planner.new [keepsResult] 3)
      ⟨.TRANS, .PAD, .NOTRANS, .NOPAD, .TRANS, .NOPAD⟩ (smallInputs 0) 5).isSome = true ∧
    (∀ gp', Planning_System.execute gemmSig (GEMM_Planner.new [keepsResult] 3)
        ⟨.TRANS, .PAD, .NOTRANS, .NOPAD, .TRANS, .NOPAD⟩ (smallInputs 0) 5 = some gp' →
      Planning_System.samplesOf gemmSig gp' (gemmSig.key (smallInputs 0))
          ⟨.TRANS, .PAD, .NOTRANS, .NOPAD, .TRANS, .NOPAD⟩
        = Planning_System.samplesOf gemmSig (GEMM_Planner.new [keepsResult] 3)
            (gemmSig.key (smallInputs 0)) ⟨.TRANS, .PAD, .NOTRANS, .NOPAD, .TRANS, .NOPAD⟩
          ++ [5]) :=
  ⟨⟨by simp [GEMM_Planner.new, StdMap.WF, StdMap.keys], by simp [GEMM_Planner.new]⟩,
   rfl, by decide, by decide,
   fun gp' h => ((execute_appends_one_sample (S := gemmSig) GEMM_Key_lt_fields_strict
      GEMM_Options_Pad_lt_strict (GEMM_Planner.new [keepsResult] 3)
      ⟨by simp [GEMM_Planner.new, StdMap.WF, StdMap.keys], by simp [GEMM_Planner.new]⟩
      ⟨.TRANS, .PAD, .NOTRANS, .NOPAD, .TRANS, .NOPAD⟩ (smallInputs 0) 5).2 gp' h).1⟩

end rtat

namespace rtat

/-! ## Well-formedness is kept -/

section wf_facts

variable {Params Key Opts : Type} {S : Sig Params Key Opts}

theorem StdMap_mem_modify {K V : Type} {lt : K → K → Bool} {k : K} {f : V → V}
    {m : StdMap K V} {x : K × V} (hx : x ∈ StdMap.modify lt k f m) :
    x ∈ m ∨ ∃ v, (x.1, v) ∈ m ∧ x.2 = f v := by
  induction m with
  | nil => simp [StdMap.modify] at hx
  | cons y m ih =>
    obtain ⟨k', v'⟩ := y
    simp only [StdMap.modify] at hx
    split at hx
    · rcases List.mem_cons.1 hx with e | e
      · subst e
        exact Or.inr ⟨v', List.mem_cons_self _ _, rfl⟩
      · exact Or.inl (List.mem_cons_of_mem _ e)
    · rcases List.mem_cons.1 hx with e | e
      · exact Or.inl (e ▸ List.mem_cons_self _ _)
      · rcases ih e with h | ⟨v, h1, h2⟩
        · exact Or.inl (List.mem_cons_of_mem _ h)
        · exact Or.inr ⟨v, List.mem_cons_of_mem _ h1, h2⟩

theorem get_analytics_WF (hK : IsStrictTotal S.keyLt) (hO : IsStrictTotal S.optLt)
    {gp : GEMM_Planner Key Opts} (hwf : GEMM_Planner.WF S gp) (key : Key) :
    GEMM_Planner.WF S (Planning_System.get_analytics S gp key) := by
  unfold Planning_System.get_analytics
  split
  · exact hwf
  · refine ⟨StdMap_WF_emplace hK _ _ hwf.1, ?_⟩
    intro x hx
    rcases StdMap_mem_emplace hx with rfl | hx'
    · exact Analytics_new_WF hO _
    · exact hwf.2 x hx'

theorem modifyTable_WF {gp : GEMM_Planner Key Opts} (hwf : GEMM_Planner.WF S gp) (key : Key)
    (f : StdMap Opts Performance_Record → StdMap Opts Performance_Record)
    (hf : ∀ d, StdMap.WF S.optLt d → StdMap.WF S.optLt (f d)) :
    GEMM_Planner.WF S (Planning_System.modifyTable S gp key f) := by
  refine ⟨StdMap_WF_modify _ _ hwf.1, ?_⟩
  intro x hx
  rcases StdMap_mem_modify hx with h | ⟨an, h1, h2⟩
  · exact hwf.2 x h
  · rw [h2]
    exact hf _ (hwf.2 _ h1)

/-- A returning `execute` leaves a well-formed planner well-formed. -/
theorem execute_WF (hK : IsStrictTotal S.keyLt) (hO : IsStrictTotal S.optLt)
    {gp gp' : GEMM_Planner Key Opts} (hwf : GEMM_Planner.WF S gp)
    {opts : Opts} {params : Params} {t : Time}
    (h : Planning_System.execute S gp opts params t = some gp') :
    GEMM_Planner.WF S gp' := by
  have h1 := modifyTable_WF
    (modifyTable_WF (get_analytics_WF hK hO hwf (S.key params)) (S.key params)
      (fun data => Planning_System.index S data opts)
      (fun d hd => StdMap_WF_emplace hO _ _ hd))
    (S.key params) (StdMap.modify S.optLt opts (fun rec => rec.measure t))
    (fun d hd => StdMap_WF_modify _ _ hd)
  unfold GEMM_Planner.WF at h1 ⊢
  rw [execute_analytics hK h]
  exact h1

end wf_facts

end rtat

namespace rtat

/-! ## Degrading a plan -/

section degrade_facts

variable {Params Key Opts : Type} {S : Sig Params Key Opts}

theorem sorted_by_time (data : List (Opts × Time)) :
    (S.sort (fun a b => decide (a.2 < b.2)) data).Pairwise (fun a b => a.2 ≤ b.2) := by
  refine (S.sort_sorts _ data pair_time_strictWeak).2.imp ?_
  intro a b hab
  simpa using hab

/-- What `degrade_plan` returns, when it returns: an entry of the table that fits and whose
time no fitting entry beats. -/
theorem degrade_plan_spec {gp gp' : GEMM_Planner Key Opts} {params : Params} {o : Opts}
    (h : GEMM_Planner.degrade_plan S gp params = some (o, gp')) :
    S.workspace_req o params ≤ S.space params ∧
    ∃ r, (o, r) ∈ Planning_System.table S
        (Planning_System.get_analytics S gp (S.key params)) (S.key params) ∧
      ∀ x ∈ Planning_System.table S
          (Planning_System.get_analytics S gp (S.key params)) (S.key params),
        S.workspace_req x.1 params ≤ S.space params → S.get_time r ≤ S.get_time x.2 := by
  simp only [GEMM_Planner.degrade_plan] at h
  split at h
  · rename_i y hy
    simp only [Option.some.injEq, Prod.mk.injEq] at h
    obtain ⟨rfl, -⟩ := h
    have hfit : S.workspace_req y.1 params ≤ S.space params := by
      simpa [GEMM_Planner.acceptable_plan] using List.find?_some hy
    obtain ⟨-, as, bs, hsplit, has⟩ := List.find?_eq_some.1 hy
    have hmem : y ∈ S.sort (fun a b => decide (a.2 < b.2))
        ((Planning_System.table S (Planning_System.get_analytics S gp (S.key params))
          (S.key params)).map fun x => (x.1, S.get_time x.2)) := by
      rw [hsplit]; simp
    rw [mem_degrade_sorted] at hmem
    obtain ⟨e, he, rfl⟩ := List.mem_map.1 hmem
    refine ⟨hfit, e.2, he, ?_⟩
    intro x hx hxfit
    have hx' : (x.1, S.get_time x.2) ∈ S.sort (fun a b => decide (a.2 < b.2))
        ((Planning_System.table S (Planning_System.get_analytics S gp (S.key params))
          (S.key params)).map fun x => (x.1, S.get_time x.2)) := by
      rw [mem_degrade_sorted]
      exact List.mem_map.2 ⟨x, hx, rfl⟩
    have hsorted := sorted_by_time (S := S)
      ((Planning_System.table S (Planning_System.get_analytics S gp (S.key params))
        (S.key params)).map fun x => (x.1, S.get_time x.2))
    rw [hsplit] at hx' hsorted
    rcases List.mem_append.1 hx' with h1 | h1
    · have := has _ h1
      simp [GEMM_Planner.acceptable_plan, hxfit] at this
    · rcases List.mem_cons.1 h1 with h2 | h2
      · have : S.get_time x.2 = S.get_time e.2 := congrArg Prod.snd h2
        exact le_of_eq this.symm
      · have := (List.pairwise_cons.1 (List.pairwise_append.1 hsorted).2.1).1 _ h2
        exact this
  · simp at h

/-- C14, amended: if at least one option of the shape's table needs no more workspace than
`params.space.size()`, then `degrade_plan` returns an option of the table whose workspace
requirement is within that budget, and no option of the table that fits the budget has a
strictly smaller mean time than the record of the returned one; this for every order in
which `std::sort` may leave equal times. The options of the table are the admissible
options of the shape and those that `execute` or `get_floprate` was called with. -/
theorem degrade_plan_sound (gp : GEMM_Planner Key Opts) (params : Params)
    (hfit : ∃ x ∈ Planning_System.table S
        (Planning_System.get_analytics S gp (S.key params)) (S.key params),
      S.workspace_req x.1 params ≤ S.space params) :
    ∃ o r gp', GEMM_Planner.degrade_plan S gp params = some (o, gp') ∧
      (o, r) ∈ Planning_System.table S
        (Planning_System.get_analytics S gp (S.key params)) (S.key params) ∧
      S.workspace_req o params ≤ S.space params ∧
      ∀ x ∈ Planning_System.table S
          (Planning_System.get_analytics S gp (S.key params)) (S.key params),
        S.workspace_req x.1 params ≤ S.space params → ¬ S.get_time x.2 < S.get_time r := by
  have hsome : (GEMM_Planner.degrade_plan S gp params).isSome = true := by
    rw [degrade_plan_isSome]
    obtain ⟨x, hx, hxfit⟩ := hfit
    exact ⟨x.1, List.mem_map.2 ⟨x, hx, rfl⟩, hxfit⟩
  obtain ⟨⟨o, gp'⟩, h⟩ := Option.isSome_iff_exists.1 hsome
  obtain ⟨h1, r, h2, h3⟩ := degrade_plan_spec h
  exact ⟨o, r, gp', h, h2, h1, fun x hx hxfit => not_lt.2 (h3 x hx hxfit)⟩

/-- C15, amended: `degrade_plan` returns no option (the bare `throw;` after "No valid plan
found") if and only if no option of the shape's table has a workspace requirement within
`params.space.size()`; so it fails on an empty table and does not fail when some option of
the table fits. -/
theorem degrade_plan_fails_iff (gp : GEMM_Planner Key Opts) (params : Params) :
    (GEMM_Planner.degrade_plan S gp params = none ↔
      ∀ x ∈ Planning_System.table S
          (Planning_System.get_analytics S gp (S.key params)) (S.key params),
        ¬ S.workspace_req x.1 params ≤ S.space params) ∧
    (Planning_System.table S
        (Planning_System.get_analytics S gp (S.key params)) (S.key params) = [] →
      GEMM_Planner.degrade_plan S gp params = none) ∧
    ((∃ x ∈ Planning_System.table S
          (Planning_System.get_analytics S gp (S.key params)) (S.key params),
        S.workspace_req x.1 params ≤ S.space params) →
      (GEMM_Planner.degrade_plan S gp params).isSome = true) := by
  have key : GEMM_Planner.degrade_plan S gp params = none ↔
      ∀ x ∈ Planning_System.table S
          (Planning_System.get_analytics S gp (S.key params)) (S.key params),
        ¬ S.workspace_req x.1 params ≤ S.space params := by
    rw [← Option.not_isSome_iff_eq_none, degrade_plan_isSome]
    constructor
    · intro h x hx hxfit
      exact h ⟨x.1, List.mem_map.2 ⟨x, hx, rfl⟩, hxfit⟩
    · rintro h ⟨o, ho, hfit⟩
      obtain ⟨x, hx, rfl⟩ := List.mem_map.1 ho
      exact h x hx hfit
  refine ⟨key, ?_, ?_⟩
  · intro hempty
    rw [key, hempty]
    intro x hx
    simp at hx
  · rintro ⟨x, hx, hxfit⟩
    rw [Option.isSome_iff_ne_none, Ne, key]
    intro h
    exact h x hx hxfit

/-- C16, amended: for every requested option and params, if the requested option or some
option of the shape's table fits the workspace budget, `internal_execute` executes a tree,
and the option whose tree it executes has a workspace requirement of at most
`params.space.size()`; if neither the requested option nor any option of the table fits, no
tree is executed. -/
theorem internal_execute_feasible (gp : GEMM_Planner Key Opts) (opts : Opts) (params : Params) :
    ((S.workspace_req opts params ≤ S.space params ∨
        ∃ x ∈ Planning_System.table S
            (Planning_System.get_analytics S gp (S.key params)) (S.key params),
          S.workspace_req x.1 params ≤ S.space params) →
      ∃ o gp', GEMM_Planner.internal_execute S gp opts params = some (o, gp') ∧
        S.workspace_req o params ≤ S.space params) ∧
    (∀ o gp', GEMM_Planner.internal_execute S gp opts params = some (o, gp') →
        S.workspace_req o params ≤ S.space params) ∧
    ((¬ S.workspace_req opts params ≤ S.space params ∧
        ∀ x ∈ Planning_System.table S
            (Planning_System.get_analytics S gp (S.key params)) (S.key params),
          ¬ S.workspace_req x.1 params ≤ S.space params) →
      GEMM_Planner.internal_execute S gp opts params = none) := by
  have hfits : ∀ o gp', GEMM_Planner.internal_execute S gp opts params = some (o, gp') →
      S.workspace_req o params ≤ S.space params := by
    intro o gp' h
    unfold GEMM_Planner.internal_execute at h
    split at h
    · exact (degrade_plan_spec h).1
    · rename_i hle
      simp only [Option.some.injEq, Prod.mk.injEq] at h
      rw [← h.1]
      omega
  refine ⟨?_, hfits, ?_⟩
  · intro h
    have hsome : (GEMM_Planner.internal_execute S gp opts params).isSome = true := by
      rw [internal_execute_isSome]
      rcases h with h | ⟨x, hx, hxfit⟩
      · exact Or.inl h
      · exact Or.inr ⟨x.1, List.mem_map.2 ⟨x, hx, rfl⟩, hxfit⟩
    obtain ⟨⟨o, gp'⟩, ho⟩ := Option.isSome_iff_exists.1 hsome
    exact ⟨o, gp', ho, hfits o gp' ho⟩
  · rintro ⟨h1, h2⟩
    rw [← Option.not_isSome_iff_eq_none, internal_execute_isSome]
    rintro (h | ⟨o, ho, hfit⟩)
    · exact h1 h
    · obtain ⟨x, hx, rfl⟩ := List.mem_map.1 ho
      exact h2 x hx hfit

end degrade_facts

end rtat

namespace rtat

/-! ## Choosing a plan -/

section plan_facts

variable {Params Key Opts : Type} {S : Sig Params Key Opts}

theorem min_count_fold (data : StdMap Opts Performance_Record) : ∀ (init : Int),
    data.foldl (fun mc x => if (x.2.count : Int) < mc then (x.2.count : Int) else mc) init ≤ init ∧
    (∀ x ∈ data,
      data.foldl (fun mc x => if (x.2.count : Int) < mc then (x.2.count : Int) else mc) init
        ≤ (x.2.count : Int)) ∧
    (data.foldl (fun mc x => if (x.2.count : Int) < mc then (x.2.count : Int) else mc) init = init ∨
      ∃ x ∈ data, (x.2.count : Int)
        = data.foldl (fun mc x => if (x.2.count : Int) < mc then (x.2.count : Int) else mc) init) := by
  induction data with
  | nil => intro init; simp
  | cons y data ih =>
    intro init
    simp only [List.foldl_cons]
    by_cases hy : (y.2.count : Int) < init
    · simp only [hy, if_true]
      obtain ⟨h1, h2, h3⟩ := ih (y.2.count : Int)
      refine ⟨by omega, ?_, ?_⟩
      · intro x hx
        rcases List.mem_cons.1 hx with rfl | hx
        · exact h1
        · exact h2 x hx
      · right
        rcases h3 with h3 | ⟨x, hx, hx2⟩
        · exact ⟨y, List.mem_cons_self _ _, h3.symm⟩
        · exact ⟨x, List.mem_cons_of_mem _ hx, hx2⟩
    · simp only [hy, if_false]
      obtain ⟨h1, h2, h3⟩ := ih init
      refine ⟨h1, ?_, ?_⟩
      · intro x hx
        rcases List.mem_cons.1 hx with rfl | hx
        · omega
        · exact h2 x hx
      · rcases h3 with h3 | ⟨x, hx, hx2⟩
        · exact Or.inl h3
        · exact Or.inr ⟨x, List.mem_cons_of_mem _ hx, hx2⟩

theorem min_count_le (data : StdMap Opts Performance_Record) :
    GEMM_Planner.min_count data ≤ 10000 ∧
    (∀ x ∈ data, GEMM_Planner.min_count data ≤ (x.2.count : Int)) ∧
    (GEMM_Planner.min_count data = 10000 ∨
      ∃ x ∈ data, (x.2.count : Int) = GEMM_Planner.min_count data) :=
  min_count_fold data 10000

/-- The explore phase: when some record of the table has a count below the threshold and
the least count is at most 10000, `create_plan` returns an option of the table whose count
is the least one, and leaves the records alone. -/
theorem create_plan_explore (gp : GEMM_Planner Key Opts) (params : Params)
    (hlow : ∃ x ∈ Planning_System.table S
        (Planning_System.get_analytics S gp (S.key params)) (S.key params),
      (x.2.count : Int) < gp.tests_until_converge)
    (hsmall : ∃ x ∈ Planning_System.table S
        (Planning_System.get_analytics S gp (S.key params)) (S.key params),
      x.2.count ≤ 10000) :
    ∃ o r, GEMM_Planner.create_plan S gp params
        = some (o, Planning_System.get_analytics S gp (S.key params)) ∧
      (o, r) ∈ Planning_System.table S
        (Planning_System.get_analytics S gp (S.key params)) (S.key params) ∧
      (r.count : Int) < gp.tests_until_converge ∧
      ∀ x ∈ Planning_System.table S
          (Planning_System.get_analytics S gp (S.key params)) (S.key params),
        r.count ≤ x.2.count := by
  simp only [GEMM_Planner.create_plan]
  generalize Planning_System.table S (Planning_System.get_analytics S gp (S.key params))
    (S.key params) = data at hlow hsmall
  obtain ⟨xl, hxl, hlt⟩ := hlow
  obtain ⟨xs, hxs, hsm⟩ := hsmall
  obtain ⟨h1, h2, h3⟩ := min_count_le data
  have hex : ∃ x ∈ data, (x.2.count : Int) = GEMM_Planner.min_count data := by
    rcases h3 with h3 | h3
    · refine ⟨xs, hxs, ?_⟩
      have := h2 xs hxs
      omega
    · exact h3
  have hmT : GEMM_Planner.min_count data < gp.tests_until_converge := by
    have := h2 xl hxl
    omega
  cases data with
  | nil => simp at hxl
  | cons first rest =>
    simp only [hmT, if_true]
    obtain ⟨xm, hxm, hxm2⟩ := hex
    have hfind : ((first :: rest).find?
        (fun x => decide ((x.2.count : Int) = GEMM_Planner.min_count (first :: rest)))).isSome
        = true := by
      rw [List.find?_isSome]
      exact ⟨xm, hxm, by simpa using hxm2⟩
    obtain ⟨y, hy⟩ := Option.isSome_iff_exists.1 hfind
    rw [hy]
    have hymem := List.mem_of_find?_eq_some hy
    have hyc : (y.2.count : Int) = GEMM_Planner.min_count (first :: rest) := by
      simpa using List.find?_some hy
    refine ⟨y.1, y.2, rfl, hymem, by omega, ?_⟩
    intro x hx
    have := h2 x hx
    omega

/-- The exploit phase is entered whenever the explore search finds nothing. -/
theorem create_plan_exploit (gp : GEMM_Planner Key Opts) (params : Params)
    (first : Opts × Performance_Record) (rest : StdMap Opts Performance_Record)
    (hdata : Planning_System.table S
        (Planning_System.get_analytics S gp (S.key params)) (S.key params) = first :: rest)
    (hno : GEMM_Planner.min_count (first :: rest) < gp.tests_until_converge →
      ∀ x ∈ first :: rest, (x.2.count : Int) ≠ GEMM_Planner.min_count (first :: rest)) :
    GEMM_Planner.create_plan S gp params
      = some ((GEMM_Planner.best S first.1 (first :: rest)).1,
          Planning_System.modifyTable S (Planning_System.get_analytics S gp (S.key params))
            (S.key params)
            (fun d => d.map fun x => (x.1, { x.2 with synchronous := false }))) := by
  simp only [GEMM_Planner.create_plan, hdata]
  by_cases hmT : GEMM_Planner.min_count (first :: rest) < gp.tests_until_converge
  · have hnone : (first :: rest).find?
        (fun x => decide ((x.2.count : Int) = GEMM_Planner.min_count (first :: rest))) = none := by
      rw [List.find?_eq_none]
      intro x hx
      simpa using hno hmT x hx
    simp only [hmT, if_true, hnone]
  · simp only [hmT, if_false]

theorem best_fold (data : StdMap Opts Performance_Record) (p0 : Opts) :
    ((data.foldl (fun acc x => if S.get_time x.2 < acc.2 then (x.1, S.get_time x.2) else acc)
        (p0, (⊤ : Time))) = (p0, ⊤) ∧ ∀ x ∈ data, S.get_time x.2 = ⊤) ∨
    ∃ as x bs, data = as ++ x :: bs ∧
      (data.foldl (fun acc x => if S.get_time x.2 < acc.2 then (x.1, S.get_time x.2) else acc)
        (p0, (⊤ : Time))) = (x.1, S.get_time x.2) ∧
      (∀ a ∈ as, S.get_time x.2 < S.get_time a.2) ∧
      (∀ b ∈ bs, S.get_time x.2 ≤ S.get_time b.2) := by
  induction data using List.reverseRecOn with
  | nil => left; simp
  | append_singleton data y ih =>
    rw [List.foldl_append, List.foldl_cons, List.foldl_nil]
    rcases ih with ⟨h1, h2⟩ | ⟨as, x, bs, h1, h2, h3, h4⟩
    · rw [h1]
      by_cases hy : S.get_time y.2 < ⊤
      · right
        refine ⟨data, y, [], rfl, by simp [hy], ?_, by simp⟩
        intro a ha
        rw [h2 a ha]
        exact hy
      · left
        simp only [hy, if_false, true_and]
        intro x hx
        rcases List.mem_append.1 hx with hx | hx
        · exact h2 x hx
        · simp only [List.mem_singleton] at hx
          subst hx
          exact not_lt_top_iff.1 hy
    · rw [h2]
      right
      by_cases hy : S.get_time y.2 < S.get_time x.2
      · refine ⟨data, y, [], rfl, by simp [hy], ?_, by simp⟩
        intro a ha
        rw [h1] at ha
        rcases List.mem_append.1 ha with ha | ha
        · exact lt_trans hy (h3 a ha)
        · rcases List.mem_cons.1 ha with rfl | ha
          · exact hy
          · exact lt_of_lt_of_le hy (h4 a ha)
      · refine ⟨as, x, bs ++ [y], by simp [h1], by simp [hy], h3, ?_⟩
        intro b hb
        rcases List.mem_append.1 hb with hb | hb
        · exact h4 b hb
        · simp only [List.mem_singleton] at hb
          subst hb
          exact not_lt.1 hy

/-- The option the last loop of `create_plan` settles on is the first entry of the table, in
table order, whose time is the least. -/
theorem best_spec (first : Opts × Performance_Record) (rest : StdMap Opts Performance_Record) :
    ∃ as x bs, first :: rest = as ++ x :: bs ∧
      (GEMM_Planner.best S first.1 (first :: rest)).1 = x.1 ∧
      (∀ a ∈ as, S.get_time x.2 < S.get_time a.2) ∧
      (∀ b ∈ bs, S.get_time x.2 ≤ S.get_time b.2) := by
  unfold GEMM_Planner.best
  rcases best_fold (S := S) (first :: rest) first.1 with ⟨h1, h2⟩ | ⟨as, x, bs, h1, h2, h3, h4⟩
  · refine ⟨[], first, rest, rfl, by rw [h1], by simp, ?_⟩
    intro b hb
    rw [h2 first (List.mem_cons_self _ _), h2 b (List.mem_cons_of_mem _ hb)]
  · exact ⟨as, x, bs, h1, by rw [h2], h3, h4⟩

end plan_facts

end rtat

namespace rtat

section plan_claims

variable {Params Key Opts : Type} {S : Sig Params Key Opts}

/-- C12, amended: for a shape whose table is not empty, when every option of the table has at
least `tests_until_converge` samples, `create_plan` returns an option of the table whose mean
time is minimal among all options of the table, and among the options attaining that minimum
it returns the least one in the option order. -/
theorem create_plan_exploit_minimal (hK : IsStrictTotal S.keyLt) (hO : IsStrictTotal S.optLt)
    (gp : GEMM_Planner Key Opts) (hwf : GEMM_Planner.WF S gp) (params : Params)
    (hne : Planning_System.table S
        (Planning_System.get_analytics S gp (S.key params)) (S.key params) ≠ [])
    (hconv : ∀ x ∈ Planning_System.table S
        (Planning_System.get_analytics S gp (S.key params)) (S.key params),
      gp.tests_until_converge ≤ (x.2.count : Int)) :
    ∃ o r gp', GEMM_Planner.create_plan S gp params = some (o, gp') ∧
      (o, r) ∈ Planning_System.table S
        (Planning_System.get_analytics S gp (S.key params)) (S.key params) ∧
      (∀ x ∈ Planning_System.table S
          (Planning_System.get_analytics S gp (S.key params)) (S.key params),
        ¬ S.get_time x.2 < S.get_time r) ∧
      (∀ x ∈ Planning_System.table S
          (Planning_System.get_analytics S gp (S.key params)) (S.key params),
        S.get_time x.2 = S.get_time r → x.1 = o ∨ S.optLt o x.1 = true) := by
  have hT := table_get_analytics_WF hK hO hwf (S.key params)
  cases hdata : Planning_System.table S
      (Planning_System.get_analytics S gp (S.key params)) (S.key params) with
  | nil => exact absurd hdata hne
  | cons first rest =>
    rw [hdata] at hconv hT
    have hno : GEMM_Planner.min_count (first :: rest) < gp.tests_until_converge →
        ∀ x ∈ first :: rest, (x.2.count : Int) ≠ GEMM_Planner.min_count (first :: rest) := by
      intro hlt x hx
      have := hconv x hx
      omega
    obtain ⟨as, x, bs, hsplit, hbest, has, hbs⟩ := best_spec (S := S) first rest
    refine ⟨x.1, x.2,
      Planning_System.modifyTable S (Planning_System.get_analytics S gp (S.key params))
        (S.key params) (fun d => d.map fun x => (x.1, { x.2 with synchronous := false })),
      ?_, ?_, ?_, ?_⟩
    · rw [create_plan_exploit gp params first rest hdata hno, hbest]
    · rw [hsplit]; simp
    · intro y hy
      rw [hsplit] at hy
      rcases List.mem_append.1 hy with h | h
      · exact not_lt_of_gt (has y h)
      · rcases List.mem_cons.1 h with rfl | h
        · exact lt_irrefl _
        · exact not_lt.2 (hbs y h)
    · intro y hy heq
      rw [hsplit] at hy hT
      rcases List.mem_append.1 hy with h | h
      · have := has y h
        rw [heq] at this
        exact absurd this (lt_irrefl _)
      · rcases List.mem_cons.1 h with rfl | h
        · exact Or.inl rfl
        · right
          unfold StdMap.WF StdMap.keys at hT
          rw [List.map_append, List.map_cons] at hT
          have h2 := (List.pairwise_cons.1 (List.pairwise_append.1 hT).2.1).1
          exact h2 y.1 (List.mem_map.2 ⟨y, h, rfl⟩)

end plan_claims

/-! ## The two-option planner -/

theorem sumTime_replicate (n : Nat) (q : ℚ) :
    sumTime (List.replicate n (q : Time)) = some (n * q) := by
  induction n with
  | zero => simp [sumTime]
  | succ n ih =>
    rw [List.replicate_succ]
    show (sumTime (List.replicate n (q : Time))).map (q + ·) = _
    rw [ih]
    simp only [Option.map_some', Option.some.injEq]
    push_cast
    ring

theorem meanTime_replicate (n : Nat) (hn : 0 < n) (q : ℚ) (s : Bool) :
    meanTime ⟨List.replicate n (q : Time), s⟩ = (q : Time) := by
  unfold meanTime
  simp only [sumTime_replicate, List.length_replicate]
  have hn' : n ≠ 0 := by omega
  have hq : (n : ℚ) ≠ 0 := by exact_mod_cast hn'
  simp only [hn', if_false]
  congr 1
  field_simp

theorem twoOptPlanner_table (a b : Nat) (ta tb : ℚ) (T : Int) :
    Planning_System.table gemmSig
      (Planning_System.get_analytics gemmSig (twoOptPlanner a b ta tb T)
        (gemmSig.key (smallInputs 1000))) (gemmSig.key (smallInputs 1000))
      = [(plainOpt, ⟨List.replicate a (ta : Time), true⟩),
         (leftMoved, ⟨List.replicate b (tb : Time), true⟩)] := rfl

theorem twoOptPlanner_WF (a b : Nat) (ta tb : ℚ) (T : Int) :
    GEMM_Planner.WF gemmSig (twoOptPlanner a b ta tb T) := by
  refine ⟨by simp [twoOptPlanner, StdMap.WF, StdMap.keys], ?_⟩
  intro x hx
  simp only [twoOptPlanner, List.mem_singleton] at hx
  subst hx
  simp only [StdMap.WF, StdMap.keys, List.map_cons, List.map_nil, List.pairwise_cons,
    List.mem_singleton, forall_eq]
  exact ⟨by decide, by simp, by simp⟩

/-- With both counts and the threshold above 10000, `create_plan` on the two-option planner
leaves the explore phase, whatever the counts, and returns the faster option. -/
theorem twoOptPlanner_past_sentinel (a b : Nat) (ta tb : ℚ) (T : Int)
    (ha : 10000 < a) (hb : 10000 < b) (ht : tb < ta) :
    (GEMM_Planner.create_plan gemmSig (twoOptPlanner a b ta tb T) (smallInputs 1000)).map
      Prod.fst = some leftMoved := by
  have hno : GEMM_Planner.min_count
        [(plainOpt, (⟨List.replicate a (ta : Time), true⟩ : Performance_Record)),
         (leftMoved, ⟨List.replicate b (tb : Time), true⟩)] < T →
      ∀ x ∈ [(plainOpt, (⟨List.replicate a (ta : Time), true⟩ : Performance_Record)),
         (leftMoved, ⟨List.replicate b (tb : Time), true⟩)],
        (x.2.count : Int) ≠ GEMM_Planner.min_count
          [(plainOpt, (⟨List.replicate a (ta : Time), true⟩ : Performance_Record)),
           (leftMoved, ⟨List.replicate b (tb : Time), true⟩)] := by
    intro _ x hx
    have h1 := (min_count_le
      [(plainOpt, (⟨List.replicate a (ta : Time), true⟩ : Performance_Record)),
       (leftMoved, ⟨List.replicate b (tb : Time), true⟩)]).1
    simp only [List.mem_cons, List.mem_singleton, List.not_mem_nil, or_false] at hx
    rcases hx with rfl | rfl
    · simp only [Performance_Record.count, List.length_replicate]
      omega
    · simp only [Performance_Record.count, List.length_replicate]
      omega
  rw [create_plan_exploit (S := gemmSig) _ _ _ _ (twoOptPlanner_table a b ta tb T) hno]
  simp only [Option.map_some', Option.some.injEq]
  have e1 : gemmSig.get_time ⟨List.replicate a (ta : Time), true⟩ = (ta : Time) :=
    meanTime_replicate a (by omega) ta true
  have e2 : gemmSig.get_time ⟨List.replicate b (tb : Time), true⟩ = (tb : Time) :=
    meanTime_replicate b (by omega) tb true
  have c1 : ((ta : ℚ) : Time) < ⊤ := WithTop.coe_lt_top ta
  have c2 : ((tb : ℚ) : Time) < (ta : Time) := WithTop.coe_lt_coe.2 ht
  simp only [GEMM_Planner.best, List.foldl_cons, List.foldl_nil, e1, e2, c1, c2, if_true]

/-- C11: the code at a planner whose two options hold 10001 and 10002 samples, with
threshold 20000. The least count, 10001, is below the threshold, yet `create_plan` returns
`leftMoved`, whose count is 10002: the search for the least count starts from 10000, finds
no record with that count, and the exploit phase answers with the faster option. -/
theorem create_plan_sentinel :
    Planning_System.sampleCount gemmSig (twoOptPlanner 10001 10002 5 1 20000)
      (gemmSig.key (smallInputs 1000)) plainOpt = 10001 ∧
    Planning_System.sampleCount gemmSig (twoOptPlanner 10001 10002 5 1 20000)
      (gemmSig.key (smallInputs 1000)) leftMoved = 10002 ∧
    ((10001 : Nat) : Int) < (twoOptPlanner 10001 10002 5 1 20000).tests_until_converge ∧
    (GEMM_Planner.create_plan gemmSig (twoOptPlanner 10001 10002 5 1 20000)
      (smallInputs 1000)).map Prod.fst = some leftMoved := by
  refine ⟨?_, ?_, ?_, ?_⟩
  · show (List.replicate 10001 ((5 : ℚ) : Time)).length = 10001
    exact List.length_replicate _ _
  · show (List.replicate 10002 ((1 : ℚ) : Time)).length = 10002
    exact List.length_replicate _ _
  · show ((10001 : Nat) : Int) < (20000 : Int)
    omega
  · exact twoOptPlanner_past_sentinel 10001 10002 5 1 20000 (by omega) (by omega) (by norm_num)

/-- C12, as stated, fails on a shape with no admissible option: with the predicate
`rejectAll` the table of the shape is empty, so every option of it has at least 3 samples,
and `create_plan` returns no option. -/
theorem create_plan_on_empty_table :
    Planning_System.table gemmSig
      (Planning_System.get_analytics gemmSig (GEMM_Planner.new [rejectAll] 3)
        (gemmSig.key (smallInputs 1000))) (gemmSig.key (smallInputs 1000)) = [] ∧
    (∀ x ∈ Planning_System.table gemmSig
        (Planning_System.get_analytics gemmSig (GEMM_Planner.new [rejectAll] 3)
          (gemmSig.key (smallInputs 1000))) (gemmSig.key (smallInputs 1000)),
      (GEMM_Planner.new [rejectAll] 3 : GEMM_Planner GEMM_Key GEMM_Options_Pad).tests_until_converge
        ≤ (x.2.count : Int)) ∧
    (GEMM_Planner.create_plan gemmSig (GEMM_Planner.new [rejectAll] 3)
      (smallInputs 1000)).isNone = true := by
  refine ⟨by decide, by decide, by decide⟩

/-- The amended C12 at the two-option planner with one sample each, 5 ms and 1 ms, and
threshold 1: `create_plan` returns an option of least time. -/
theorem create_plan_exploit_minimal_witness :
    Planning_System.table gemmSig
      (Planning_System.get_analytics gemmSig (twoOptPlanner 1 1 5 1 1)
        (gemmSig.key (smallInputs 1000))) (gemmSig.key (smallInputs 1000)) ≠ [] ∧
    (∃ o r gp', GEMM_Planner.create_plan gemmSig (twoOptPlanner 1 1 5 1 1) (smallInputs 1000)
        = some (o, gp') ∧
      (o, r) ∈ Planning_System.table gemmSig
        (Planning_System.get_analytics gemmSig (twoOptPlanner 1 1 5 1 1)
          (gemmSig.key (smallInputs 1000))) (gemmSig.key (smallInputs 1000)) ∧
      (∀ x ∈ Planning_System.table gemmSig
          (Planning_System.get_analytics gemmSig (twoOptPlanner 1 1 5 1 1)
            (gemmSig.key (smallInputs 1000))) (gemmSig.key (smallInputs 1000)),
        ¬ gemmSig.get_time x.2 < gemmSig.get_time r) ∧
      (∀ x ∈ Planning_System.table gemmSig
          (Planning_System.get_analytics gemmSig (twoOptPlanner 1 1 5 1 1)
            (gemmSig.key (smallInputs 1000))) (gemmSig.key (smallInputs 1000)),
        gemmSig.get_time x.2 = gemmSig.get_time r → x.1 = o ∨ gemmSig.optLt o x.1 = true)) :=
  ⟨by decide,
   create_plan_exploit_minimal (S := gemmSig) GEMM_Key_lt_fields_strict
     GEMM_Options_Pad_lt_strict (twoOptPlanner 1 1 5 1 1) (twoOptPlanner_WF 1 1 5 1 1)
     (smallInputs 1000) (by decide) (by decide)⟩

end rtat

namespace rtat

/-! ## The ranking queries -/

theorem insertionSort_sorts {K : Type} (comp : K → K → Bool) (h : IsStrictWeak comp)
    (l : List K) :
    (l.insertionSort (fun a b => comp b a = false)).Perm l ∧
    (l.insertionSort (fun a b => comp b a = false)).Pairwise (fun a b => comp b a = false) := by
  haveI : IsTotal K (fun a b => comp b a = false) := ⟨by
    intro a b
    cases hba : comp b a with
    | false => exact Or.inl rfl
    | true =>
      right
      cases hab : comp a b with
      | false => rfl
      | true =>
        have := h.trans _ _ _ hab hba
        rw [h.irrefl] at this
        exact absurd this (by decide)⟩
  haveI : IsTrans K (fun a b => comp b a = false) :=
    ⟨fun a b c h1 h2 => h.incomp c b a h2 h1⟩
  exact ⟨List.perm_insertionSort _ l, List.sorted_insertionSort (fun a b => comp b a = false) l⟩

theorem stableSort_sorts {K : Type} : SortsBy (stableSort (K := K)) :=
  fun comp l h => insertionSort_sorts comp h l

theorem reversingSort_sorts {K : Type} : SortsBy (reversingSort (K := K)) := by
  intro comp l h
  obtain ⟨h1, h2⟩ := insertionSort_sorts comp h l.reverse
  exact ⟨h1.trans (List.reverse_perm l), h2⟩

section ranking_facts

variable {Params Key Opts : Type} {S : Sig Params Key Opts}

theorem time_lt_strictWeak (f : Opts → Time) : IsStrictWeak (fun l r => decide (f l < f r)) where
  irrefl a := by simp
  trans a b c h1 h2 := by
    simp only [decide_eq_true_eq] at h1 h2 ⊢
    exact lt_trans h1 h2
  incomp a b c h1 h2 := by
    simp only [decide_eq_false_iff_not, not_lt] at h1 h2 ⊢
    exact le_trans h2 h1

theorem time_gt_strictWeak (f : Opts → Time) : IsStrictWeak (fun l r => decide (f l > f r)) where
  irrefl a := by simp
  trans a b c h1 h2 := by
    simp only [gt_iff_lt, decide_eq_true_eq] at h1 h2 ⊢
    exact lt_trans h2 h1
  incomp a b c h1 h2 := by
    simp only [gt_iff_lt, decide_eq_false_iff_not, not_lt] at h1 h2 ⊢
    exact le_trans h1 h2

/-- The list `get_n` returns for a count that is not negative: the keys as the library
function ordered them, then default options up to the requested count. -/
theorem get_n_eq (hsort : SortsBy S.partial_sort_copy) (gp : GEMM_Planner Key Opts) (key : Key)
    (n : Int) (hn : 0 ≤ n) (cmp : Time → Time → Bool)
    (hcmp : IsStrictWeak (fun l r => cmp
      (Planning_System.timeOf S
        (Planning_System.table S (Planning_System.get_analytics S gp key) key) l)
      (Planning_System.timeOf S
        (Planning_System.table S (Planning_System.get_analytics S gp key) key) r))) :
    Planning_System.get_n S gp key n cmp
      = some (S.partial_sort_copy
          (fun l r => cmp
            (Planning_System.timeOf S
              (Planning_System.table S (Planning_System.get_analytics S gp key) key) l)
            (Planning_System.timeOf S
              (Planning_System.table S (Planning_System.get_analytics S gp key) key) r))
          (StdMap.keys (Planning_System.table S (Planning_System.get_analytics S gp key) key))
        ++ List.replicate
          (n.toNat - (Planning_System.table S (Planning_System.get_analytics S gp key) key).length)
          S.default_opts,
        Planning_System.get_analytics S gp key) := by
  have hlen := (hsort _
    (StdMap.keys (Planning_System.table S (Planning_System.get_analytics S gp key) key))
    hcmp).1.length_eq
  simp only [Planning_System.get_n]
  generalize Planning_System.table S (Planning_System.get_analytics S gp key) key = data
    at hlen ⊢
  have hk : (StdMap.keys data).length = data.length := by simp [StdMap.keys]
  rw [hk] at hlen
  by_cases hlt : n < (data.length : Int)
  · have h1 : ¬ ((data.length : Int) < 0) := by omega
    have h2 : n.toNat - data.length = 0 := by omega
    simp only [hn, hlt, and_self, if_true, h1, if_false, Int.toNat_ofNat, hlen,
      Nat.sub_self, List.replicate_zero, List.append_nil, h2]
    rw [List.take_of_length_le]
    rw [hlen]
  · have h1 : ¬ (n < 0) := by omega
    simp only [hlt, and_false, if_false, h1, hlen]
    rw [List.take_of_length_le]
    rw [List.length_append, List.length_replicate, hlen]
    omega

end ranking_facts

end rtat

namespace rtat

section ranking_claims

variable {Params Key Opts : Type} {S : Sig Params Key Opts}

theorem StdMap_keys_nodup {K V : Type} {lt : K → K → Bool} (h : IsStrictTotal lt)
    {m : StdMap K V} (hwf : StdMap.WF lt m) : (StdMap.keys m).Nodup := by
  unfold StdMap.WF at hwf
  refine hwf.imp ?_
  intro a b hab e
  subst e
  rw [h.irrefl] at hab
  exact absurd hab (by decide)

/-- The first `m` entries of a list that starts with a sorted rearrangement of `keys`, and
the ones among them that a test `p` selects. -/
theorem take_of_sorted {α : Type} (R : α → α → Prop) (sorted keys rest : List α) (m : Nat)
    (p : α → Bool) (hperm : sorted.Perm keys) (hnodup : keys.Nodup) (hpw : sorted.Pairwise R)
    (hm : m ≤ sorted.length) :
    ((sorted ++ rest).take m).length = m ∧
    (∀ o ∈ (sorted ++ rest).take m, o ∈ keys) ∧
    (((sorted ++ rest).take m).filter p).Nodup ∧
    (((sorted ++ rest).take m).filter p).Pairwise R ∧
    (∀ o ∈ keys, p o = true → o ∉ ((sorted ++ rest).take m).filter p →
      ∀ x ∈ ((sorted ++ rest).take m).filter p, R x o) := by
  have e : (sorted ++ rest).take m = sorted.take m := List.take_append_of_le_length hm
  rw [e]
  refine ⟨by rw [List.length_take]; exact min_eq_left hm, ?_, ?_, ?_, ?_⟩
  · intro o ho
    exact hperm.mem_iff.1 (List.mem_of_mem_take ho)
  · exact ((hperm.nodup_iff.2 hnodup).sublist (List.take_sublist _ _)).filter _
  · exact (hpw.sublist (List.take_sublist _ _)).filter _
  · intro o ho hp hnot x hx
    have hnot2 : o ∉ sorted.take m := fun h => hnot (List.mem_filter.2 ⟨h, hp⟩)
    have hx2 : x ∈ sorted.take m := (List.mem_filter.1 hx).1
    have hs : o ∈ sorted.take m ++ sorted.drop m := by
      rw [List.take_append_drop]; exact hperm.mem_iff.2 ho
    have hd : o ∈ sorted.drop m := by
      rcases List.mem_append.1 hs with h | h
      · exact absurd h hnot2
      · exact h
    have hpw2 : (sorted.take m ++ sorted.drop m).Pairwise R := by
      rw [List.take_append_drop]; exact hpw
    exact (List.pairwise_append.1 hpw2).2.2 x hx2 o hd

/-- C18, amended: take the first `min(n, size)` entries of the list `top_n(shape, n)`
returns, for a count `n` that is not negative, `size` being the number of options of the
shape's table. They are options of the table, and for every test `p` on options (the one
that takes every option, or the one that takes the options the predicates admit) the
entries that pass `p` are listed without repetition in ascending order of mean time and are
the ones with the smallest mean times: no option of the table that passes `p` and is not
among them has a smaller mean time than one of them. For `bottom_n` the same holds with
descending order and the largest mean times. Options of equal mean time come in the order
`std::partial_sort_copy` leaves them, of which nothing is assumed but the contract of the
standard. -/
theorem ranking_ordered (hK : IsStrictTotal S.keyLt) (hO : IsStrictTotal S.optLt)
    (hsort : SortsBy S.partial_sort_copy) (gp : GEMM_Planner Key Opts)
    (hwf : GEMM_Planner.WF S gp) (key : Key) (n : Int) (hn : 0 ≤ n)
    (data : StdMap Opts Performance_Record)
    (hdata : Planning_System.table S (Planning_System.get_analytics S gp key) key = data)
    (p : Opts → Bool) :
    (∃ l gp', Planning_System.top_n S gp key n = some (l, gp') ∧
      (l.take (min n.toNat data.length)).length = min n.toNat data.length ∧
      (∀ o ∈ l.take (min n.toNat data.length), o ∈ StdMap.keys data) ∧
      ((l.take (min n.toNat data.length)).filter p).Nodup ∧
      ((l.take (min n.toNat data.length)).filter p).Pairwise
        (fun a b => Planning_System.timeOf S data a
          ≤ Planning_System.timeOf S data b) ∧
      (∀ o ∈ StdMap.keys data, p o = true → o ∉ (l.take (min n.toNat data.length)).filter p →
        ∀ x ∈ (l.take (min n.toNat data.length)).filter p,
          Planning_System.timeOf S data x ≤ Planning_System.timeOf S data o)) ∧
    (∃ l gp', Planning_System.bottom_n S gp key n = some (l, gp') ∧
      (l.take (min n.toNat data.length)).length = min n.toNat data.length ∧
      (∀ o ∈ l.take (min n.toNat data.length), o ∈ StdMap.keys data) ∧
      ((l.take (min n.toNat data.length)).filter p).Nodup ∧
      ((l.take (min n.toNat data.length)).filter p).Pairwise
        (fun a b => Planning_System.timeOf S data b
          ≤ Planning_System.timeOf S data a) ∧
      (∀ o ∈ StdMap.keys data, p o = true → o ∉ (l.take (min n.toNat data.length)).filter p →
        ∀ x ∈ (l.take (min n.toNat data.length)).filter p,
          Planning_System.timeOf S data o ≤ Planning_System.timeOf S data x)) := by
  subst hdata
  have hnodup := StdMap_keys_nodup hO (table_get_analytics_WF hK hO hwf key)
  have hklen : (StdMap.keys
        (Planning_System.table S (Planning_System.get_analytics S gp key) key)).length
      = (Planning_System.table S (Planning_System.get_analytics S gp key) key).length := by
    simp [StdMap.keys]
  constructor
  · have hw := time_lt_strictWeak (Planning_System.timeOf S
      (Planning_System.table S (Planning_System.get_analytics S gp key) key))
    obtain ⟨h1, h2⟩ := hsort _ (StdMap.keys
      (Planning_System.table S (Planning_System.get_analytics S gp key) key)) hw
    refine ⟨_, _, get_n_eq hsort gp key n hn _ hw, ?_⟩
    refine take_of_sorted _ _ _ _ _ p h1 hnodup (h2.imp ?_) ?_
    · intro a b hab
      simpa using hab
    · rw [h1.length_eq, hklen]
      exact min_le_right _ _
  · have hw := time_gt_strictWeak (Planning_System.timeOf S
      (Planning_System.table S (Planning_System.get_analytics S gp key) key))
    obtain ⟨h1, h2⟩ := hsort _ (StdMap.keys
      (Planning_System.table S (Planning_System.get_analytics S gp key) key)) hw
    refine ⟨_, _, get_n_eq hsort gp key n hn _ hw, ?_⟩
    refine take_of_sorted _ _ _ _ _ p h1 hnodup (h2.imp ?_) ?_
    · intro a b hab
      simpa using hab
    · rw [h1.length_eq, hklen]
      exact min_le_right _ _

end ranking_claims

/-- C17: the code at two tables. With the sixteen options that `keepsResult` admits,
`top_n(shape, 1)` and `bottom_n(shape, 1)` return sixteen options, not one. With the single
option that `leftOnly` admits, `top_n(shape, 3)` and `bottom_n(shape, 3)` return three
entries, of which two are the default option, which is not in the table. -/
theorem get_n_clamps_upwards :
    (Planning_System.top_n gemmSig (GEMM_Planner.new [keepsResult] 3)
      (gemmSig.key (smallInputs 1000)) 1).map (fun r => r.1.length) = some 16 ∧
    (Planning_System.bottom_n gemmSig (GEMM_Planner.new [keepsResult] 3)
      (gemmSig.key (smallInputs 1000)) 1).map (fun r => r.1.length) = some 16 ∧
    StdMap.keys (Planning_System.table gemmSig
      (Planning_System.get_analytics gemmSig (GEMM_Planner.new [leftOnly] 3)
        (gemmSig.key (smallInputs 1000))) (gemmSig.key (smallInputs 1000))) = [leftMoved] ∧
    (Planning_System.top_n gemmSig (GEMM_Planner.new [leftOnly] 3)
      (gemmSig.key (smallInputs 1000)) 3).map Prod.fst = some [leftMoved, plainOpt, plainOpt] ∧
    (Planning_System.bottom_n gemmSig (GEMM_Planner.new [leftOnly] 3)
      (gemmSig.key (smallInputs 1000)) 3).map Prod.fst
      = some [leftMoved, plainOpt, plainOpt] := by
  refine ⟨by decide, by decide, by decide, by decide, by decide⟩

/-- C18, as stated, fails on the order of ties. With the `std::partial_sort_copy` of GNU
libstdc++ (`gemmSigGnu`) and the new table of the four options that `fourOpts` admits, all
mean times are equal and the table holds the options in ascending option order, yet
`top_n(shape, 4)` and `bottom_n(shape, 4)` list the second option of the table first and
the first option third. And the order of ties changes with the library: the one of
`gemmSigReversing` meets what the standard asks of `std::partial_sort_copy`, and on the new
table of the two options admitted by `twoOpts`, where `plainOpt` is less than `leftMoved`,
both queries list `leftMoved` first. -/
theorem ranking_ties_unordered :
    (StdMap.keys (Planning_System.table gemmSigGnu
        (Planning_System.get_analytics gemmSigGnu (GEMM_Planner.new [fourOpts] 3)
          (gemmSigGnu.key (smallInputs 1000))) (gemmSigGnu.key (smallInputs 1000)))
      = [⟨.NOTRANS, .NOPAD, .NOTRANS, .NOPAD, .NOTRANS, .NOPAD⟩,
         ⟨.NOTRANS, .NOPAD, .TRANS, .NOPAD, .NOTRANS, .NOPAD⟩,
         ⟨.TRANS, .NOPAD, .NOTRANS, .NOPAD, .NOTRANS, .NOPAD⟩,
         ⟨.TRANS, .NOPAD, .TRANS, .NOPAD, .NOTRANS, .NOPAD⟩] ∧
      (∀ x ∈ Planning_System.table gemmSigGnu
          (Planning_System.get_analytics gemmSigGnu (GEMM_Planner.new [fourOpts] 3)
            (gemmSigGnu.key (smallInputs 1000))) (gemmSigGnu.key (smallInputs 1000)),
        gemmSigGnu.get_time x.2 = 0) ∧
      (Planning_System.top_n gemmSigGnu (GEMM_Planner.new [fourOpts] 3)
        (gemmSigGnu.key (smallInputs 1000)) 4).map Prod.fst
        = some [⟨.NOTRANS, .NOPAD, .TRANS, .NOPAD, .NOTRANS, .NOPAD⟩,
                ⟨.TRANS, .NOPAD, .TRANS, .NOPAD, .NOTRANS, .NOPAD⟩,
                ⟨.NOTRANS, .NOPAD, .NOTRANS, .NOPAD, .NOTRANS, .NOPAD⟩,
                ⟨.TRANS, .NOPAD, .NOTRANS, .NOPAD, .NOTRANS, .NOPAD⟩] ∧
      (Planning_System.bottom_n gemmSigGnu (GEMM_Planner.new [fourOpts] 3)
        (gemmSigGnu.key (smallInputs 1000)) 4).map Prod.fst
        = some [⟨.NOTRANS, .NOPAD, .TRANS, .NOPAD, .NOTRANS, .NOPAD⟩,
                ⟨.TRANS, .NOPAD, .TRANS, .NOPAD, .NOTRANS, .NOPAD⟩,
                ⟨.NOTRANS, .NOPAD, .NOTRANS, .NOPAD, .NOTRANS, .NOPAD⟩,
                ⟨.TRANS, .NOPAD, .NOTRANS, .NOPAD, .NOTRANS, .NOPAD⟩]) ∧
    (SortsBy gemmSigReversing.partial_sort_copy ∧
      gemmSigReversing.optLt plainOpt leftMoved = true ∧
      Planning_System.timeOf gemmSigReversing
          (Planning_System.table gemmSigReversing
            (Planning_System.get_analytics gemmSigReversing (GEMM_Planner.new [twoOpts] 3)
              (gemmSigReversing.key (smallInputs 1000)))
            (gemmSigReversing.key (smallInputs 1000)))
          plainOpt
        = Planning_System.timeOf gemmSigReversing
          (Planning_System.table gemmSigReversing
            (Planning_System.get_analytics gemmSigReversing (GEMM_Planner.new [twoOpts] 3)
              (gemmSigReversing.key (smallInputs 1000)))
            (gemmSigReversing.key (smallInputs 1000)))
          leftMoved ∧
      (Planning_System.top_n gemmSigReversing (GEMM_Planner.new [twoOpts] 3)
        (gemmSigReversing.key (smallInputs 1000)) 2).map Prod.fst
        = some [leftMoved, plainOpt] ∧
      (Planning_System.bottom_n gemmSigReversing (GEMM_Planner.new [twoOpts] 3)
        (gemmSigReversing.key (smallInputs 1000)) 2).map Prod.fst
        = some [leftMoved, plainOpt]) := by
  refine ⟨⟨by decide, by decide, by decide, by decide⟩,
    ⟨reversingSort_sorts, by decide, by decide, by decide, by decide⟩⟩

/-- The amended C18 at the library that keeps ties in table order, on the two-option planner
whose records hold one sample each, 5 ms for `plainOpt` and 1 ms for `leftMoved`, with
`n = 1` and the test that takes every option. -/
theorem ranking_ordered_witness :
    SortsBy gemmSig.partial_sort_copy ∧ GEMM_Planner.WF gemmSig (twoOptPlanner 1 1 5 1 1) ∧
    (0 : Int) ≤ 1 ∧
    Planning_System.table gemmSig
        (Planning_System.get_analytics gemmSig (twoOptPlanner 1 1 5 1 1)
          (gemmSig.key (smallInputs 1000))) (gemmSig.key (smallInputs 1000)) = twoSamples ∧
    (∃ l gp', Planning_System.top_n gemmSig (twoOptPlanner 1 1 5 1 1)
        (gemmSig.key (smallInputs 1000)) 1 = some (l, gp') ∧
      (l.take (min (1 : Int).toNat twoSamples.length)).length = min (1 : Int).toNat twoSamples.length ∧
      (∀ o ∈ l.take (min (1 : Int).toNat twoSamples.length), o ∈ StdMap.keys twoSamples) ∧
      ((l.take (min (1 : Int).toNat twoSamples.length)).filter allOptions).Nodup ∧
      ((l.take (min (1 : Int).toNat twoSamples.length)).filter allOptions).Pairwise
        (fun a b => Planning_System.timeOf gemmSig twoSamples a
          ≤ Planning_System.timeOf gemmSig twoSamples b) ∧
      (∀ o ∈ StdMap.keys twoSamples, allOptions o = true → o ∉ (l.take (min (1 : Int).toNat twoSamples.length)).filter allOptions →
        ∀ x ∈ (l.take (min (1 : Int).toNat twoSamples.length)).filter allOptions,
          Planning_System.timeOf gemmSig twoSamples x ≤ Planning_System.timeOf gemmSig twoSamples o)) :=
  ⟨stableSort_sorts, twoOptPlanner_WF 1 1 5 1 1, by decide, rfl,
   (ranking_ordered (S := gemmSig) GEMM_Key_lt_fields_strict GEMM_Options_Pad_lt_strict
      stableSort_sorts (twoOptPlanner 1 1 5 1 1) (twoOptPlanner_WF 1 1 5 1 1)
      (gemmSig.key (smallInputs 1000)) 1 (by decide) twoSamples rfl allOptions).1⟩

end rtat

namespace rtat

/-! ## The operation tree -/

theorem eval_wrap (mem : Matrix → Nat → Nat → ℚ) (M : Matrix) (t q : Bool) :
    MatrixOp.eval mem
      (if (t || q) = true then
        MatrixOp.MatrixMove (MatrixOp.NoOp M) 1 t (if q = true then 32 else 1)
        else MatrixOp.NoOp M) = opOf t (mem M) := by
  cases t <;> cases q <;> funext i j <;> simp [MatrixOp.eval, opOf]

theorem dims_wrap (M : Matrix) (t q : Bool) :
    MatrixOp.dims
      (if (t || q) = true then
        MatrixOp.MatrixMove (MatrixOp.NoOp M) 1 t (if q = true then 32 else 1)
        else MatrixOp.NoOp M)
      = if t then (M.dims.n, M.dims.m) else (M.dims.m, M.dims.n) := by
  cases t <;> cases q <;> simp [MatrixOp.dims]

theorem opOf_opOf (s t : Bool) (X : Nat → Nat → ℚ) : opOf s (opOf t X) = opOf (xor s t) X := by
  cases s <;> cases t <;> funext i j <;> simp [opOf]

theorem dot_comm (k : Nat) (f g : Nat → ℚ) :
    dot k (fun l => f l * g l) = dot k (fun l => g l * f l) := by
  unfold dot
  congr 1
  apply List.map_congr_left
  intro l _
  exact mul_comm _ _

/-- The tree of `gemm.cpp` for flags other than `CUBLAS_OP_C`, in terms of the flags of the
caller: each multiply flag is the caller's flag, inverted when the option transposes the
operand. -/
theorem form_operation_ok (o : GEMM_Options_Pad) (p : GEMM_Inputs)
    (ha : p.transa ≠ .CUBLAS_OP_C) (hb : p.transb ≠ .CUBLAS_OP_C) :
    o.form_operation p = .ok
      (let ta := decide (o.transa = .TRANS)
       let tb := decide (o.transb = .TRANS)
       let pa := decide (o.pada = .PAD)
       let pb := decide (o.padb = .PAD)
       let fa := xor (decide (p.transa = .CUBLAS_OP_T)) ta
       let fb := xor (decide (p.transb = .CUBLAS_OP_T)) tb
       let A1 := if (ta || pa) = true then
         MatrixOp.MatrixMove (MatrixOp.NoOp p.A) 1 ta (if pa = true then 32 else 1)
         else MatrixOp.NoOp p.A
       let B1 := if (tb || pb) = true then
         MatrixOp.MatrixMove (MatrixOp.NoOp p.B) 1 tb (if pb = true then 32 else 1)
         else MatrixOp.NoOp p.B
       if o.transc = .TRANS then
         MatrixOp.MatrixAccumulate
           (MatrixOp.MatrixMultAlloc B1 A1 (!fb) (!fa) p.alpha (if o.padc = .PAD then 32 else 1))
           (MatrixOp.NoOp p.C) 1 p.beta true
       else if o.padc = .PAD then
         MatrixOp.MatrixAccumulate
           (MatrixOp.MatrixMultAlloc A1 B1 fa fb p.alpha 32) (MatrixOp.NoOp p.C) 1 p.beta false
       else MatrixOp.MatrixMult A1 B1 (MatrixOp.NoOp p.C) fa fb p.alpha p.beta) := by
  rcases o with ⟨ta, pa, tb, pb, tc, pc⟩
  rcases p with ⟨h, transa, transb, A, B, C, alpha, beta, space⟩
  simp only at ha hb
  cases transa <;> cases transb <;> first | exact absurd rfl ha | exact absurd rfl hb | skip
  all_goals
    cases ta <;> cases tb <;> cases tc <;> cases pc <;> rfl

/-- The value of the tree of `gemm.cpp`. -/
theorem form_operation_eval (mem : Matrix → Nat → Nat → ℚ) (o : GEMM_Options_Pad)
    (p : GEMM_Inputs) (ha : p.transa ≠ .CUBLAS_OP_C) (hb : p.transb ≠ .CUBLAS_OP_C)
    (hk : p.conformable) :
    ∃ tree, o.form_operation p = .ok tree ∧ tree.eval mem = gemmValue mem p := by
  refine ⟨_, form_operation_ok o p ha hb, ?_⟩
  rcases o with ⟨ta, pa, tb, pb, tc, pc⟩
  rcases p with ⟨h, transa, transb, A, B, C, alpha, beta, space⟩
  simp only [GEMM_Inputs.conformable, GEMM_Inputs.k] at hk
  simp only at ha hb
  cases transa <;> cases transb <;> first | exact absurd rfl ha | exact absurd rfl hb | skip
  all_goals
    cases ta <;> cases tb <;> cases tc <;> cases pc <;>
    funext i j <;>
    simp only [MatrixOp.eval, MatrixOp.dims, eval_wrap, dims_wrap, gemmValue, GEMM_Inputs.k,
      opOf_opOf, reduceCtorEq, decide_True, decide_False, Bool.xor_false, Bool.xor_true,
      Bool.not_true, Bool.not_false, if_true, if_false, Bool.false_eq_true, ne_eq,
      not_true_eq_false, not_false_eq_true, Bool.xor_self, one_mul] at hk ⊢ <;>
    first
    | rfl
    | (simp only [opOf, if_true, if_false, Bool.false_eq_true] at hk ⊢
       first
       | rfl
       | (rw [← hk]; congr 2; exact dot_comm _ _ _))

/-- The value of the tree of `planning_system.h`. -/
theorem planner_form_operation_eval (mem : Matrix → Nat → Nat → ℚ) (opts : Planner_Options)
    (p : GEMM_Inputs) (ha : p.transa ≠ .CUBLAS_OP_C) (hb : p.transb ≠ .CUBLAS_OP_C)
    (hk : p.conformable) :
    (GEMM_Planner.form_operation opts p).eval mem = gemmValue mem p := by
  rcases opts with ⟨oa, ob, oc⟩
  rcases p with ⟨h, transa, transb, A, B, C, alpha, beta, space⟩
  simp only [GEMM_Inputs.conformable, GEMM_Inputs.k] at hk
  simp only at ha hb
  cases transa <;> cases transb <;> first | exact absurd rfl ha | exact absurd rfl hb | skip
  all_goals
    cases oa <;> cases ob <;> cases oc <;>
    funext i j <;>
    simp only [GEMM_Planner.form_operation, MatrixOp.eval, MatrixOp.dims, gemmValue,
      GEMM_Inputs.k, opOf_opOf, reduceCtorEq, decide_True, decide_False, Bool.xor_false,
      Bool.xor_true, Bool.not_true, Bool.not_false, if_true, if_false, Bool.false_eq_true,
      ne_eq, not_true_eq_false, not_false_eq_true, Bool.xor_self, one_mul] at hk ⊢ <;>
    first
    | rfl
    | (simp only [opOf, if_true, if_false, Bool.false_eq_true, one_mul] at hk ⊢
       first
       | rfl
       | (rw [← hk]; congr 2; exact dot_comm _ _ _))

end rtat

namespace rtat

/-- C19, amended: for every params whose two flags are `CUBLAS_OP_N` or `CUBLAS_OP_T` and
whose product is well-dimensioned, and for every option, the tree built by `form_operation`
(that of `gemm.cpp` for the six-flag options, that of `planning_system.h` for its options)
evaluates, under the standard meaning of the steps and in exact arithmetic, to
`alpha * op_transa(A) * op_transb(B) + beta * C`, the value of the tree of the option
without transpose and padding. -/
theorem form_operation_equivalent (mem : Matrix → Nat → Nat → ℚ) (p : GEMM_Inputs)
    (ha : p.transa ≠ .CUBLAS_OP_C) (hb : p.transb ≠ .CUBLAS_OP_C) (hk : p.conformable) :
    (∀ o : GEMM_Options_Pad, ∃ tree tree0,
      o.form_operation p = .ok tree ∧
      GEMM_Options_Pad.form_operation ⟨.NOTRANS, .NOPAD, .NOTRANS, .NOPAD, .NOTRANS, .NOPAD⟩ p
        = .ok tree0 ∧
      tree.eval mem = gemmValue mem p ∧ tree.eval mem = tree0.eval mem) ∧
    (∀ opts : Planner_Options,
      (GEMM_Planner.form_operation opts p).eval mem = gemmValue mem p ∧
      (GEMM_Planner.form_operation opts p).eval mem
        = (GEMM_Planner.form_operation ⟨.NOTRANS, .NOTRANS, .NOTRANS⟩ p).eval mem) := by
  constructor
  · intro o
    obtain ⟨tree, h1, h2⟩ := form_operation_eval mem o p ha hb hk
    obtain ⟨tree0, h3, h4⟩ := form_operation_eval mem
      ⟨.NOTRANS, .NOPAD, .NOTRANS, .NOPAD, .NOTRANS, .NOPAD⟩ p ha hb hk
    exact ⟨tree, tree0, h1, h3, h2, by rw [h2, h4]⟩
  · intro opts
    have h1 := planner_form_operation_eval mem opts p ha hb hk
    have h2 := planner_form_operation_eval mem ⟨.NOTRANS, .NOTRANS, .NOTRANS⟩ p ha hb hk
    exact ⟨h1, by rw [h1, h2]⟩

/-- The amended C19 at the 4 by 4 by 4 product without transposes, for the contents
`exampleMem`. -/
theorem form_operation_equivalent_witness :
    (smallInputs 1000).transa ≠ .CUBLAS_OP_C ∧ (smallInputs 1000).transb ≠ .CUBLAS_OP_C ∧
    (smallInputs 1000).conformable ∧
    (∀ opts : Planner_Options,
      (GEMM_Planner.form_operation opts (smallInputs 1000)).eval exampleMem
        = gemmValue exampleMem (smallInputs 1000) ∧
      (GEMM_Planner.form_operation opts (smallInputs 1000)).eval exampleMem
        = (GEMM_Planner.form_operation ⟨.NOTRANS, .NOTRANS, .NOTRANS⟩
            (smallInputs 1000)).eval exampleMem) :=
  ⟨by decide, by decide, rfl,
   (form_operation_equivalent exampleMem (smallInputs 1000) (by decide) (by decide) rfl).2⟩

/-- C19, as stated, fails for the flag `CUBLAS_OP_C`. On `conjInputs` the `form_operation`
of `gemm.cpp` builds no tree for the option that transposes the left operand: `switch_op`
throws. The `form_operation` of `planning_system.h` builds trees of different value: at
row 0, column 1 the tree of the plain option gives 1 and the tree of the option that
transposes the left operand gives 0, which is the entry of `alpha * op(A) * op(B) + beta * C`. -/
theorem form_operation_conj_flag :
    GEMM_Options_Pad.form_operation ⟨.TRANS, .NOPAD, .NOTRANS, .NOPAD, .NOTRANS, .NOPAD⟩
      conjInputs = .error (.message "Bad BLAS OP".toList) ∧
    (GEMM_Planner.form_operation ⟨.NOTRANS, .NOTRANS, .NOTRANS⟩ conjInputs).eval exampleMem 0 1
      = 1 ∧
    (GEMM_Planner.form_operation ⟨.TRANS, .NOTRANS, .NOTRANS⟩ conjInputs).eval exampleMem 0 1
      = 0 ∧
    gemmValue exampleMem conjInputs 0 1 = 0 := by
  refine ⟨rfl, ?_, ?_, ?_⟩
  · simp [GEMM_Planner.form_operation, conjInputs, MatrixOp.eval, MatrixOp.dims, dot, opOf,
      exampleMem, List.range_succ]
  · simp [GEMM_Planner.form_operation, conjInputs, MatrixOp.eval, MatrixOp.dims, dot, opOf,
      exampleMem, List.range_succ]
  · simp [gemmValue, conjInputs, GEMM_Inputs.k, dot, opOf, exampleMem, List.range_succ]

/-- C20: for the option with no transpose and no padding on any operand, `form_operation`
(of `gemm.cpp`, and of `planning_system.h` for its option with `NOTRANS` three times) returns
the single step `MatrixMult` whose operands are the pass-through A, B and C, with the
caller's flags (`transa == CUBLAS_OP_T`, `transb == CUBLAS_OP_T`), `alpha` and `beta`
unchanged; the tree has no `MatrixMove`, `MatrixMultAlloc` or `MatrixAccumulate` step, so no
temporary, and its workspace requirement is zero. -/
theorem form_operation_plain (p : GEMM_Inputs) :
    GEMM_Options_Pad.form_operation ⟨.NOTRANS, .NOPAD, .NOTRANS, .NOPAD, .NOTRANS, .NOPAD⟩ p
      = .ok (MatrixOp.MatrixMult (MatrixOp.NoOp p.A) (MatrixOp.NoOp p.B) (MatrixOp.NoOp p.C)
          (decide (p.transa = .CUBLAS_OP_T)) (decide (p.transb = .CUBLAS_OP_T))
          p.alpha p.beta) ∧
    GEMM_Planner.form_operation ⟨.NOTRANS, .NOTRANS, .NOTRANS⟩ p
      = MatrixOp.MatrixMult (MatrixOp.NoOp p.A) (MatrixOp.NoOp p.B) (MatrixOp.NoOp p.C)
          (decide (p.transa = .CUBLAS_OP_T)) (decide (p.transb = .CUBLAS_OP_T))
          p.alpha p.beta ∧
    MatrixOp.temporaries
      (MatrixOp.MatrixMult (MatrixOp.NoOp p.A) (MatrixOp.NoOp p.B) (MatrixOp.NoOp p.C)
        (decide (p.transa = .CUBLAS_OP_T)) (decide (p.transb = .CUBLAS_OP_T))
        p.alpha p.beta) = 0 ∧
    MatrixOp.workspace_req
      (MatrixOp.MatrixMult (MatrixOp.NoOp p.A) (MatrixOp.NoOp p.B) (MatrixOp.NoOp p.C)
        (decide (p.transa = .CUBLAS_OP_T)) (decide (p.transb = .CUBLAS_OP_T))
        p.alpha p.beta) = 0 :=
  ⟨rfl, rfl, rfl, rfl⟩

end rtat

namespace rtat

/-! ## Rounds of the tuning loop on a table of two options -/

section two_option_facts

variable {Params Key Opts : Type} {S : Sig Params Key Opts}

theorem create_plan_threshold {gp gp' : GEMM_Planner Key Opts} {params : Params} {o : Opts}
    (h : GEMM_Planner.create_plan S gp params = some (o, gp')) :
    gp'.tests_until_converge = gp.tests_until_converge := by
  rcases create_plan_state h with e | e
  · rw [e]; exact (get_analytics_fields gp _).2.2
  · rw [e]; exact (get_analytics_fields gp _).2.2

theorem execute_threshold {gp gp' : GEMM_Planner Key Opts} {opts : Opts} {params : Params}
    {t : Time} (hK : IsStrictTotal S.keyLt)
    (h : Planning_System.execute S gp opts params t = some gp') :
    gp'.tests_until_converge = gp.tests_until_converge := by
  have hpres := get_analytics_present hK gp (S.key params)
  simp only [Planning_System.execute] at h
  cases hw : gp.warm with
  | true =>
    simp only [hw, if_true, Option.some_bind, Option.map_eq_some'] at h
    obtain ⟨⟨o, g⟩, hg, rfl⟩ := h
    have hp3 : (StdMap.find S.keyLt (S.key params)
        (Planning_System.modifyTable S (Planning_System.get_analytics S gp (S.key params))
          (S.key params) (fun data => Planning_System.index S data opts)).analytics).isSome
        = true := by
      rw [modifyTable_present hK]; exact hpres
    rw [internal_execute_state hp3 hg]
    exact (get_analytics_fields gp _).2.2
  | false =>
    simp only [hw, Bool.false_eq_true, if_false, Option.bind_eq_some, Option.map_eq_some'] at h
    obtain ⟨g1, ⟨g0, hg0, rfl⟩, ⟨o, g⟩, hg, rfl⟩ := h
    have e0 := warmup_state hK hg0
    subst e0
    have hp1 : (StdMap.find S.keyLt (S.key params)
        ({ Planning_System.get_analytics S gp (S.key params) with warm := true } :
          GEMM_Planner Key Opts).analytics).isSome = true := hpres
    rw [get_analytics_of_present hp1] at hg
    have hp3 : (StdMap.find S.keyLt (S.key params)
        (Planning_System.modifyTable S
          ({ Planning_System.get_analytics S gp (S.key params) with warm := true } :
            GEMM_Planner Key Opts)
          (S.key params) (fun data => Planning_System.index S data opts)).analytics).isSome
        = true := by
      rw [modifyTable_present hK]; exact hpres
    rw [internal_execute_state hp3 hg]
    exact (get_analytics_fields gp _).2.2

theorem execute_present (hK : IsStrictTotal S.keyLt) {gp gp' : GEMM_Planner Key Opts}
    {opts : Opts} {params : Params} {t : Time}
    (h : Planning_System.execute S gp opts params t = some gp') :
    (StdMap.find S.keyLt (S.key params) gp'.analytics).isSome = true := by
  rw [execute_analytics hK h, modifyTable_present hK, modifyTable_present hK]
  exact get_analytics_present hK gp (S.key params)

/-- The table of the executed shape after a returning `execute`, as the next call resolves
it. -/
theorem execute_table_next (hK : IsStrictTotal S.keyLt) {gp gp' : GEMM_Planner Key Opts}
    {opts : Opts} {params : Params} {t : Time}
    (h : Planning_System.execute S gp opts params t = some gp') :
    Planning_System.table S (Planning_System.get_analytics S gp' (S.key params)) (S.key params)
      = StdMap.modify S.optLt opts (fun rec => rec.measure t)
          (Planning_System.index S
            (Planning_System.table S (Planning_System.get_analytics S gp (S.key params))
              (S.key params)) opts) := by
  rw [get_analytics_of_present (execute_present hK h), execute_table_self hK h]

theorem index_modify_first (hO : IsStrictTotal S.optLt) (o1 o2 : Opts)
    (r1 r2 : Performance_Record) (f : Performance_Record → Performance_Record) :
    StdMap.modify S.optLt o1 f (Planning_System.index S [(o1, r1), (o2, r2)] o1)
      = [(o1, f r1), (o2, r2)] := by
  simp [Planning_System.index, StdMap.emplace, StdMap.modify, hO.irrefl, StdMap.equiv]

theorem index_modify_second (hO : IsStrictTotal S.optLt) (o1 o2 : Opts)
    (h12 : S.optLt o1 o2 = true)
    (r1 r2 : Performance_Record) (f : Performance_Record → Performance_Record) :
    StdMap.modify S.optLt o2 f (Planning_System.index S [(o1, r1), (o2, r2)] o2)
      = [(o1, r1), (o2, f r2)] := by
  have h21 : S.optLt o2 o1 = false := by
    cases e : S.optLt o2 o1 with
    | false => rfl
    | true =>
      have := hO.trans _ _ _ h12 e
      rw [hO.irrefl] at this
      exact absurd this (by decide)
  simp [Planning_System.index, StdMap.emplace, StdMap.modify, hO.irrefl, StdMap.equiv, h12, h21]

theorem min_count_two (o1 o2 : Opts) (r1 r2 : Performance_Record) :
    (((r1.count : Int) ≤ r2.count → (r1.count : Int) ≤ 10000 →
        GEMM_Planner.min_count [(o1, r1), (o2, r2)] = (r1.count : Int)) ∧
      ((r2.count : Int) < r1.count → (r2.count : Int) ≤ 10000 →
        GEMM_Planner.min_count [(o1, r1), (o2, r2)] = (r2.count : Int))) ∧
    ((10000 : Int) < r1.count → (10000 : Int) < r2.count →
        GEMM_Planner.min_count [(o1, r1), (o2, r2)] = 10000) := by
  obtain ⟨h0, hle, hex⟩ := min_count_le [(o1, r1), (o2, r2)]
  have hl1 : GEMM_Planner.min_count [(o1, r1), (o2, r2)] ≤ (r1.count : Int) :=
    hle (o1, r1) (List.mem_cons_self _ _)
  have hl2 : GEMM_Planner.min_count [(o1, r1), (o2, r2)] ≤ (r2.count : Int) :=
    hle (o2, r2) (List.mem_cons_of_mem _ (List.mem_cons_self _ _))
  have hex2 : GEMM_Planner.min_count [(o1, r1), (o2, r2)] = 10000 ∨
      (r1.count : Int) = GEMM_Planner.min_count [(o1, r1), (o2, r2)] ∨
      (r2.count : Int) = GEMM_Planner.min_count [(o1, r1), (o2, r2)] := by
    rcases hex with h | ⟨x, hx, h⟩
    · exact Or.inl h
    · simp only [List.mem_cons, List.mem_singleton, List.not_mem_nil, or_false] at hx
      rcases hx with rfl | rfl
      · exact Or.inr (Or.inl h)
      · exact Or.inr (Or.inr h)
  generalize GEMM_Planner.min_count [(o1, r1), (o2, r2)] = mc at *
  refine ⟨⟨?_, ?_⟩, ?_⟩
  · intro h1 h2
    omega
  · intro h1 h2
    omega
  · intro h1 h2
    omega

/-- Explore on a table of two options: the first option is chosen when its count is the
least, is at most 10000 and is below the threshold. -/
theorem create_plan_two_first (gp : GEMM_Planner Key Opts) (params : Params)
    (o1 o2 : Opts) (r1 r2 : Performance_Record)
    (hdata : Planning_System.table S
        (Planning_System.get_analytics S gp (S.key params)) (S.key params)
      = [(o1, r1), (o2, r2)])
    (h1 : r1.count ≤ r2.count) (h2 : r1.count ≤ 10000)
    (h3 : (r1.count : Int) < gp.tests_until_converge) :
    GEMM_Planner.create_plan S gp params
      = some (o1, Planning_System.get_analytics S gp (S.key params)) := by
  have hm : GEMM_Planner.min_count [(o1, r1), (o2, r2)] = (r1.count : Int) :=
    (min_count_two o1 o2 r1 r2).1.1 (by omega) (by omega)
  simp only [GEMM_Planner.create_plan, hdata, hm, h3, if_true, List.find?_cons, decide_True]

/-- Explore on a table of two options: the second option is chosen when its count is below
that of the first, is at most 10000 and is below the threshold. -/
theorem create_plan_two_second (gp : GEMM_Planner Key Opts) (params : Params)
    (o1 o2 : Opts) (r1 r2 : Performance_Record)
    (hdata : Planning_System.table S
        (Planning_System.get_analytics S gp (S.key params)) (S.key params)
      = [(o1, r1), (o2, r2)])
    (h1 : r2.count < r1.count) (h2 : r2.count ≤ 10000)
    (h3 : (r2.count : Int) < gp.tests_until_converge) :
    GEMM_Planner.create_plan S gp params
      = some (o2, Planning_System.get_analytics S gp (S.key params)) := by
  have hm : GEMM_Planner.min_count [(o1, r1), (o2, r2)] = (r2.count : Int) :=
    (min_count_two o1 o2 r1 r2).1.2 (by omega) (by omega)
  have hne : ¬ ((r1.count : Int) = (r2.count : Int)) := by omega
  simp only [GEMM_Planner.create_plan, hdata, hm, h3, if_true, List.find?_cons, hne,
    decide_False, decide_True]

/-- Past 10000 samples on a table of two options the explore search finds nothing, and the
first option is returned when it has a finite time that the second does not beat. -/
theorem create_plan_two_past (gp : GEMM_Planner Key Opts) (params : Params)
    (o1 o2 : Opts) (r1 r2 : Performance_Record)
    (hdata : Planning_System.table S
        (Planning_System.get_analytics S gp (S.key params)) (S.key params)
      = [(o1, r1), (o2, r2)])
    (h1 : 10000 < r1.count) (h2 : 10000 < r2.count)
    (ht1 : S.get_time r1 < ⊤) (ht2 : ¬ S.get_time r2 < S.get_time r1) :
    GEMM_Planner.create_plan S gp params
      = some (o1, Planning_System.modifyTable S
          (Planning_System.get_analytics S gp (S.key params)) (S.key params)
          (fun d => d.map fun x => (x.1, { x.2 with synchronous := false }))) := by
  have hno : GEMM_Planner.min_count [(o1, r1), (o2, r2)] < gp.tests_until_converge →
      ∀ x ∈ [(o1, r1), (o2, r2)],
        (x.2.count : Int) ≠ GEMM_Planner.min_count [(o1, r1), (o2, r2)] := by
    intro _ x hx
    rw [(min_count_two o1 o2 r1 r2).2 (by omega) (by omega)]
    simp only [List.mem_cons, List.mem_singleton, List.not_mem_nil, or_false] at hx
    rcases hx with rfl | rfl <;> simp only <;> omega
  rw [create_plan_exploit gp params (o1, r1) [(o2, r2)] hdata hno]
  simp only [GEMM_Planner.best, List.foldl_cons, List.foldl_nil, ht1, if_true, ht2, if_false]

end two_option_facts

end rtat

namespace rtat

/-! ## A run of the tuning loop past 10000 samples -/

theorem tuneN_append {Params Key Opts : Type} (S : Sig Params Key Opts) (params : Params) :
    ∀ (l1 l2 : List Time) (gp : GEMM_Planner Key Opts),
    Planning_System.tuneN S gp params (l1 ++ l2)
      = (Planning_System.tuneN S gp params l1).bind
          (fun g => Planning_System.tuneN S g params l2)
  | [], l2, gp => rfl
  | t :: l1, l2, gp => by
    simp only [List.cons_append, Planning_System.tuneN]
    cases Planning_System.tune S gp params t with
    | none => rfl
    | some g => exact tuneN_append S params l1 l2 g

theorem tuningState_fresh :
    tuningState (GEMM_Planner.new [twoOpts] 10002) 0 0 :=
  ⟨rfl, true, true, by decide⟩

/-- The state `create_plan` hands on holds the samples of the state it was called on. -/
theorem tuningState_create_plan {gp gp1 : GEMM_Planner GEMM_Key GEMM_Options_Pad}
    {o : GEMM_Options_Pad} {a b : Nat} (h : tuningState gp a b)
    (hc : GEMM_Planner.create_plan gemmSig gp (smallInputs 1000) = some (o, gp1)) :
    tuningState gp1 a b := by
  obtain ⟨hT, s1, s2, hdata⟩ := h
  have hpres := get_analytics_present (S := gemmSig) GEMM_Key_lt_fields_strict gp
    (gemmSig.key (smallInputs 1000))
  refine ⟨by rw [create_plan_threshold hc]; exact hT, ?_⟩
  rcases create_plan_state hc with e | e
  · refine ⟨s1, s2, ?_⟩
    rw [e, get_analytics_of_present hpres]
    exact hdata
  · refine ⟨false, false, ?_⟩
    have hp2 : (StdMap.find gemmSig.keyLt (gemmSig.key (smallInputs 1000)) gp1.analytics).isSome
        = true := by
      rw [e, modifyTable_present GEMM_Key_lt_fields_strict]; exact hpres
    rw [get_analytics_of_present hp2, e, table_modifyTable_self _ _ _ hpres, hdata]
    rfl

/-- Executing `plainOpt` on the 4 by 4 by 4 shape returns and adds one sample to it. -/
theorem tuningState_execute_first {gp : GEMM_Planner GEMM_Key GEMM_Options_Pad} {a b : Nat}
    (h : tuningState gp a b) :
    ∃ gp', Planning_System.execute gemmSig gp plainOpt (smallInputs 1000) ((1 : ℚ) : Time)
        = some gp' ∧
      tuningState gp' (a + 1) b ∧
      Planning_System.get_analytics gemmSig gp' (gemmSig.key (smallInputs 1000)) = gp' := by
  obtain ⟨hT, s1, s2, hdata⟩ := h
  have hsome := (execute_isSome (S := gemmSig) GEMM_Key_lt_fields_strict
    GEMM_Options_Pad_lt_strict gp plainOpt (smallInputs 1000) ((1 : ℚ) : Time)).2
    (Or.inl (by decide))
  obtain ⟨gp', he⟩ := Option.isSome_iff_exists.1 hsome
  refine ⟨gp', he, ⟨?_, s1, s2, ?_⟩,
    get_analytics_of_present (execute_present GEMM_Key_lt_fields_strict he)⟩
  · rw [execute_threshold GEMM_Key_lt_fields_strict he]; exact hT
  · rw [execute_table_next GEMM_Key_lt_fields_strict he, hdata,
      index_modify_first GEMM_Options_Pad_lt_strict]
    simp only [Performance_Record.measure, List.replicate_succ']

/-- Executing `leftMoved` on the 4 by 4 by 4 shape returns and adds one sample to it. -/
theorem tuningState_execute_second {gp : GEMM_Planner GEMM_Key GEMM_Options_Pad} {a b : Nat}
    (h : tuningState gp a b) :
    ∃ gp', Planning_System.execute gemmSig gp leftMoved (smallInputs 1000) ((1 : ℚ) : Time)
        = some gp' ∧
      tuningState gp' a (b + 1) ∧
      Planning_System.get_analytics gemmSig gp' (gemmSig.key (smallInputs 1000)) = gp' := by
  obtain ⟨hT, s1, s2, hdata⟩ := h
  have hsome := (execute_isSome (S := gemmSig) GEMM_Key_lt_fields_strict
    GEMM_Options_Pad_lt_strict gp leftMoved (smallInputs 1000) ((1 : ℚ) : Time)).2
    (Or.inl (by decide))
  obtain ⟨gp', he⟩ := Option.isSome_iff_exists.1 hsome
  refine ⟨gp', he, ⟨?_, s1, s2, ?_⟩,
    get_analytics_of_present (execute_present GEMM_Key_lt_fields_strict he)⟩
  · rw [execute_threshold GEMM_Key_lt_fields_strict he]; exact hT
  · rw [execute_table_next GEMM_Key_lt_fields_strict he, hdata,
      index_modify_second GEMM_Options_Pad_lt_strict plainOpt leftMoved (by decide)]
    simp only [Performance_Record.measure, List.replicate_succ']

/-- A round of the loop while the first option has the least count, at most 10000. -/
theorem tune_first {gp : GEMM_Planner GEMM_Key GEMM_Options_Pad} {a b : Nat}
    (h : tuningState gp a b) (hab : a ≤ b) (ha : a ≤ 10000) :
    ∃ gp', Planning_System.tune gemmSig gp (smallInputs 1000) ((1 : ℚ) : Time) = some gp' ∧
      tuningState gp' (a + 1) b ∧
      Planning_System.get_analytics gemmSig gp' (gemmSig.key (smallInputs 1000)) = gp' := by
  obtain ⟨s1, s2, hdata⟩ := h.2
  have hc := create_plan_two_first (S := gemmSig) gp (smallInputs 1000) plainOpt leftMoved _ _
    hdata (by simpa [Performance_Record.count] using hab)
    (by simpa [Performance_Record.count] using ha)
    (by rw [h.1]; simp only [Performance_Record.count, List.length_replicate]; omega)
  simp only [Planning_System.tune, hc]
  exact tuningState_execute_first (tuningState_create_plan h hc)

/-- A round of the loop while the second option has the least count, at most 10000. -/
theorem tune_second {gp : GEMM_Planner GEMM_Key GEMM_Options_Pad} {a b : Nat}
    (h : tuningState gp a b) (hab : b < a) (hb : b ≤ 10000) :
    ∃ gp', Planning_System.tune gemmSig gp (smallInputs 1000) ((1 : ℚ) : Time) = some gp' ∧
      tuningState gp' a (b + 1) ∧
      Planning_System.get_analytics gemmSig gp' (gemmSig.key (smallInputs 1000)) = gp' := by
  obtain ⟨s1, s2, hdata⟩ := h.2
  have hc := create_plan_two_second (S := gemmSig) gp (smallInputs 1000) plainOpt leftMoved _ _
    hdata (by simpa [Performance_Record.count] using hab)
    (by simpa [Performance_Record.count] using hb)
    (by rw [h.1]; simp only [Performance_Record.count, List.length_replicate]; omega)
  simp only [Planning_System.tune, hc]
  exact tuningState_execute_second (tuningState_create_plan h hc)

/-- A round of the loop once both options hold more than 10000 samples: the first option is
executed again, whatever the counts. -/
theorem tune_past {gp : GEMM_Planner GEMM_Key GEMM_Options_Pad} {a b : Nat}
    (h : tuningState gp a b) (ha : 10000 < a) (hb : 10000 < b) :
    ∃ gp', Planning_System.tune gemmSig gp (smallInputs 1000) ((1 : ℚ) : Time) = some gp' ∧
      tuningState gp' (a + 1) b ∧
      Planning_System.get_analytics gemmSig gp' (gemmSig.key (smallInputs 1000)) = gp' := by
  obtain ⟨s1, s2, hdata⟩ := h.2
  have e1 : gemmSig.get_time ⟨List.replicate a ((1 : ℚ) : Time), s1⟩ = ((1 : ℚ) : Time) :=
    meanTime_replicate a (by omega) 1 s1
  have e2 : gemmSig.get_time ⟨List.replicate b ((1 : ℚ) : Time), s2⟩ = ((1 : ℚ) : Time) :=
    meanTime_replicate b (by omega) 1 s2
  have hc := create_plan_two_past (S := gemmSig) gp (smallInputs 1000) plainOpt leftMoved _ _
    hdata (by simpa [Performance_Record.count] using ha)
    (by simpa [Performance_Record.count] using hb)
    (by rw [e1]; exact WithTop.coe_lt_top _)
    (by rw [e1, e2]; exact lt_irrefl _)
  simp only [Planning_System.tune, hc]
  exact tuningState_execute_first (tuningState_create_plan h hc)

/-- The explore phase of the run: after `2 * k` rounds from the fresh planner both options
hold `k` samples, for every `k` up to 10001. -/
theorem tuneN_explore : ∀ k : Nat, k ≤ 10001 →
    ∃ gp', Planning_System.tuneN gemmSig (GEMM_Planner.new [twoOpts] 10002) (smallInputs 1000)
        (List.replicate (2 * k) ((1 : ℚ) : Time)) = some gp' ∧
      tuningState gp' k k
  | 0, _ => ⟨_, rfl, tuningState_fresh⟩
  | k + 1, hk => by
    obtain ⟨g0, hr, hs⟩ := tuneN_explore k (by omega)
    obtain ⟨g1, h1, hs1, _⟩ := tune_first hs (le_refl k) (by omega)
    obtain ⟨g2, h2, hs2, _⟩ := tune_second hs1 (by omega) (by omega)
    refine ⟨g2, ?_, hs2⟩
    have hl : List.replicate (2 * (k + 1)) ((1 : ℚ) : Time)
        = List.replicate (2 * k) ((1 : ℚ) : Time) ++ [((1 : ℚ) : Time), ((1 : ℚ) : Time)] := by
      rw [show 2 * (k + 1) = 2 * k + 2 by ring, List.replicate_add]
      rfl
    rw [hl, tuneN_append, hr]
    simp only [Option.some_bind, Planning_System.tuneN, h1, h2]

end rtat

namespace rtat

theorem sampleCount_two (gp : GEMM_Planner GEMM_Key GEMM_Options_Pad) (l1 l2 : List Time)
    (s1 s2 : Bool)
    (hdata : Planning_System.table gemmSig gp (gemmSig.key (smallInputs 1000))
      = [(plainOpt, ⟨l1, s1⟩), (leftMoved, ⟨l2, s2⟩)]) :
    Planning_System.sampleCount gemmSig gp (gemmSig.key (smallInputs 1000)) plainOpt
      = l1.length ∧
    Planning_System.sampleCount gemmSig gp (gemmSig.key (smallInputs 1000)) leftMoved
      = l2.length := by
  have e1 : StdMap.equiv gemmSig.optLt plainOpt plainOpt = true := by decide
  have e2 : StdMap.equiv gemmSig.optLt leftMoved plainOpt = false := by decide
  have e3 : StdMap.equiv gemmSig.optLt leftMoved leftMoved = true := by decide
  constructor
  · simp only [Planning_System.sampleCount, Planning_System.record, hdata, StdMap.find, e1,
      if_true, Performance_Record.count]
  · simp only [Planning_System.sampleCount, Planning_System.record, hdata, StdMap.find, e2, e3,
      if_true, Bool.false_eq_true, if_false, Performance_Record.count]

/-- C13: the code on a run of the tuning loop with threshold 10002. The planner is fresh,
the predicate admits the two options `plainOpt` and `leftMoved`, both fit the workspace,
and every measurement takes one millisecond. The 20004 rounds all return; after them
`leftMoved` holds 10001 samples, fewer than the threshold, while `plainOpt` holds 10003,
more than the threshold. The rounds alternate until both options hold 10001 samples; from
there on the least count is sought from 10000 downwards, no record has that count, and the
exploit phase executes `plainOpt` again. -/
theorem tuning_run_unfair :
    ∃ gp', Planning_System.tuneN gemmSig (GEMM_Planner.new [twoOpts] 10002) (smallInputs 1000)
        (List.replicate 20004 ((1 : ℚ) : Time)) = some gp' ∧
      gp'.tests_until_converge = 10002 ∧
      StdMap.keys (Planning_System.table gemmSig gp' (gemmSig.key (smallInputs 1000)))
        = [plainOpt, leftMoved] ∧
      Planning_System.sampleCount gemmSig gp' (gemmSig.key (smallInputs 1000)) leftMoved
        = 10001 ∧
      Planning_System.sampleCount gemmSig gp' (gemmSig.key (smallInputs 1000)) plainOpt
        = 10003 := by
  obtain ⟨g0, hr, hs⟩ := tuneN_explore 10001 (le_refl _)
  obtain ⟨g1, h1, hs1, _⟩ := tune_past hs (by omega) (by omega)
  obtain ⟨g2, h2, hs2, hg2⟩ := tune_past hs1 (by omega) (by omega)
  have hl : List.replicate 20004 ((1 : ℚ) : Time)
      = List.replicate (2 * 10001) ((1 : ℚ) : Time) ++ [((1 : ℚ) : Time), ((1 : ℚ) : Time)] := by
    rw [show 20004 = 2 * 10001 + 2 by rfl, List.replicate_add]
    rfl
  obtain ⟨hT, s1, s2, hdata⟩ := hs2
  rw [hg2] at hdata
  have hc := sampleCount_two g2 _ _ s1 s2 hdata
  refine ⟨g2, ?_, hT, ?_, ?_, ?_⟩
  · rw [hl, tuneN_append, hr]
    simp only [Option.some_bind, Planning_System.tuneN, h1, h2]
  · rw [hdata]; rfl
  · rw [hc.2, List.length_replicate]
  · rw [hc.1, List.length_replicate]

end rtat

namespace rtat

/-! ## Fair exploration below the threshold 10001 -/

section stdmap_entries

variable {K V : Type} {lt : K → K → Bool}

theorem StdMap_find_of_mem (h : IsStrictTotal lt) {k : K} {v : V} {m : StdMap K V}
    (hwf : StdMap.WF lt m) (hx : (k, v) ∈ m) : StdMap.find lt k m = some v := by
  induction m with
  | nil => simp at hx
  | cons y m ih =>
    obtain ⟨k', v'⟩ := y
    simp only [StdMap.WF, StdMap.keys, List.map_cons, List.pairwise_cons] at hwf
    rcases List.mem_cons.1 hx with e | e
    · simp only [Prod.mk.injEq] at e
      obtain ⟨rfl, rfl⟩ := e
      simp only [StdMap.find, (StdMap_equiv_iff h k k).2 rfl, if_true]
    · have hk : k ∈ List.map Prod.fst m := List.mem_map.2 ⟨(k, v), e, rfl⟩
      have h1 : lt k' k = true := hwf.1 k hk
      have hne : k ≠ k' := by
        rintro rfl
        rw [h.irrefl] at h1
        exact absurd h1 (by decide)
      simp only [StdMap.find, StdMap_equiv_false h hne, Bool.false_eq_true, if_false]
      exact ih hwf.2 e

theorem StdMap_mem_modify_find {k : K} {f : V → V} {m : StdMap K V} {x : K × V}
    (hx : x ∈ StdMap.modify lt k f m) :
    x ∈ m ∨ ∃ v, StdMap.find lt k m = some v ∧ x.2 = f v := by
  induction m with
  | nil => simp [StdMap.modify] at hx
  | cons y m ih =>
    obtain ⟨k', v'⟩ := y
    simp only [StdMap.modify] at hx
    cases he : StdMap.equiv lt k k' with
    | true =>
      simp only [he, if_true] at hx
      rcases List.mem_cons.1 hx with e | e
      · subst e
        exact Or.inr ⟨v', by simp [StdMap.find, he], rfl⟩
      · exact Or.inl (List.mem_cons_of_mem _ e)
    | false =>
      simp only [he, Bool.false_eq_true, if_false] at hx
      rcases List.mem_cons.1 hx with e | e
      · exact Or.inl (e ▸ List.mem_cons_self _ _)
      · rcases ih e with h | ⟨v, h1, h2⟩
        · exact Or.inl (List.mem_cons_of_mem _ h)
        · exact Or.inr ⟨v, by simp [StdMap.find, he, h1], h2⟩

end stdmap_entries

section fairness

variable {Params Key Opts : Type} {S : Sig Params Key Opts}

/-- The option `create_plan` returns is an option of the shape's table. -/
theorem create_plan_mem {gp gp1 : GEMM_Planner Key Opts} {params : Params} {o : Opts}
    (h : GEMM_Planner.create_plan S gp params = some (o, gp1)) :
    o ∈ StdMap.keys (Planning_System.table S
      (Planning_System.get_analytics S gp (S.key params)) (S.key params)) := by
  simp only [GEMM_Planner.create_plan] at h
  cases hdata : Planning_System.table S
      (Planning_System.get_analytics S gp (S.key params)) (S.key params) with
  | nil => rw [hdata] at h; simp at h
  | cons first rest =>
    rw [hdata] at h
    simp only at h
    split at h
    · rename_i x hx
      simp only [Option.some.injEq, Prod.mk.injEq] at h
      have hmem : x ∈ first :: rest := by
        split at hx
        · exact List.mem_of_find?_eq_some hx
        · simp at hx
      rw [← h.1]
      exact List.mem_map.2 ⟨x, hmem, rfl⟩
    · simp only [Option.some.injEq, Prod.mk.injEq] at h
      obtain ⟨as, x, bs, hsplit, hbest, -, -⟩ := best_spec (S := S) first rest
      rw [← h.1, hbest]
      exact List.mem_map.2 ⟨x, by rw [hsplit]; simp, rfl⟩

/-- The table `create_plan` hands on: that of the state it was called on, with at most the
`synchronous` flags cleared. -/
theorem create_plan_table (hK : IsStrictTotal S.keyLt) {gp gp1 : GEMM_Planner Key Opts}
    {params : Params} {o : Opts}
    (h : GEMM_Planner.create_plan S gp params = some (o, gp1)) :
    Planning_System.table S (Planning_System.get_analytics S gp1 (S.key params)) (S.key params)
      = Planning_System.table S (Planning_System.get_analytics S gp (S.key params))
          (S.key params) ∨
    Planning_System.table S (Planning_System.get_analytics S gp1 (S.key params)) (S.key params)
      = (Planning_System.table S (Planning_System.get_analytics S gp (S.key params))
          (S.key params)).map fun x => (x.1, { x.2 with synchronous := false }) := by
  have hpres := get_analytics_present hK gp (S.key params)
  rcases create_plan_state h with e | e
  · left
    rw [e, get_analytics_of_present hpres]
  · right
    have hp2 : (StdMap.find S.keyLt (S.key params) gp1.analytics).isSome = true := by
      rw [e, modifyTable_present hK]; exact hpres
    rw [get_analytics_of_present hp2, e, table_modifyTable_self _ _ _ hpres]

theorem create_plan_WF (hK : IsStrictTotal S.keyLt) (hO : IsStrictTotal S.optLt)
    {gp gp1 : GEMM_Planner Key Opts} (hwf : GEMM_Planner.WF S gp) {params : Params} {o : Opts}
    (h : GEMM_Planner.create_plan S gp params = some (o, gp1)) :
    GEMM_Planner.WF S gp1 := by
  rcases create_plan_state h with e | e
  · rw [e]; exact get_analytics_WF hK hO hwf _
  · rw [e]
    refine modifyTable_WF (get_analytics_WF hK hO hwf _) _ _ ?_
    intro d hd
    unfold StdMap.WF StdMap.keys at hd ⊢
    rw [List.map_map]
    exact hd

/-- One round of the tuning loop keeps fair exploration when the threshold is at most
10001. -/
theorem tune_fair (hK : IsStrictTotal S.keyLt) (hO : IsStrictTotal S.optLt)
    {gp gp' : GEMM_Planner Key Opts} (hwf : GEMM_Planner.WF S gp) {params : Params} {t : Time}
    (hT : gp.tests_until_converge ≤ 10001)
    (hfair : Planning_System.fair S gp (S.key params))
    (h : Planning_System.tune S gp params t = some gp') :
    Planning_System.fair S gp' (S.key params) ∧ GEMM_Planner.WF S gp' ∧
      gp'.tests_until_converge = gp.tests_until_converge := by
  unfold Planning_System.tune at h
  cases hc : GEMM_Planner.create_plan S gp params with
  | none => rw [hc] at h; simp at h
  | some r =>
    obtain ⟨o, gp1⟩ := r
    rw [hc] at h
    simp only at h
    have hT' : gp'.tests_until_converge = gp.tests_until_converge := by
      rw [execute_threshold hK h, create_plan_threshold hc]
    have hwf1 := create_plan_WF hK hO hwf hc
    have hwfD := table_get_analytics_WF hK hO hwf (S.key params)
    have hwfD1 := table_get_analytics_WF hK hO hwf1 (S.key params)
    have ho := create_plan_mem hc
    have htab := execute_table_next hK h
    have hD1 := create_plan_table hK hc
    have hkeys : StdMap.keys (Planning_System.table S
          (Planning_System.get_analytics S gp1 (S.key params)) (S.key params))
        = StdMap.keys (Planning_System.table S
          (Planning_System.get_analytics S gp (S.key params)) (S.key params)) := by
      rcases hD1 with e | e
      · rw [e]
      · rw [e]; unfold StdMap.keys; rw [List.map_map]; rfl
    have hidx : Planning_System.index S (Planning_System.table S
          (Planning_System.get_analytics S gp1 (S.key params)) (S.key params)) o
        = Planning_System.table S
          (Planning_System.get_analytics S gp1 (S.key params)) (S.key params) :=
      StdMap_emplace_of_mem hO _ hwfD1 (by rw [hkeys]; exact ho)
    rw [hidx] at htab
    refine ⟨?_, execute_WF hK hO hwf1 h, hT'⟩
    unfold Planning_System.fair
    rw [htab, hT']
    by_cases hlow : ∃ x ∈ Planning_System.table S
        (Planning_System.get_analytics S gp (S.key params)) (S.key params),
        (x.2.count : Int) < gp.tests_until_converge
    · -- explore: the chosen record is below the threshold and gains one sample
      have hsmall : ∃ x ∈ Planning_System.table S
          (Planning_System.get_analytics S gp (S.key params)) (S.key params),
          x.2.count ≤ 10000 := by
        obtain ⟨x, hx, hlt⟩ := hlow
        exact ⟨x, hx, by omega⟩
      obtain ⟨o', r, hc', hmem, hrT, -⟩ := create_plan_explore gp params hlow hsmall
      rw [hc] at hc'
      simp only [Option.some.injEq, Prod.mk.injEq] at hc'
      obtain ⟨rfl, rfl⟩ := hc'
      rw [get_analytics_of_present (get_analytics_present hK gp (S.key params))]
      intro _ x hx
      rcases StdMap_mem_modify_find hx with hx' | ⟨v, hv, hxv⟩
      · exact hfair hlow x hx'
      · rw [StdMap_find_of_mem hO hwfD hmem] at hv
        simp only [Option.some.injEq] at hv
        subst hv
        rw [hxv]
        simp only [Performance_Record.measure, Performance_Record.count, List.length_append,
          List.length_singleton] at hrT ⊢
        omega
    · -- no record is below the threshold, and none falls below it
      rintro ⟨x, hx, hlt⟩
      exfalso
      have hall : ∀ y ∈ Planning_System.table S
          (Planning_System.get_analytics S gp1 (S.key params)) (S.key params),
          gp.tests_until_converge ≤ (y.2.count : Int) := by
        intro y hy
        rcases hD1 with e | e
        · rw [e] at hy
          by_contra hcon
          exact hlow ⟨y, hy, by omega⟩
        · rw [e] at hy
          obtain ⟨z, hz, rfl⟩ := List.mem_map.1 hy
          by_contra hcon
          exact hlow ⟨z, hz, by
            simp only [Performance_Record.count] at hcon ⊢
            omega⟩
      rcases StdMap_mem_modify hx with hx' | ⟨v, hv, hxv⟩
      · have := hall x hx'
        omega
      · have := hall _ hv
        rw [hxv] at hlt
        simp only [Performance_Record.measure, Performance_Record.count, List.length_append,
          List.length_singleton] at hlt this
        omega

/-- A run of the tuning loop keeps fair exploration when the threshold is at most 10001. -/
theorem tuneN_fair (hK : IsStrictTotal S.keyLt) (hO : IsStrictTotal S.optLt)
    (params : Params) :
    ∀ (ts : List Time) (gp gp' : GEMM_Planner Key Opts), GEMM_Planner.WF S gp →
      gp.tests_until_converge ≤ 10001 → Planning_System.fair S gp (S.key params) →
      Planning_System.tuneN S gp params ts = some gp' →
      Planning_System.fair S gp' (S.key params) ∧
        gp'.tests_until_converge = gp.tests_until_converge
  | [], gp, gp', _, _, hfair, h => by
    simp only [Planning_System.tuneN, Option.some.injEq] at h
    subst h
    exact ⟨hfair, rfl⟩
  | t :: ts, gp, gp', hwf, hT, hfair, h => by
    simp only [Planning_System.tuneN] at h
    cases ht : Planning_System.tune S gp params t with
    | none => rw [ht] at h; simp at h
    | some g =>
      rw [ht] at h
      simp only at h
      obtain ⟨hf1, hwf1, hT1⟩ := tune_fair hK hO hwf hT hfair ht
      obtain ⟨hf2, hT2⟩ := tuneN_fair hK hO params ts g gp' hwf1 (by rw [hT1]; exact hT) hf1 h
      exact ⟨hf2, by rw [hT2, hT1]⟩

/-- Fair exploration for thresholds up to 10001: from a well-formed planner whose table for
the shape holds no sample, after any number of rounds `o = create_plan(params)`,
`execute(o, params, s)` that return, if some record of the shape's table has fewer samples
than the threshold then no record of it has more. -/
theorem fair_exploration_to_sentinel (hK : IsStrictTotal S.keyLt) (hO : IsStrictTotal S.optLt)
    (gp : GEMM_Planner Key Opts) (hwf : GEMM_Planner.WF S gp) (params : Params)
    (hT : gp.tests_until_converge ≤ 10001)
    (hzero : ∀ x ∈ Planning_System.table S
        (Planning_System.get_analytics S gp (S.key params)) (S.key params), x.2.count = 0)
    (ts : List Time) (gp' : GEMM_Planner Key Opts)
    (hrun : Planning_System.tuneN S gp params ts = some gp') :
    (∃ x ∈ Planning_System.table S
        (Planning_System.get_analytics S gp' (S.key params)) (S.key params),
      (x.2.count : Int) < gp.tests_until_converge) →
    ∀ x ∈ Planning_System.table S
        (Planning_System.get_analytics S gp' (S.key params)) (S.key params),
      (x.2.count : Int) ≤ gp.tests_until_converge := by
  have hfair : Planning_System.fair S gp (S.key params) := by
    rintro ⟨x, hx, hlt⟩ y hy
    have h1 := hzero x hx
    have h2 := hzero y hy
    omega
  obtain ⟨hf, hT'⟩ := tuneN_fair hK hO params ts gp gp' hwf hT hfair hrun
  unfold Planning_System.fair at hf
  rw [hT'] at hf
  exact hf

end fairness

end rtat

namespace rtat

/-! ## The stages of `form_operation` -/

/-- The two parts of `form_operation` in `gemm.cpp`, one after the other, are the whole. -/
theorem form_operation_stages (o : GEMM_Options_Pad) (p : GEMM_Inputs) :
    o.form_operation p
      = (match o.form_operands p with
         | .error e => .error e
         | .ok r => .ok (o.form_result r.1 r.2.1 r.2.2)) := by
  obtain ⟨ta, pa, tb, pb, tc, pc⟩ := o
  obtain ⟨handle, transa, transb, A, B, C, alpha, beta, space⟩ := p
  cases ta <;> cases pa <;> cases tb <;> cases pb <;> cases tc <;> cases pc <;>
    cases transa <;> cases transb <;> rfl

/-- The two parts of `form_operation` in `planning_system.h`, one after the other, are the
whole. -/
theorem planner_form_operation_stages (opts : Planner_Options) (p : GEMM_Inputs) :
    GEMM_Planner.form_operation opts p
      = GEMM_Planner.form_result opts (GEMM_Planner.form_operands opts p).1
          (GEMM_Planner.form_operands opts p).2.1 (GEMM_Planner.form_operands opts p).2.2 := by
  obtain ⟨ta, tb, tc⟩ := opts
  obtain ⟨handle, transa, transb, A, B, C, alpha, beta, space⟩ := p
  cases ta <;> cases tb <;> cases tc <;> cases transa <;> cases transb <;> rfl

end rtat

namespace rtat

/-! ## The rate of `get_floprate` and the totality of `create_plan` -/

theorem floprate_of_finite (m k n : Nat) (q : ℚ) (hq : q ≠ 0) (hov : 2 * m * k * n < 2 ^ 64) :
    floprate m k n ((q : ℚ) : Time)
      = some ((2 * m * k * n : ℚ) / 10 ^ 12 / (q / 1000)) := by
  show floprate m k n (some q) = _
  simp only [floprate, hq, if_false, Nat.mod_eq_of_lt hov, Option.some.injEq]
  push_cast
  norm_num

theorem twoOptPlanner_floprate_time (a b : Nat) (ha : 0 < a) (hb : 0 < b) (ta tb : ℚ) (T : Int) :
    Planning_System.timeOf gemmSig
        (Planning_System.table gemmSig
          (GEMM_Planner.get_floprate gemmSig (twoOptPlanner a b ta tb T) plainOpt
            (smallInputs 1000)).2 (gemmSig.key (smallInputs 1000))) plainOpt
      = ((ta : ℚ) : Time) ∧
    Planning_System.timeOf gemmSig
        (Planning_System.table gemmSig
          (GEMM_Planner.get_floprate gemmSig (twoOptPlanner a b ta tb T) leftMoved
            (smallInputs 1000)).2 (gemmSig.key (smallInputs 1000))) leftMoved
      = ((tb : ℚ) : Time) := by
  constructor
  · show gemmSig.get_time ⟨List.replicate a ((ta : ℚ) : Time), true⟩ = _
    exact meanTime_replicate a ha ta true
  · show gemmSig.get_time ⟨List.replicate b ((tb : ℚ) : Time), true⟩ = _
    exact meanTime_replicate b hb tb true

section rate_and_totality

variable {Params Key Opts : Type} {S : Sig Params Key Opts}

/-- C21: when the mean time that `get_floprate(opts, params)` reads from the record of
`opts` is a positive number `q` of milliseconds and `2*m*k*n` does not overflow `size_t`,
the rate it returns is `(2*m*k*n / 10^12) / (q / 1000)` in exact arithmetic; and a call with
the same `m`, `k`, `n` that reads the mean time `q / 2` returns exactly twice that rate. -/
theorem get_floprate_formula (gp gp2 : GEMM_Planner Key Opts) (opts opts2 : Opts)
    (params params2 : Params) (q : ℚ) (hq : 0 < q)
    (hov : 2 * S.m params * S.k params * S.n params < 2 ^ 64)
    (ht : Planning_System.timeOf S
        (Planning_System.table S (GEMM_Planner.get_floprate S gp opts params).2 (S.key params))
        opts = ((q : ℚ) : Time))
    (hm : S.m params2 = S.m params) (hk : S.k params2 = S.k params)
    (hn : S.n params2 = S.n params)
    (ht2 : Planning_System.timeOf S
        (Planning_System.table S (GEMM_Planner.get_floprate S gp2 opts2 params2).2
          (S.key params2))
        opts2 = ((q / 2 : ℚ) : Time)) :
    (GEMM_Planner.get_floprate S gp opts params).1
      = some ((2 * S.m params * S.k params * S.n params : ℚ) / 10 ^ 12 / (q / 1000)) ∧
    (GEMM_Planner.get_floprate S gp2 opts2 params2).1
      = some (2 * ((2 * S.m params * S.k params * S.n params : ℚ) / 10 ^ 12 / (q / 1000))) := by
  have e1 : (GEMM_Planner.get_floprate S gp opts params).1
      = floprate (S.m params) (S.k params) (S.n params)
          (Planning_System.timeOf S
            (Planning_System.table S (GEMM_Planner.get_floprate S gp opts params).2
              (S.key params)) opts) := rfl
  have e2 : (GEMM_Planner.get_floprate S gp2 opts2 params2).1
      = floprate (S.m params2) (S.k params2) (S.n params2)
          (Planning_System.timeOf S
            (Planning_System.table S (GEMM_Planner.get_floprate S gp2 opts2 params2).2
              (S.key params2)) opts2) := rfl
  have hq0 : q ≠ 0 := ne_of_gt hq
  have hq2 : q / 2 ≠ 0 := by positivity
  constructor
  · rw [e1, ht, floprate_of_finite _ _ _ q hq0 hov]
  · rw [e2, ht2, hm, hk, hn, floprate_of_finite _ _ _ (q / 2) hq2 hov]
    congr 1
    field_simp
    ring

end rate_and_totality

/-- C21 at the two-option planner: the record of `plainOpt` has mean time 4 ms, that of
`leftMoved` 2 ms, and the shape is 4 by 4 by 4. -/
theorem get_floprate_formula_witness :
    (0 : ℚ) < 4 ∧
    2 * gemmSig.m (smallInputs 1000) * gemmSig.k (smallInputs 1000)
      * gemmSig.n (smallInputs 1000) < 2 ^ 64 ∧
    (GEMM_Planner.get_floprate gemmSig (twoOptPlanner 1 1 4 2 1) plainOpt (smallInputs 1000)).1
      = some ((2 * gemmSig.m (smallInputs 1000) * gemmSig.k (smallInputs 1000)
          * gemmSig.n (smallInputs 1000) : ℚ) / 10 ^ 12 / (4 / 1000)) ∧
    (GEMM_Planner.get_floprate gemmSig (twoOptPlanner 1 1 4 2 1) leftMoved (smallInputs 1000)).1
      = some (2 * ((2 * gemmSig.m (smallInputs 1000) * gemmSig.k (smallInputs 1000)
          * gemmSig.n (smallInputs 1000) : ℚ) / 10 ^ 12 / (4 / 1000))) :=
  ⟨by norm_num, by decide,
   get_floprate_formula (S := gemmSig) (twoOptPlanner 1 1 4 2 1) (twoOptPlanner 1 1 4 2 1)
    plainOpt leftMoved (smallInputs 1000) (smallInputs 1000) 4 (by norm_num) (by decide)
    (twoOptPlanner_floprate_time 1 1 (by decide) (by decide) 4 2 1).1 rfl rfl rfl
    (by rw [(twoOptPlanner_floprate_time 1 1 (by decide) (by decide) 4 2 1).2]; norm_num)⟩

end rtat

namespace rtat

/-! ## What `warmup`, `create_plan` and `get_analytics` leave alone -/

section stdmap_values

variable {K V : Type} {lt : K → K → Bool}

theorem StdMap_find_map_values (f : V → V) (k : K) (m : StdMap K V) :
    StdMap.find lt k (m.map fun x => (x.1, f x.2)) = (StdMap.find lt k m).map f := by
  induction m with
  | nil => rfl
  | cons y m ih =>
    obtain ⟨k', v⟩ := y
    simp only [List.map_cons, StdMap.find]
    split
    · rfl
    · exact ih

theorem StdMap_emplace_perm (h : IsStrictTotal lt) {k : K} (v : V) {m : StdMap K V}
    (hk : k ∉ StdMap.keys m) : (StdMap.emplace lt k v m).Perm ((k, v) :: m) := by
  induction m with
  | nil => simp [StdMap.emplace]
  | cons y m ih =>
    obtain ⟨k', v'⟩ := y
    simp only [StdMap.keys, List.map_cons, List.mem_cons, not_or] at hk
    simp only [StdMap.emplace]
    split
    · exact List.Perm.refl _
    · split
      · exact ((ih hk.2).cons (k', v')).trans (List.Perm.swap _ _ _)
      · rename_i h1 h2
        exfalso
        exact hk.1 (h.total k k' (by simpa using h1) (by simpa using h2))

theorem StdMap_find_clear_flags (k : K) (m : StdMap K Performance_Record) :
    StdMap.find lt k (m.map fun x => (x.1, { x.2 with synchronous := false }))
      = (StdMap.find lt k m).map fun r => { r with synchronous := false } :=
  StdMap_find_map_values (fun r => { r with synchronous := false }) k m

end stdmap_values

section frame_claims

variable {Params Key Opts : Type} {S : Sig Params Key Opts}

/-- A record seen after a table has been resolved was there before, or is a fresh record of
the table just built. -/
theorem record_get_analytics_inv (hK : IsStrictTotal S.keyLt) (hO : IsStrictTotal S.optLt)
    (gp : GEMM_Planner Key Opts) (key key0 : Key) (o : Opts) (r : Performance_Record)
    (h : Planning_System.record S (Planning_System.get_analytics S gp key) key0 o = some r) :
    Planning_System.record S gp key0 o = some r ∨
    (StdMap.find S.keyLt key gp.analytics = none ∧ key0 = key ∧
      r = Performance_Record.new true) := by
  by_cases e : key0 = key
  · subst e
    cases hp : StdMap.find S.keyLt key0 gp.analytics with
    | some an =>
      rw [get_analytics_of_present (by simp [hp])] at h
      exact Or.inl h
    | none =>
      right
      unfold Planning_System.record at h
      rw [table_get_analytics_new hK gp key0 hp] at h
      exact ⟨rfl, rfl, Analytics_new_fresh _ _ (StdMap_find_mem hO h)⟩
  · left
    unfold Planning_System.record at h ⊢
    rw [table_get_analytics_ne hK gp e] at h
    exact h

/-- C22: after a returning `warmup(opts, params, s)` every record of every shape is the
record it was before, with the same samples (so the same count and mean time) and the same
`synchronous` flag; a record that was not there before belongs to the table of the shape of
`params`, built by this call, and holds no sample. The flag `warm` is left alone too. -/
theorem warmup_keeps_statistics (hK : IsStrictTotal S.keyLt) (hO : IsStrictTotal S.optLt)
    (gp gp' : GEMM_Planner Key Opts) (opts : Opts) (params : Params)
    (h : Planning_System.warmup S gp opts params = some gp') :
    (∀ key0 o r, Planning_System.record S gp key0 o = some r →
      Planning_System.record S gp' key0 o = some r) ∧
    (∀ key0 o r, Planning_System.record S gp' key0 o = some r →
      Planning_System.record S gp key0 o = some r ∨
      (StdMap.find S.keyLt (S.key params) gp.analytics = none ∧ key0 = S.key params ∧
        r.count = 0 ∧ r = Performance_Record.new true)) ∧
    gp'.warm = gp.warm := by
  have e := warmup_state hK h
  subst e
  refine ⟨?_, ?_, (get_analytics_fields gp _).2.1⟩
  · intro key0 o r hr
    exact record_get_analytics_of_some hK gp _ key0 o r hr
  · intro key0 o r hr
    rcases record_get_analytics_inv hK hO gp _ key0 o r hr with h1 | ⟨h1, h2, h3⟩
    · exact Or.inl h1
    · exact Or.inr ⟨h1, h2, by rw [h3]; rfl, h3⟩

/-- The phase in which `create_plan` returns, and the state it leaves. -/
theorem create_plan_phase (gp gp' : GEMM_Planner Key Opts) (params : Params) (o : Opts)
    (h : GEMM_Planner.create_plan S gp params = some (o, gp')) :
    (GEMM_Planner.explores S gp params = true →
      gp' = Planning_System.get_analytics S gp (S.key params)) ∧
    (GEMM_Planner.explores S gp params = false →
      gp' = Planning_System.modifyTable S (Planning_System.get_analytics S gp (S.key params))
        (S.key params) (fun d => d.map fun x => (x.1, { x.2 with synchronous := false }))) := by
  simp only [GEMM_Planner.create_plan] at h
  unfold GEMM_Planner.explores
  cases hdata : Planning_System.table S
      (Planning_System.get_analytics S gp (S.key params)) (S.key params) with
  | nil => rw [hdata] at h; simp at h
  | cons first rest =>
    rw [hdata] at h
    simp only at h
    by_cases hmT : GEMM_Planner.min_count (first :: rest) < gp.tests_until_converge
    · simp only [hmT, if_true, decide_True, Bool.true_and] at h ⊢
      cases hf : (first :: rest).find?
          (fun x => decide ((x.2.count : Int) = GEMM_Planner.min_count (first :: rest))) with
      | some x =>
        rw [hf] at h
        simp only [Option.some.injEq, Prod.mk.injEq] at h
        have hany : (first :: rest).any
            (fun x => decide ((x.2.count : Int) = GEMM_Planner.min_count (first :: rest)))
            = true := by
          rw [List.any_eq_true]
          have hx2 := List.find?_some hf
          exact ⟨x, List.mem_of_find?_eq_some hf, hx2⟩
        exact ⟨fun _ => h.2.symm, fun hc => by rw [hany] at hc; exact absurd hc (by decide)⟩
      | none =>
        rw [hf] at h
        simp only [Option.some.injEq, Prod.mk.injEq] at h
        have hany : (first :: rest).any
            (fun x => decide ((x.2.count : Int) = GEMM_Planner.min_count (first :: rest)))
            = false := by
          rw [Bool.eq_false_iff]
          intro hc
          rw [List.any_eq_true] at hc
          obtain ⟨x, hx, hx2⟩ := hc
          exact List.find?_eq_none.1 hf x hx hx2
        exact ⟨fun hc => by rw [hany] at hc; exact absurd hc (by decide), fun _ => h.2.symm⟩
    · simp only [hmT, if_false, decide_False, Bool.false_and] at h ⊢
      simp only [Option.some.injEq, Prod.mk.injEq] at h
      exact ⟨fun hc => absurd hc (by decide), fun _ => h.2.symm⟩

/-- The effect of `create_plan` by the branch it takes. A call that returns from the exploit
loop leaves every record of the shape with `synchronous = false`, and one that returns from
the explore loop leaves every record of the shape as it is, the flag included. In both
cases every record of the shape keeps its samples, hence its count and mean time, and the
tables of other shapes are untouched. The records of the shape before the call are those of
the table as the call resolves it. -/
theorem create_plan_mode_switch (hK : IsStrictTotal S.keyLt) (gp gp' : GEMM_Planner Key Opts)
    (params : Params) (o : Opts)
    (h : GEMM_Planner.create_plan S gp params = some (o, gp')) :
    (GEMM_Planner.explores S gp params = false →
      ∀ o0 r, Planning_System.record S gp' (S.key params) o0 = some r →
        r.synchronous = false) ∧
    (GEMM_Planner.explores S gp params = true →
      ∀ o0, Planning_System.record S gp' (S.key params) o0
        = Planning_System.record S (Planning_System.get_analytics S gp (S.key params))
            (S.key params) o0) ∧
    (∀ o0, (Planning_System.record S gp' (S.key params) o0).map
          (fun r => (r.samples, r.count, meanTime r))
        = (Planning_System.record S (Planning_System.get_analytics S gp (S.key params))
            (S.key params) o0).map (fun r => (r.samples, r.count, meanTime r))) ∧
    (∀ key0, key0 ≠ S.key params →
      Planning_System.table S gp' key0 = Planning_System.table S gp key0) := by
  have hpres := get_analytics_present hK gp (S.key params)
  have hmod : Planning_System.table S
      (Planning_System.modifyTable S (Planning_System.get_analytics S gp (S.key params))
        (S.key params) (fun d => d.map fun x => (x.1, { x.2 with synchronous := false })))
      (S.key params)
      = (Planning_System.table S (Planning_System.get_analytics S gp (S.key params))
          (S.key params)).map fun x => (x.1, { x.2 with synchronous := false }) :=
    table_modifyTable_self _ _ _ hpres
  obtain ⟨hexplore, hexploit⟩ := create_plan_phase gp gp' params o h
  refine ⟨?_, ?_, ?_, ?_⟩
  · intro hph o0 r hr
    rw [hexploit hph] at hr
    unfold Planning_System.record at hr
    rw [hmod, StdMap_find_clear_flags] at hr
    obtain ⟨r0, -, rfl⟩ := Option.map_eq_some'.1 hr
    rfl
  · intro hph o0
    rw [hexplore hph]
  · intro o0
    rcases create_plan_state h with e | e
    · rw [e]
    · rw [e]
      unfold Planning_System.record
      rw [hmod, StdMap_find_clear_flags]
      cases StdMap.find S.optLt o0 (Planning_System.table S
        (Planning_System.get_analytics S gp (S.key params)) (S.key params)) with
      | none => rfl
      | some r => rfl
  · intro key0 hne
    rcases create_plan_state h with e | e
    · rw [e, table_get_analytics_ne hK gp hne]
    · rw [e, table_modifyTable_ne hK _ hne, table_get_analytics_ne hK gp hne]

theorem mem_keys_get_analytics (hK : IsStrictTotal S.keyLt) (gp : GEMM_Planner Key Opts)
    (key key0 : Key) (h : key0 ∈ StdMap.keys gp.analytics) :
    key0 ∈ StdMap.keys (Planning_System.get_analytics S gp key).analytics := by
  rw [← StdMap_find_isSome hK] at h ⊢
  exact get_analytics_keeps_present hK gp key key0 h

theorem keys_modifyTable (gp : GEMM_Planner Key Opts) (key : Key)
    (f : StdMap Opts Performance_Record → StdMap Opts Performance_Record) :
    StdMap.keys (Planning_System.modifyTable S gp key f).analytics
      = StdMap.keys gp.analytics :=
  StdMap_keys_modify _ _ _

/-- C24: `get_analytics(key)` on a key that has a table leaves the planner, its map
included, as it is and calls no predicate; on a key without a table it adds one entry, the
table built for that key, and leaves every other entry of the map, hence the table of every
other key, as it is. No operation of the engine removes a key: a key of the map is a key of
the map after `get_analytics`, `warmup`, `execute`, `create_plan`, `degrade_plan`, `top_n`,
`bottom_n` and `get_floprate`. -/
theorem get_analytics_memoized (hK : IsStrictTotal S.keyLt) (gp : GEMM_Planner Key Opts)
    (key : Key) (opts : Opts) (params : Params) :
    ((StdMap.find S.keyLt key gp.analytics).isSome = true →
      Planning_System.get_analytics S gp key = gp ∧
      Planning_System.predicate_calls S gp key = []) ∧
    ((StdMap.find S.keyLt key gp.analytics).isSome = false →
      (Planning_System.get_analytics S gp key).analytics.Perm
        ((key, Analytics.new S (gp.predicates.map fun pred => fun opts => pred (opts, key)))
          :: gp.analytics) ∧
      ∀ key0, key0 ≠ key →
        Planning_System.table S (Planning_System.get_analytics S gp key) key0
          = Planning_System.table S gp key0) ∧
    (∀ key0 ∈ StdMap.keys gp.analytics,
      key0 ∈ StdMap.keys (Planning_System.get_analytics S gp key).analytics ∧
      (∀ gp', Planning_System.warmup S gp opts params = some gp' →
        key0 ∈ StdMap.keys gp'.analytics) ∧
      (∀ t gp', Planning_System.execute S gp opts params t = some gp' →
        key0 ∈ StdMap.keys gp'.analytics) ∧
      (∀ o gp', GEMM_Planner.create_plan S gp params = some (o, gp') →
        key0 ∈ StdMap.keys gp'.analytics) ∧
      (∀ o gp', GEMM_Planner.degrade_plan S gp params = some (o, gp') →
        key0 ∈ StdMap.keys gp'.analytics) ∧
      (∀ n l gp', Planning_System.top_n S gp key n = some (l, gp') →
        key0 ∈ StdMap.keys gp'.analytics) ∧
      (∀ n l gp', Planning_System.bottom_n S gp key n = some (l, gp') →
        key0 ∈ StdMap.keys gp'.analytics) ∧
      key0 ∈ StdMap.keys (GEMM_Planner.get_floprate S gp opts params).2.analytics) := by
  refine ⟨?_, ?_, ?_⟩
  · intro hp
    exact ⟨get_analytics_of_present hp, by simp [Planning_System.predicate_calls, hp]⟩
  · intro hp
    have hk : key ∉ StdMap.keys gp.analytics := by
      rw [← StdMap_find_isSome hK, hp]
      decide
    constructor
    · simp only [Planning_System.get_analytics, hp, Bool.false_eq_true, if_false]
      exact StdMap_emplace_perm hK _ hk
    · intro key0 hne
      exact table_get_analytics_ne hK gp hne
  · intro key0 h0
    have hg := fun key => mem_keys_get_analytics (S := S) hK gp key key0 h0
    refine ⟨hg key, ?_, ?_, ?_, ?_, ?_, ?_, ?_⟩
    · intro gp' h
      rw [warmup_state hK h]
      exact hg _
    · intro t gp' h
      rw [execute_analytics hK h, keys_modifyTable, keys_modifyTable]
      exact hg _
    · intro o gp' h
      rcases create_plan_state h with e | e
      · rw [e]; exact hg _
      · rw [e, keys_modifyTable]; exact hg _
    · intro o gp' h
      rw [degrade_plan_state h]
      exact hg _
    · intro n l gp' h
      rw [get_n_state h]
      exact hg _
    · intro n l gp' h
      rw [get_n_state h]
      exact hg _
    · show key0 ∈ StdMap.keys (Planning_System.modifyTable S
        (Planning_System.get_analytics S gp (S.key params)) (S.key params)
        (fun data => Planning_System.index S data opts)).analytics
      rw [keys_modifyTable]
      exact hg _

end frame_claims

/-- C22 at the two-option planner whose records of the 4 by 4 by 4 shape hold two samples of
5 ms and three samples of 1 ms: `warmup` with the plain option on the 2 by 2 by 2 shape
returns, the record of `leftMoved` is afterwards the record it was, and what the theorem
says of every record holds. -/
theorem warmup_keeps_statistics_witness :
    Planning_System.warmup gemmSig (twoOptPlanner 2 3 5 1 3) plainOpt conjInputs
      = some (Planning_System.get_analytics gemmSig (twoOptPlanner 2 3 5 1 3)
          (gemmSig.key conjInputs)) ∧
    Planning_System.record gemmSig (twoOptPlanner 2 3 5 1 3) (gemmSig.key (smallInputs 1000))
        leftMoved = some ⟨List.replicate 3 ((1 : ℚ) : Time), true⟩ ∧
    Planning_System.record gemmSig
        (Planning_System.get_analytics gemmSig (twoOptPlanner 2 3 5 1 3)
          (gemmSig.key conjInputs)) (gemmSig.key (smallInputs 1000)) leftMoved
      = some ⟨List.replicate 3 ((1 : ℚ) : Time), true⟩ ∧
    (∀ key0 o r,
      Planning_System.record gemmSig
        (Planning_System.get_analytics gemmSig (twoOptPlanner 2 3 5 1 3)
          (gemmSig.key conjInputs)) key0 o = some r →
      Planning_System.record gemmSig (twoOptPlanner 2 3 5 1 3) key0 o = some r ∨
      (StdMap.find gemmSig.keyLt (gemmSig.key conjInputs)
          (twoOptPlanner 2 3 5 1 3).analytics = none ∧
        key0 = gemmSig.key conjInputs ∧ r.count = 0 ∧
        r = Performance_Record.new true)) ∧
    (Planning_System.get_analytics gemmSig (twoOptPlanner 2 3 5 1 3)
        (gemmSig.key conjInputs)).warm = (twoOptPlanner 2 3 5 1 3).warm :=
  ⟨rfl, rfl,
   (warmup_keeps_statistics (S := gemmSig) GEMM_Key_lt_fields_strict GEMM_Options_Pad_lt_strict
      (twoOptPlanner 2 3 5 1 3) _ plainOpt conjInputs rfl).1 _ _ _ rfl,
   (warmup_keeps_statistics (S := gemmSig) GEMM_Key_lt_fields_strict GEMM_Options_Pad_lt_strict
      (twoOptPlanner 2 3 5 1 3) _ plainOpt conjInputs rfl).2.1,
   (warmup_keeps_statistics (S := gemmSig) GEMM_Key_lt_fields_strict GEMM_Options_Pad_lt_strict
      (twoOptPlanner 2 3 5 1 3) _ plainOpt conjInputs rfl).2.2⟩

/-- C24 at a new planner, the 4 by 4 by 4 shape and the plain option. -/
theorem get_analytics_memoized_witness :
    IsStrictTotal gemmSig.keyLt ∧
    ((StdMap.find gemmSig.keyLt (gemmSig.key (smallInputs 1000))
        (GEMM_Planner.new [twoOpts] 3 : GEMM_Planner GEMM_Key GEMM_Options_Pad).analytics).isSome
        = false →
      (Planning_System.get_analytics gemmSig (GEMM_Planner.new [twoOpts] 3)
          (gemmSig.key (smallInputs 1000))).analytics.Perm
        ((gemmSig.key (smallInputs 1000),
            Analytics.new gemmSig ((GEMM_Planner.new [twoOpts] 3 :
              GEMM_Planner GEMM_Key GEMM_Options_Pad).predicates.map
                fun pred => fun opts => pred (opts, gemmSig.key (smallInputs 1000))))
          :: (GEMM_Planner.new [twoOpts] 3 :
              GEMM_Planner GEMM_Key GEMM_Options_Pad).analytics) ∧
      ∀ key0, key0 ≠ gemmSig.key (smallInputs 1000) →
        Planning_System.table gemmSig
            (Planning_System.get_analytics gemmSig (GEMM_Planner.new [twoOpts] 3)
              (gemmSig.key (smallInputs 1000))) key0
          = Planning_System.table gemmSig (GEMM_Planner.new [twoOpts] 3) key0) :=
  ⟨GEMM_Key_lt_fields_strict,
   (get_analytics_memoized (S := gemmSig) GEMM_Key_lt_fields_strict
      (GEMM_Planner.new [twoOpts] 3) (gemmSig.key (smallInputs 1000)) plainOpt
      (smallInputs 1000)).2.1⟩

end rtat

namespace rtat

/-! ## The trees of `form_operation`, operand by operand -/

/-- C25, amended. In `gemm.cpp`, whenever `form_operation` builds a tree (it throws exactly
when a transpose is requested of an operand whose flag is neither `CUBLAS_OP_N` nor
`CUBLAS_OP_T`): the left operand is wrapped in a `MatrixMove` step if and only if the option
requests its transpose or its padding; the step has scale 1, the transpose flag of the
request, and block size 32 when padding is requested and 1 otherwise; the flag the multiply
is given for that operand is inverted exactly when the transpose is requested; the right
operand is treated in the same way from its own two requests; nothing else of `params`
changes. In `planning_system.h`: an operand is wrapped if and only if its request is `TRANS`
or `PAD`; the step has the transpose flag set exactly for `TRANS` and block size 32 in both
cases; and for a flag `CUBLAS_OP_N` or `CUBLAS_OP_T` the flag the multiply is given is
inverted exactly for `TRANS`. -/
theorem form_operands_treatment (o : GEMM_Options_Pad) (opts : Planner_Options)
    (p : GEMM_Inputs) :
    (o.form_operation p
      = (match o.form_operands p with
         | .error e => .error e
         | .ok r => .ok (o.form_result r.1 r.2.1 r.2.2))) ∧
    ((∃ e, o.form_operands p = .error e) ↔
      (o.transa = .TRANS ∧ p.transa = .CUBLAS_OP_C) ∨
      (o.transb = .TRANS ∧ p.transb = .CUBLAS_OP_C)) ∧
    (∀ A1 B1 p1, o.form_operands p = .ok (A1, B1, p1) →
      A1 = (if o.transa = .TRANS ∨ o.pada = .PAD then
              MatrixOp.MatrixMove (.NoOp p.A) 1 (decide (o.transa = .TRANS))
                (if o.pada = .PAD then 32 else 1)
            else .NoOp p.A) ∧
      decide (p1.transa = .CUBLAS_OP_T)
        = (decide (p.transa = .CUBLAS_OP_T) != decide (o.transa = .TRANS)) ∧
      B1 = (if o.transb = .TRANS ∨ o.padb = .PAD then
              MatrixOp.MatrixMove (.NoOp p.B) 1 (decide (o.transb = .TRANS))
                (if o.padb = .PAD then 32 else 1)
            else .NoOp p.B) ∧
      decide (p1.transb = .CUBLAS_OP_T)
        = (decide (p.transb = .CUBLAS_OP_T) != decide (o.transb = .TRANS)) ∧
      p1 = { p with transa := p1.transa, transb := p1.transb }) ∧
    (GEMM_Planner.form_operation opts p
      = GEMM_Planner.form_result opts (GEMM_Planner.form_operands opts p).1
          (GEMM_Planner.form_operands opts p).2.1 (GEMM_Planner.form_operands opts p).2.2) ∧
    ((GEMM_Planner.form_operands opts p).1
      = (if opts.transa = .NOTRANS then .NoOp p.A
         else MatrixOp.MatrixMove (.NoOp p.A) 1 (decide (opts.transa = .TRANS)) 32)) ∧
    ((GEMM_Planner.form_operands opts p).2.1
      = (if opts.transb = .NOTRANS then .NoOp p.B
         else MatrixOp.MatrixMove (.NoOp p.B) 1 (decide (opts.transb = .TRANS)) 32)) ∧
    (p.transa ≠ .CUBLAS_OP_C →
      decide ((GEMM_Planner.form_operands opts p).2.2.transa = .CUBLAS_OP_T)
        = (decide (p.transa = .CUBLAS_OP_T) != decide (opts.transa = .TRANS))) ∧
    (p.transb ≠ .CUBLAS_OP_C →
      decide ((GEMM_Planner.form_operands opts p).2.2.transb = .CUBLAS_OP_T)
        = (decide (p.transb = .CUBLAS_OP_T) != decide (opts.transb = .TRANS))) ∧
    (GEMM_Planner.form_operands opts p).2.2
      = { p with transa := (GEMM_Planner.form_operands opts p).2.2.transa,
                 transb := (GEMM_Planner.form_operands opts p).2.2.transb } := by
  refine ⟨form_operation_stages o p, ?_, ?_, planner_form_operation_stages opts p,
    ?_, ?_, ?_, ?_, ?_⟩
  · obtain ⟨ta, pa, tb, pb, tc, pc⟩ := o
    obtain ⟨handle, transa, transb, A, B, C, alpha, beta, space⟩ := p
    cases ta <;> cases tb <;> cases transa <;> cases transb <;>
      simp [GEMM_Options_Pad.form_operands, switch_op]
  · intro A1 B1 p1 h
    obtain ⟨ta, pa, tb, pb, tc, pc⟩ := o
    obtain ⟨handle, transa, transb, A, B, C, alpha, beta, space⟩ := p
    cases ta <;> cases pa <;> cases tb <;> cases pb <;> cases transa <;> cases transb <;>
      simp [GEMM_Options_Pad.form_operands, switch_op] at h <;>
      (obtain ⟨h1, h2, h3⟩ := h
       subst h1 h2 h3
       simp)
  · obtain ⟨ta, tb, tc⟩ := opts
    cases ta <;> rfl
  · obtain ⟨ta, tb, tc⟩ := opts
    cases tb <;> rfl
  · intro hC
    obtain ⟨ta, tb, tc⟩ := opts
    obtain ⟨handle, transa, transb, A, B, C, alpha, beta, space⟩ := p
    cases transa
    · cases ta <;> cases tb <;> rfl
    · cases ta <;> cases tb <;> rfl
    · exact absurd rfl hC
  · intro hC
    obtain ⟨ta, tb, tc⟩ := opts
    obtain ⟨handle, transa, transb, A, B, C, alpha, beta, space⟩ := p
    cases transb
    · cases ta <;> cases tb <;> rfl
    · cases ta <;> cases tb <;> rfl
    · exact absurd rfl hC
  · obtain ⟨ta, tb, tc⟩ := opts
    cases ta <;> cases tb <;> rfl

/-- C25, as stated, fails for `form_operation` of `planning_system.h`. For the option that
requests the transpose of the left operand and nothing else, on the 4 by 4 by 4 product, the
`MatrixMove` step of the left operand has block size 32, not 1. And on `conjInputs`, whose
left flag is `CUBLAS_OP_C`, the same option leaves the flag that the multiply is given for
the left operand as it would be without the request: not set. -/
theorem planner_move_block_size :
    GEMM_Planner.form_operation ⟨.TRANS, .NOTRANS, .NOTRANS⟩ (smallInputs 1000)
      = MatrixOp.MatrixMult
          (MatrixOp.MatrixMove (.NoOp (smallInputs 1000).A) 1 true 32)
          (.NoOp (smallInputs 1000).B) (.NoOp (smallInputs 1000).C) true false 1 0 ∧
    (GEMM_Planner.form_operands ⟨.TRANS, .NOTRANS, .NOTRANS⟩ (smallInputs 1000)).1
      = MatrixOp.MatrixMove (.NoOp (smallInputs 1000).A) 1 true 32 ∧
    decide (conjInputs.transa = .CUBLAS_OP_T) = false ∧
    decide ((GEMM_Planner.form_operands ⟨.TRANS, .NOTRANS, .NOTRANS⟩ conjInputs).2.2.transa
      = .CUBLAS_OP_T) = false ∧
    decide ((GEMM_Planner.form_operands ⟨.NOTRANS, .NOTRANS, .NOTRANS⟩ conjInputs).2.2.transa
      = .CUBLAS_OP_T) = false :=
  ⟨rfl, rfl, rfl, rfl, rfl⟩

/-- C26, amended. In `gemm.cpp`: when the option requests the transpose of the result, the
tree is `MatrixAccumulate(MatrixMultAlloc(B, A, not tb, not ta, alpha, pad), C, 1, beta,
true)`, where `A` and `B` are the steps of the operands, `ta` and `tb` the flags
`params.transa == CUBLAS_OP_T` and `params.transb == CUBLAS_OP_T` after the treatment of
the operands, and `pad` is 32 when the padding of the result is requested and 1 otherwise;
when it requests the padding of the result only, the tree is
`MatrixAccumulate(MatrixMultAlloc(A, B, ta, tb, alpha, 32), C, 1, beta, false)`; otherwise
it is `MatrixMult(A, B, C, ta, tb, alpha, beta)`. In `planning_system.h` the request for the
result has three values: for `TRANS` the tree is the first of these with block size 32, for
`PAD` it is the second, and for `NOTRANS` the third. -/
theorem form_result_treatment (o : GEMM_Options_Pad) (opts : Planner_Options)
    (A B : MatrixOp) (p : GEMM_Inputs) :
    (o.form_operation p
      = (match o.form_operands p with
         | .error e => .error e
         | .ok r => .ok (o.form_result r.1 r.2.1 r.2.2))) ∧
    (o.transc = .TRANS →
      o.form_result A B p
        = MatrixOp.MatrixAccumulate
            (MatrixOp.MatrixMultAlloc B A
              (!decide (p.transb = .CUBLAS_OP_T)) (!decide (p.transa = .CUBLAS_OP_T))
              p.alpha (if o.padc = .PAD then 32 else 1))
            (.NoOp p.C) 1 p.beta true) ∧
    (o.transc = .NOTRANS → o.padc = .PAD →
      o.form_result A B p
        = MatrixOp.MatrixAccumulate
            (MatrixOp.MatrixMultAlloc A B
              (decide (p.transa = .CUBLAS_OP_T)) (decide (p.transb = .CUBLAS_OP_T))
              p.alpha 32)
            (.NoOp p.C) 1 p.beta false) ∧
    (o.transc = .NOTRANS → o.padc = .NOPAD →
      o.form_result A B p
        = MatrixOp.MatrixMult A B (.NoOp p.C)
            (decide (p.transa = .CUBLAS_OP_T)) (decide (p.transb = .CUBLAS_OP_T))
            p.alpha p.beta) ∧
    (GEMM_Planner.form_operation opts p
      = GEMM_Planner.form_result opts (GEMM_Planner.form_operands opts p).1
          (GEMM_Planner.form_operands opts p).2.1 (GEMM_Planner.form_operands opts p).2.2) ∧
    (opts.transc = .TRANS →
      GEMM_Planner.form_result opts A B p
        = MatrixOp.MatrixAccumulate
            (MatrixOp.MatrixMultAlloc B A
              (!decide (p.transb = .CUBLAS_OP_T)) (!decide (p.transa = .CUBLAS_OP_T))
              p.alpha 32)
            (.NoOp p.C) 1 p.beta true) ∧
    (opts.transc = .PAD →
      GEMM_Planner.form_result opts A B p
        = MatrixOp.MatrixAccumulate
            (MatrixOp.MatrixMultAlloc A B
              (decide (p.transa = .CUBLAS_OP_T)) (decide (p.transb = .CUBLAS_OP_T))
              p.alpha 32)
            (.NoOp p.C) 1 p.beta false) ∧
    (opts.transc = .NOTRANS →
      GEMM_Planner.form_result opts A B p
        = MatrixOp.MatrixMult A B (.NoOp p.C)
            (decide (p.transa = .CUBLAS_OP_T)) (decide (p.transb = .CUBLAS_OP_T))
            p.alpha p.beta) := by
  refine ⟨form_operation_stages o p, ?_, ?_, ?_, planner_form_operation_stages opts p,
    ?_, ?_, ?_⟩
  · intro h
    simp [GEMM_Options_Pad.form_result, h]
  · intro h1 h2
    simp [GEMM_Options_Pad.form_result, h1, h2]
  · intro h1 h2
    simp [GEMM_Options_Pad.form_result, h1, h2]
  · intro h
    simp [GEMM_Planner.form_result, h]
  · intro h
    simp [GEMM_Planner.form_result, h]
  · intro h
    simp [GEMM_Planner.form_result, h]

/-- C26, as stated, fails for `form_operation` of `planning_system.h`. For the option that
requests the transpose of the result and nothing else, on the 4 by 4 by 4 product, the
temporary of `MatrixMultAlloc` has block size 32 although no padding is requested. -/
theorem planner_temporary_block_size :
    GEMM_Planner.form_operation ⟨.NOTRANS, .NOTRANS, .TRANS⟩ (smallInputs 1000)
      = MatrixOp.MatrixAccumulate
          (MatrixOp.MatrixMultAlloc (.NoOp (smallInputs 1000).B) (.NoOp (smallInputs 1000).A)
            true true 1 32)
          (.NoOp (smallInputs 1000).C) 1 0 true :=
  rfl

end rtat

namespace rtat

/-! ## The option object after a failed decode -/

theorem length_six {s : Str} (h : s.length = 6) :
    ∃ c0 c1 c2 c3 c4 c5, s = [c0, c1, c2, c3, c4, c5] := by
  match s, h with
  | [c0, c1, c2, c3, c4, c5], _ => exact ⟨c0, c1, c2, c3, c4, c5, rfl⟩

/-- C27, amended: a decode that fails on the length of the token (the token `is >> s` reads
does not have six characters) sets `failbit`, throws nothing and leaves the option object
as it was, in all six fields. A decode that throws has a token of six characters with an
unrecognised symbol; with `j` the place of the first such symbol in the order of assignment
(`transa`, `pada`, `transb`, `padb`, `transc`, `padc`, read from the positions 0, 3, 1, 4,
2, 5 of the token), the fields assigned before place `j` hold what their symbols decode to,
and the fields from place `j` on hold what they held before the call. -/
theorem read_failure_state (is : IStream) (opts : GEMM_Options_Pad) :
    (is.readStr.1.length ≠ 6 →
      (GEMM_Options_Pad.read is opts).opts = opts ∧
      (GEMM_Options_Pad.read is opts).is.failbit = true ∧
      (GEMM_Options_Pad.read is opts).raised = none) ∧
    ((GEMM_Options_Pad.read is opts).raised ≠ none →
      is.readStr.1.length = 6 ∧
      ∃ j, j < 6 ∧ symbolOk is.readStr.1 (assignmentOrder.getD j 0) = false ∧
        (∀ i, i < j →
          symbolOk is.readStr.1 (assignmentOrder.getD i 0) = true ∧
          (GEMM_Options_Pad.read is opts).opts.symbol (assignmentOrder.getD i 0)
            = charAt is.readStr.1 (assignmentOrder.getD i 0)) ∧
        (∀ i, j ≤ i → i < 6 →
          (GEMM_Options_Pad.read is opts).opts.symbol (assignmentOrder.getD i 0)
            = opts.symbol (assignmentOrder.getD i 0))) := by
  cases hrs : is.readStr with
  | mk tok is1 =>
  by_cases hlen : tok.length = 6
  · refine ⟨fun h => absurd hlen h, fun hraised => ⟨hlen, ?_⟩⟩
    obtain ⟨c0, c1, c2, c3, c4, c5, rfl⟩ := length_six hlen
    simp only [GEMM_Options_Pad.read, hrs, charAt, List.getD_cons_zero,
      List.getD_cons_succ, List.length_cons, List.length_nil, ne_eq, not_true_eq_false,
      if_false] at hraised ⊢
    cases h0 : BLAS_Op.ofStr [c0] with
    | error e =>
      refine ⟨0, by decide, by simp [assignmentOrder, symbolOk, charAt, h0], ?_, ?_⟩
      · intro i hi; omega
      · intro i _ _; rfl
    | ok ta =>
    have e0 := (BLAS_Op_ofStr_ok h0).symm
    cases h3 : Pad_Op.ofStr [c3] with
    | error e =>
      refine ⟨1, by decide, by simp [assignmentOrder, symbolOk, charAt, h3], ?_, ?_⟩
      · intro i hi
        interval_cases i
        simp [assignmentOrder, symbolOk, charAt, h0, GEMM_Options_Pad.symbol, e0]
      · intro i h1 h2
        interval_cases i <;> simp [assignmentOrder, GEMM_Options_Pad.symbol]
    | ok pa =>
    have e3 := (Pad_Op_ofStr_ok h3).symm
    cases h1 : BLAS_Op.ofStr [c1] with
    | error e =>
      refine ⟨2, by decide, by simp [assignmentOrder, symbolOk, charAt, h1], ?_, ?_⟩
      · intro i hi
        interval_cases i <;>
          simp [assignmentOrder, symbolOk, charAt, h0, h3, GEMM_Options_Pad.symbol, e0, e3]
      · intro i h1 h2
        interval_cases i <;> simp [assignmentOrder, GEMM_Options_Pad.symbol]
    | ok tb =>
    have e1 := (BLAS_Op_ofStr_ok h1).symm
    cases h4 : Pad_Op.ofStr [c4] with
    | error e =>
      refine ⟨3, by decide, by simp [assignmentOrder, symbolOk, charAt, h4], ?_, ?_⟩
      · intro i hi
        interval_cases i <;>
          simp [assignmentOrder, symbolOk, charAt, h0, h3, h1, GEMM_Options_Pad.symbol,
            e0, e3, e1]
      · intro i h1 h2
        interval_cases i <;> simp [assignmentOrder, GEMM_Options_Pad.symbol]
    | ok pb =>
    have e4 := (Pad_Op_ofStr_ok h4).symm
    cases h2 : BLAS_Op.ofStr [c2] with
    | error e =>
      refine ⟨4, by decide, by simp [assignmentOrder, symbolOk, charAt, h2], ?_, ?_⟩
      · intro i hi
        interval_cases i <;>
          simp [assignmentOrder, symbolOk, charAt, h0, h3, h1, h4, GEMM_Options_Pad.symbol,
            e0, e3, e1, e4]
      · intro i h1 h2
        interval_cases i <;> simp [assignmentOrder, GEMM_Options_Pad.symbol]
    | ok tc =>
    have e2 := (BLAS_Op_ofStr_ok h2).symm
    cases h5 : Pad_Op.ofStr [c5] with
    | error e =>
      refine ⟨5, by decide, by simp [assignmentOrder, symbolOk, charAt, h5], ?_, ?_⟩
      · intro i hi
        interval_cases i <;>
          simp [assignmentOrder, symbolOk, charAt, h0, h3, h1, h4, h2,
            GEMM_Options_Pad.symbol, e0, e3, e1, e4, e2]
      · intro i h1 h2
        interval_cases i
        simp [assignmentOrder, GEMM_Options_Pad.symbol]
    | ok pc =>
      simp [h0, h3, h1, h4, h2, h5] at hraised
  · have e : GEMM_Options_Pad.read is opts = ⟨opts, { is1 with failbit := true }, none⟩ := by
      simp [GEMM_Options_Pad.read, hrs, hlen]
    rw [e]
    exact ⟨fun _ => ⟨rfl, rfl, rfl⟩, fun h => absurd rfl h⟩

/-- C27, as stated, fails: on the token `TNNXNN` the decode throws at the symbol `X`, which
is read second, for `pada`; by then `transa` has been assigned `TRANS`, and the option
object, which held the default option, no longer does. -/
theorem read_assigns_before_throw :
    (GEMM_Options_Pad.read (IStream.ofStr "TNNXNN".toList)
      GEMM_Options_Pad.default_opts).raised
      = some (.runtime_error "Invalid Pad_Op string X".toList) ∧
    GEMM_Options_Pad.default_opts.transa = .NOTRANS ∧
    (GEMM_Options_Pad.read (IStream.ofStr "TNNXNN".toList)
      GEMM_Options_Pad.default_opts).opts.transa = .TRANS ∧
    (GEMM_Options_Pad.read (IStream.ofStr "TNNXNN".toList)
      GEMM_Options_Pad.default_opts).opts
      = ⟨.TRANS, .NOPAD, .NOTRANS, .NOPAD, .NOTRANS, .NOPAD⟩ :=
  ⟨by decide, by decide, by decide, by decide⟩

end rtat

namespace rtat

/-! ## `degrade_plan` on tables that hold a rejected option -/

section degrade_choice

variable {Params Key Opts : Type} {S : Sig Params Key Opts}

/-- When one fitting entry of the table is strictly faster than every other fitting entry,
`degrade_plan` returns its option, however `std::sort` orders equal times. -/
theorem degrade_plan_fastest (gp : GEMM_Planner Key Opts) (params : Params) (o : Opts)
    (r : Performance_Record)
    (hmem : (o, r) ∈ Planning_System.table S
        (Planning_System.get_analytics S gp (S.key params)) (S.key params))
    (hfit : S.workspace_req o params ≤ S.space params)
    (hfast : ∀ x ∈ Planning_System.table S
        (Planning_System.get_analytics S gp (S.key params)) (S.key params),
      S.workspace_req x.1 params ≤ S.space params → x ≠ (o, r) →
        S.get_time r < S.get_time x.2) :
    (GEMM_Planner.degrade_plan S gp params).map Prod.fst = some o := by
  have hsome : (GEMM_Planner.degrade_plan S gp params).isSome = true := by
    rw [degrade_plan_isSome]
    exact ⟨o, List.mem_map.2 ⟨(o, r), hmem, rfl⟩, hfit⟩
  obtain ⟨⟨o', gp'⟩, h⟩ := Option.isSome_iff_exists.1 hsome
  obtain ⟨h1, r', h2, h3⟩ := degrade_plan_spec h
  rw [h]
  simp only [Option.map_some', Option.some.injEq]
  by_contra hne
  have hx : ((o', r') : Opts × Performance_Record) ≠ (o, r) := by
    intro e
    exact hne (congrArg Prod.fst e)
  have hlt := hfast (o', r') h2 h1 hx
  have hle := h3 (o, r) hmem hfit
  exact absurd hlt (not_lt.2 hle)

/-- The options of a table that `get_analytics` has just built are admissible. -/
theorem table_new_admissible (hK : IsStrictTotal S.keyLt) (hO : IsStrictTotal S.optLt)
    (gp : GEMM_Planner Key Opts) (key : Key)
    (h : StdMap.find S.keyLt key gp.analytics = none) :
    ∀ o ∈ StdMap.keys (Planning_System.table S (Planning_System.get_analytics S gp key) key),
      Planning_System.admissible S gp key o := by
  intro o ho
  rw [table_get_analytics_new hK gp key h, Analytics_new_keys hO] at ho
  refine ⟨ho.1, ?_⟩
  intro pred hpred
  exact ho.2 _ (List.mem_map.2 ⟨pred, hpred, rfl⟩)

/-- While every option of the table is admissible, as in a table that no `execute` has
added to, the option `degrade_plan` returns is admissible. -/
theorem degrade_plan_admissible (gp : GEMM_Planner Key Opts) (params : Params)
    (hall : ∀ o ∈ StdMap.keys (Planning_System.table S
        (Planning_System.get_analytics S gp (S.key params)) (S.key params)),
      Planning_System.admissible S gp (S.key params) o)
    (o : Opts) (gp' : GEMM_Planner Key Opts)
    (h : GEMM_Planner.degrade_plan S gp params = some (o, gp')) :
    Planning_System.admissible S gp (S.key params) o := by
  obtain ⟨-, r, h2, -⟩ := degrade_plan_spec h
  exact hall o (List.mem_map.2 ⟨(o, r), h2, rfl⟩)

end degrade_choice

theorem meanTime_single (q : ℚ) (s : Bool) :
    meanTime ⟨[((q : ℚ) : Time)], s⟩ = ((q : ℚ) : Time) :=
  meanTime_replicate 1 (by decide) q s

theorem rejectedInTable_reached :
    (Planning_System.execute gemmSig (GEMM_Planner.new [leftOnly] 3) plainOpt
        (smallInputs 1000) ((1 : ℚ) : Time)).bind
      (fun g => Planning_System.execute gemmSig g leftMoved (smallInputs 1000) ((5 : ℚ) : Time))
    = some rejectedInTable := rfl

theorem rejectedInTable_table (space : Nat) :
    Planning_System.table gemmSig
      (Planning_System.get_analytics gemmSig rejectedInTable (gemmSig.key (smallInputs space)))
      (gemmSig.key (smallInputs space))
      = [(plainOpt, ⟨[((1 : ℚ) : Time)], false⟩), (leftMoved, ⟨[((5 : ℚ) : Time)], true⟩)] :=
  rfl

theorem rejectedInTable_degrade (space : Nat) :
    (GEMM_Planner.degrade_plan gemmSig rejectedInTable (smallInputs space)).map Prod.fst
      = some plainOpt := by
  refine degrade_plan_fastest (S := gemmSig) rejectedInTable (smallInputs space) plainOpt
    ⟨[((1 : ℚ) : Time)], false⟩ ?_ ?_ ?_
  · rw [rejectedInTable_table]; exact List.mem_cons_self _ _
  · exact Nat.zero_le _
  · intro x hx _ hne
    rw [rejectedInTable_table] at hx
    simp only [List.mem_cons, List.mem_singleton, List.not_mem_nil, or_false] at hx
    rcases hx with rfl | rfl
    · exact absurd rfl hne
    · show meanTime ⟨[((1 : ℚ) : Time)], false⟩ < meanTime ⟨[((5 : ℚ) : Time)], true⟩
      rw [meanTime_single, meanTime_single]
      exact WithTop.coe_lt_coe.2 (by norm_num)

/-- C14, as stated, fails once the table holds an option that the predicates reject. From a
new planner with the predicate `leftOnly`, `execute(plainOpt, params, s)` with 1 ms and
`execute(leftMoved, params, s)` with 5 ms lead to `rejectedInTable`. There `leftMoved` is
admissible, is in the table and fits the workspace of 1000 bytes, yet `degrade_plan` returns
`plainOpt`, which is not admissible. -/
theorem degrade_plan_returns_rejected :
    (Planning_System.execute gemmSig (GEMM_Planner.new [leftOnly] 3) plainOpt
        (smallInputs 1000) ((1 : ℚ) : Time)).bind
      (fun g => Planning_System.execute gemmSig g leftMoved (smallInputs 1000) ((5 : ℚ) : Time))
      = some rejectedInTable ∧
    Planning_System.admissible gemmSig rejectedInTable (gemmSig.key (smallInputs 1000))
      leftMoved ∧
    leftMoved ∈ StdMap.keys (Planning_System.table gemmSig
      (Planning_System.get_analytics gemmSig rejectedInTable (gemmSig.key (smallInputs 1000)))
      (gemmSig.key (smallInputs 1000))) ∧
    gemmSig.workspace_req leftMoved (smallInputs 1000) ≤ gemmSig.space (smallInputs 1000) ∧
    ¬ Planning_System.admissible gemmSig rejectedInTable (gemmSig.key (smallInputs 1000))
      plainOpt ∧
    (GEMM_Planner.degrade_plan gemmSig rejectedInTable (smallInputs 1000)).map Prod.fst
      = some plainOpt := by
  refine ⟨rfl, ⟨by decide, ?_⟩, by decide, by decide, ?_, rejectedInTable_degrade 1000⟩
  · intro pred hpred
    simp only [rejectedInTable, List.mem_singleton] at hpred
    subst hpred
    decide
  · rintro ⟨-, h⟩
    have := h leftOnly (by simp [rejectedInTable])
    revert this
    decide

/-- C15, as stated, fails once the table holds an option that the predicates reject. From a
new planner with the predicate `rejectAll`, which admits no option, one
`execute(plainOpt, params, s)` leads to `onlyRejected`: the admissible set is empty, and
`degrade_plan` does not fail but returns `plainOpt`. -/
theorem degrade_plan_on_empty_admissible_set :
    Planning_System.execute gemmSig (GEMM_Planner.new [rejectAll] 3) plainOpt
      (smallInputs 1000) ((1 : ℚ) : Time) = some onlyRejected ∧
    (∀ o, ¬ Planning_System.admissible gemmSig onlyRejected (gemmSig.key (smallInputs 1000))
      o) ∧
    (GEMM_Planner.degrade_plan gemmSig onlyRejected (smallInputs 1000)).map Prod.fst
      = some plainOpt := by
  refine ⟨rfl, ?_, ?_⟩
  · rintro o ⟨-, h⟩
    have := h rejectAll (by simp [onlyRejected])
    simp [rejectAll] at this
  · refine degrade_plan_fastest (S := gemmSig) onlyRejected (smallInputs 1000) plainOpt
      ⟨[((1 : ℚ) : Time)], false⟩ ?_ ?_ ?_
    · show (plainOpt, (⟨[((1 : ℚ) : Time)], false⟩ : Performance_Record))
        ∈ [(plainOpt, (⟨[((1 : ℚ) : Time)], false⟩ : Performance_Record))]
      exact List.mem_cons_self _ _
    · exact Nat.zero_le _
    · intro x hx _ hne
      have hx' : x ∈ [(plainOpt, (⟨[((1 : ℚ) : Time)], false⟩ : Performance_Record))] := hx
      simp only [List.mem_singleton] at hx'
      exact absurd hx' hne

/-- C16, as stated, fails once the table holds an option that the predicates reject. In
`rejectedInTable`, with no workspace at all, neither the requested option `TNT/PNN` nor
`leftMoved`, the one admissible option, fits; yet `internal_execute` executes a tree, that
of `plainOpt`, which `degrade_plan` finds in the table. -/
theorem internal_execute_runs_rejected :
    (Planning_System.execute gemmSig (GEMM_Planner.new [leftOnly] 3) plainOpt
        (smallInputs 1000) ((1 : ℚ) : Time)).bind
      (fun g => Planning_System.execute gemmSig g leftMoved (smallInputs 1000) ((5 : ℚ) : Time))
      = some rejectedInTable ∧
    ¬ gemmSig.workspace_req ⟨.TRANS, .PAD, .NOTRANS, .NOPAD, .TRANS, .NOPAD⟩ (smallInputs 0)
        ≤ gemmSig.space (smallInputs 0) ∧
    (∀ o, Planning_System.admissible gemmSig rejectedInTable (gemmSig.key (smallInputs 0)) o →
      ¬ gemmSig.workspace_req o (smallInputs 0) ≤ gemmSig.space (smallInputs 0)) ∧
    (GEMM_Planner.internal_execute gemmSig rejectedInTable
        ⟨.TRANS, .PAD, .NOTRANS, .NOPAD, .TRANS, .NOPAD⟩ (smallInputs 0)).map Prod.fst
      = some plainOpt := by
  refine ⟨rfl, by decide, ?_, ?_⟩
  · rintro o ⟨-, h⟩
    have h1 := h leftOnly (by simp [rejectedInTable])
    have h2 : o = leftMoved := by simpa [leftOnly] using h1
    subst h2
    decide
  · have hbig : gemmSig.workspace_req ⟨.TRANS, .PAD, .NOTRANS, .NOPAD, .TRANS, .NOPAD⟩
        (smallInputs 0) > gemmSig.space (smallInputs 0) := by decide
    simp only [GEMM_Planner.internal_execute, hbig, if_true]
    exact rejectedInTable_degrade 0

/-- C14 at the two-option planner whose records hold one sample each, 5 ms for `plainOpt`
and 1 ms for `leftMoved`, with a workspace of 1000 bytes that both options fit. -/
theorem degrade_plan_sound_witness :
    (∃ x ∈ Planning_System.table gemmSig
        (Planning_System.get_analytics gemmSig (twoOptPlanner 1 1 5 1 1)
          (gemmSig.key (smallInputs 1000))) (gemmSig.key (smallInputs 1000)),
      gemmSig.workspace_req x.1 (smallInputs 1000) ≤ gemmSig.space (smallInputs 1000)) ∧
    (∃ o r gp', GEMM_Planner.degrade_plan gemmSig (twoOptPlanner 1 1 5 1 1)
        (smallInputs 1000) = some (o, gp') ∧
      (o, r) ∈ Planning_System.table gemmSig
        (Planning_System.get_analytics gemmSig (twoOptPlanner 1 1 5 1 1)
          (gemmSig.key (smallInputs 1000))) (gemmSig.key (smallInputs 1000)) ∧
      gemmSig.workspace_req o (smallInputs 1000) ≤ gemmSig.space (smallInputs 1000) ∧
      ∀ x ∈ Planning_System.table gemmSig
          (Planning_System.get_analytics gemmSig (twoOptPlanner 1 1 5 1 1)
            (gemmSig.key (smallInputs 1000))) (gemmSig.key (smallInputs 1000)),
        gemmSig.workspace_req x.1 (smallInputs 1000) ≤ gemmSig.space (smallInputs 1000) →
          ¬ gemmSig.get_time x.2 < gemmSig.get_time r) :=
  ⟨by decide,
   degrade_plan_sound (S := gemmSig) (twoOptPlanner 1 1 5 1 1) (smallInputs 1000)
     (by decide)⟩

end rtat

namespace rtat

section phase_claims

variable {Params Key Opts : Type} {S : Sig Params Key Opts}

/-- While some record of the shape has at most 10000 samples, the branch `create_plan` takes
is the phase of the shape: the explore loop returns exactly when some record has fewer
samples than `tests_until_converge`. -/
theorem explores_iff_below_threshold (gp : GEMM_Planner Key Opts) (params : Params)
    (hsmall : ∃ x ∈ Planning_System.table S
        (Planning_System.get_analytics S gp (S.key params)) (S.key params),
      x.2.count ≤ 10000) :
    GEMM_Planner.explores S gp params = true ↔
      ∃ x ∈ Planning_System.table S
          (Planning_System.get_analytics S gp (S.key params)) (S.key params),
        (x.2.count : Int) < gp.tests_until_converge := by
  unfold GEMM_Planner.explores
  generalize Planning_System.table S (Planning_System.get_analytics S gp (S.key params))
    (S.key params) = data at hsmall
  obtain ⟨xs, hxs, hsm⟩ := hsmall
  obtain ⟨h1, h2, h3⟩ := min_count_le data
  have hex : ∃ x ∈ data, (x.2.count : Int) = GEMM_Planner.min_count data := by
    rcases h3 with h3 | h3
    · refine ⟨xs, hxs, ?_⟩
      have := h2 xs hxs
      omega
    · exact h3
  simp only [Bool.and_eq_true, decide_eq_true_eq, List.any_eq_true]
  constructor
  · rintro ⟨hlt, -⟩
    obtain ⟨x, hx, hx2⟩ := hex
    exact ⟨x, hx, by omega⟩
  · rintro ⟨x, hx, hlt⟩
    have := h2 x hx
    exact ⟨by omega, hex⟩

end phase_claims

/-- C23: the code at the planner whose two options hold 10001 and 10002 samples, with
threshold 20000. Every record of the shape has fewer samples than the threshold, so the
shape is in the explore phase, and every record has `synchronous = true`. The call of
`create_plan` returns, and it leaves both records with `synchronous = false`: the search
for the least count starts from 10000, no record has that count, and the exploit loop runs
and clears the flags. -/
theorem create_plan_switches_below_threshold :
    Planning_System.table gemmSig (twoOptPlanner 10001 10002 5 1 20000)
        (gemmSig.key (smallInputs 1000))
      = [(plainOpt, ⟨List.replicate 10001 ((5 : ℚ) : Time), true⟩),
         (leftMoved, ⟨List.replicate 10002 ((1 : ℚ) : Time), true⟩)] ∧
    (∀ x ∈ Planning_System.table gemmSig (twoOptPlanner 10001 10002 5 1 20000)
        (gemmSig.key (smallInputs 1000)),
      (x.2.count : Int) < (twoOptPlanner 10001 10002 5 1 20000).tests_until_converge) ∧
    (∃ o gp', GEMM_Planner.create_plan gemmSig (twoOptPlanner 10001 10002 5 1 20000)
        (smallInputs 1000) = some (o, gp') ∧
      Planning_System.table gemmSig gp' (gemmSig.key (smallInputs 1000))
        = [(plainOpt, ⟨List.replicate 10001 ((5 : ℚ) : Time), false⟩),
           (leftMoved, ⟨List.replicate 10002 ((1 : ℚ) : Time), false⟩)]) := by
  have hno : GEMM_Planner.min_count
        [(plainOpt, (⟨List.replicate 10001 ((5 : ℚ) : Time), true⟩ : Performance_Record)),
         (leftMoved, ⟨List.replicate 10002 ((1 : ℚ) : Time), true⟩)]
        < (twoOptPlanner 10001 10002 5 1 20000).tests_until_converge →
      ∀ x ∈ [(plainOpt, (⟨List.replicate 10001 ((5 : ℚ) : Time), true⟩ : Performance_Record)),
         (leftMoved, ⟨List.replicate 10002 ((1 : ℚ) : Time), true⟩)],
        (x.2.count : Int) ≠ GEMM_Planner.min_count
          [(plainOpt, (⟨List.replicate 10001 ((5 : ℚ) : Time), true⟩ : Performance_Record)),
           (leftMoved, ⟨List.replicate 10002 ((1 : ℚ) : Time), true⟩)] := by
    intro _ x hx
    have h1 := (min_count_le
      [(plainOpt, (⟨List.replicate 10001 ((5 : ℚ) : Time), true⟩ : Performance_Record)),
       (leftMoved, ⟨List.replicate 10002 ((1 : ℚ) : Time), true⟩)]).1
    simp only [List.mem_cons, List.mem_singleton, List.not_mem_nil, or_false] at hx
    rcases hx with rfl | rfl
    · simp only [Performance_Record.count, List.length_replicate]
      omega
    · simp only [Performance_Record.count, List.length_replicate]
      omega
  refine ⟨rfl, ?_, _, _,
    create_plan_exploit (S := gemmSig) _ _ _ _ (twoOptPlanner_table 10001 10002 5 1 20000) hno,
    ?_⟩
  · intro x hx
    have hx2 : x ∈ [(plainOpt,
          (⟨List.replicate 10001 ((5 : ℚ) : Time), true⟩ : Performance_Record)),
        (leftMoved, ⟨List.replicate 10002 ((1 : ℚ) : Time), true⟩)] := hx
    simp only [List.mem_cons, List.mem_singleton, List.not_mem_nil, or_false] at hx2
    show (x.2.count : Int) < 20000
    rcases hx2 with rfl | rfl
    · simp only [Performance_Record.count, List.length_replicate]
      omega
    · simp only [Performance_Record.count, List.length_replicate]
      omega
  · rfl

end rtat
